import Mathlib

/-!
# Verification of the B-tree backend of the ADT Set
  (src/modules/UsingBTree/ADTSet.c, public interface src/unnamed/part_000 = ADTSet.h)

Shallow embedding.  The C code stores values behind `Pointer`s and orders them
with a caller-supplied comparator; comparator-equal values may be distinct
pointers.  We model a pointer as a pair of an integer `key` (what the
comparator inspects) and an identity tag `id` (the pointer itself), and the
comparator as the integer comparison on `key`, returning a C-style
negative/zero/positive `Int` exactly as `compare` does in the source.

The C tree is a pointer structure with parent / owner back-references mutated
in place.  The embedding is the standard pure rendering: a `btree_node` is an
inductive tree node holding its list of values and its list of children
(`children = []` ↔ `is_leaf`, i.e. `children[0] == NULL`); in-place updates
become functions returning the new subtree; the upward walks through `parent`
pointers (`split` climbing on overflow, `repair_underflow`/`merge` climbing on
underflow) become repairs performed by the parent's stack frame when the
recursive call on the child returns.
-/

namespace ADTSet

/-- A C `Pointer` value: `key` is what the comparator sees, `id` is the
pointer identity (distinct pointers may compare equal). -/
structure Val where
  key : Int
  id : Nat
deriving DecidableEq, Repr

/-- Dummy value used only for out-of-range `getD` reads (never reached on the
index ranges the source actually uses). -/
def dummy : Val := ⟨0, 0⟩

/-- The caller-supplied comparator (`CompareFunc`): a C three-way comparison
on the keys. -/
def cmpv (a b : Val) : Int :=
  if a.key < b.key then -1 else if a.key = b.key then 0 else 1

/-- #define MIN_CHILDREN 3 -/
def MIN_CHILDREN : Nat := 3
/-- #define MAX_CHILDREN 5 -/
def MAX_CHILDREN : Nat := 5
/-- #define MIN_VALUES (MIN_CHILDREN - 1) -/
def MIN_VALUES : Nat := MIN_CHILDREN - 1
/-- #define MAX_VALUES (MAX_CHILDREN - 1) -/
def MAX_VALUES : Nat := MAX_CHILDREN - 1

/-- `struct btree_node`: `count` values (`set_nodes[0..count-1]`) and, for
internal nodes, `count+1` children.  A leaf (`children[0] == NULL`) is
modelled by an empty child list. -/
inductive BTreeNode where
  | node (vals : List Val) (children : List BTreeNode)
deriving Repr

/-- The node's value list (`set_nodes[0..count-1]`, each holding its value). -/
def BTreeNode.vals : BTreeNode → List Val
  | .node vs _ => vs

/-- The node's child list (`children[0..count]`, empty for a leaf). -/
def BTreeNode.children : BTreeNode → List BTreeNode
  | .node _ cs => cs

/-- `node->count`. -/
def BTreeNode.count (t : BTreeNode) : Nat := t.vals.length

/-- `is_leaf`: `node->children[0] == NULL`. -/
def BTreeNode.is_leaf (t : BTreeNode) : Bool := t.children.isEmpty

/-- Placeholder node for out-of-range child reads (never reached on the
index ranges the source actually uses). -/
def nilNode : BTreeNode := .node [] []

theorem sizeOf_btree_pos (t : BTreeNode) : 3 ≤ sizeOf t := by
  cases t with
  | node vs cs =>
    simp only [BTreeNode.node.sizeOf_spec]
    have h1 : 1 ≤ sizeOf vs := by cases vs <;> simp_arith
    have h2 : 1 ≤ sizeOf cs := by cases cs <;> simp_arith
    omega

theorem sizeOf_getD_lt (vs : List Val) (cs : List BTreeNode) (i : Nat)
    (h : cs ≠ []) : sizeOf (cs.getD i nilNode) < sizeOf (BTreeNode.node vs cs) := by
  by_cases hi : i < cs.length
  · have hm : cs.getD i nilNode ∈ cs := by
      rw [List.getD_eq_getElem?_getD, List.getElem?_eq_getElem hi]
      exact List.getElem_mem hi
    have := List.sizeOf_lt_of_mem hm
    have h1 : 0 ≤ sizeOf vs := by positivity
    simp only [BTreeNode.node.sizeOf_spec]
    omega
  · rw [List.getD_eq_getElem?_getD, List.getElem?_eq_none (by omega)]
    cases cs with
    | nil => exact absurd rfl h
    | cons c cs' =>
      have := sizeOf_btree_pos c
      have h2 : 1 ≤ sizeOf cs' := by cases cs' <;> simp_arith
      simp only [BTreeNode.node.sizeOf_spec, List.cons.sizeOf_spec, Option.getD_none]
      have h1 : 1 ≤ sizeOf vs := by cases vs <;> simp_arith
      have : sizeOf nilNode = 3 := by rfl
      omega

theorem one_le_sizeOf_list (l : List BTreeNode) : 1 ≤ sizeOf l := by
  cases l <;> simp_arith

/- ================== node_find (search scan) ================== -/

/-- The scan loop of `node_find` (ADTSet.c:427-439): walk the node's values;
`.inl i` means `compare(value, set_nodes[i]->value) == 0` (found at `i`),
`.inr i` means the loop stopped at `i` (first value greater than the target,
or `i = count`), the index of the child to descend into / the leaf slot. -/
def find_slot (v : Val) : List Val → Sum Nat Nat
  | [] => .inr 0
  | w :: ws =>
    let c := cmpv v w
    if c = 0 then .inl 0
    else if c < 0 then .inr 0
    else
      match find_slot v ws with
      | .inl i => .inl (i + 1)
      | .inr i => .inr (i + 1)

mutual
/-- `node_find` (ADTSet.c:422-448), fused with the value read that its callers
perform: returns the stored value that compares equal to `v`, or `none` when
the scan reaches a leaf without a match.  (`set_find` returns
`node->set_nodes[index]->value` on success, NULL otherwise.)  On an internal
node the scan and the descent run as `findWalk`. -/
def node_find_val (v : Val) (t : BTreeNode) : Option Val :=
  match t with
  | .node vs [] =>
    match find_slot v vs with
    | .inl i => some (vs.getD i dummy)
    | .inr _ => none
  | .node vs (c0 :: cs) => findWalk v c0 vs cs
termination_by sizeOf t
decreasing_by
  all_goals first
    | (exact sizeOf_getD_lt _ _ _ (by simp))
    | (simp only [BTreeNode.node.sizeOf_spec, List.cons.sizeOf_spec]
       omega)
    | (have h9 := one_le_sizeOf_list ‹List BTreeNode›
       omega)

/-- The loop of `node_find` (ADTSet.c:427-446) on an internal node, walking
the values in parallel with the child to the left of each: `p` is the child
before the first remaining value.  A zero comparison returns the stored
value; a negative one descends into `p`; running past the last value
descends into the last child. -/
def findWalk (v : Val) (p : BTreeNode) (vals : List Val) (children : List BTreeNode) :
    Option Val :=
  match vals, children with
  | [], _ => node_find_val v p
  | w :: ws, c :: cs =>
    let cr := cmpv v w
    if cr = 0 then some w
    else if cr < 0 then node_find_val v p
    else findWalk v c ws cs
  | _ :: _, [] => none -- misaligned node: unreachable on B-tree states
termination_by sizeOf p + sizeOf children
decreasing_by
  all_goals first
    | (exact sizeOf_getD_lt _ _ _ (by simp))
    | (simp only [BTreeNode.node.sizeOf_spec, List.cons.sizeOf_spec]
       omega)
    | (have h9 := one_le_sizeOf_list ‹List BTreeNode›
       omega)
end

/- ================== node_insert / split ================== -/

/-- The leaf-position scan of `node_insert` (ADTSet.c:314-315):
`for (index = 0; index < count && compare(value, vals[index]) > 0; index++)`. -/
def leaf_pos (v : Val) : List Val → Nat
  | [] => 0
  | w :: ws => if cmpv v w > 0 then leaf_pos v ws + 1 else 0

/-- `split` (ADTSet.c:330-375), the node-local part: cut an overflowing node
(`count = MAX_VALUES + 1 = 5`) at `half = count/2`; the left node keeps
`vals[0..half-1]` and `children[0..half]`, the median `vals[half]` is promoted,
and the freshly created right sibling receives `vals[half+1..count-1]` and
`children[half+1..count]`.  The insertion of the median into the parent (or
the creation of a new root) is done at the caller's level, where the C code
reaches it through the `parent` pointer. -/
def split (t : BTreeNode) : BTreeNode × Val × BTreeNode :=
  match t with
  | .node vals children =>
    let half := vals.length / 2
    (.node (vals.take half) (children.take (half + 1)),
     vals.getD half dummy,
     .node (vals.drop (half + 1)) (children.drop (half + 1)))

/-- The overflow check of `node_insert` (ADTSet.c:319-320) together with the
parent half of `split` (ADTSet.c:363-373), performed by the parent's stack
frame when the descent returns: if the child came back holding more than
`MAX_VALUES` values, split it and splice the promoted median and the new
right sibling into the parent at the descent position — the position the C
code recomputes by the comparison scan of ADTSet.c:364-367, which on a node
with ordered separators is exactly where the descent entered. -/
def fixup (r : BTreeNode × Option Val) (vals : List Val)
    (children : List BTreeNode) :
    BTreeNode × List Val × List BTreeNode × Option Val :=
  if r.1.count > MAX_VALUES then
    let s := split r.1
    (s.1, s.2.1 :: vals, s.2.2 :: children, r.2)
  else (r.1, vals, children, r.2)

mutual
/-- `node_insert` (ADTSet.c:293-325), descent part, with `node_find` fused
into the recursion: on a leaf, replace the equal value or insert at the
scanned position (possibly leaving the leaf with `MAX_VALUES + 1` values for
the caller to split); on an internal node, scan and descend as `insWalk`.
Returns the new subtree (possibly overfull at its root) and `some old` when
an equal value was found and replaced in place. -/
def node_insert_go (v : Val) (t : BTreeNode) : BTreeNode × Option Val :=
  match t with
  | .node vs [] =>
    match find_slot v vs with
    | .inl i =>
      -- the value already exists: replace it, report the old one
      (.node (vs.set i v) [], some (vs.getD i dummy))
    | .inr _ =>
      -- insert at the scanned position
      (.node (vs.insertIdx (leaf_pos v vs) v) [], none)
  | .node vs (c0 :: cs) =>
    let r := insWalk v c0 vs cs
    (.node r.2.1 (r.1 :: r.2.2.1), r.2.2.2)
termination_by sizeOf t
decreasing_by
  all_goals first
    | (exact sizeOf_getD_lt _ _ _ (by simp))
    | (simp only [BTreeNode.node.sizeOf_spec, List.cons.sizeOf_spec]
       omega)
    | (have h9 := one_le_sizeOf_list ‹List BTreeNode›
       omega)

/-- The `node_find` scan of `node_insert` on an internal node, walking the
values with the child to the left of each (`p` is the child before the first
remaining value).  A zero comparison replaces the value in place
(ADTSet.c:305-311); otherwise the walk descends into the proper child and,
on return, `fixup` splits it if it overflowed, splicing the median and the
new right sibling in at this position.  Returns the rebuilt suffix and the
replaced value, if any. -/
def insWalk (v : Val) (p : BTreeNode) (vals : List Val) (children : List BTreeNode) :
    BTreeNode × List Val × List BTreeNode × Option Val :=
  match vals, children with
  | [], rest => fixup (node_insert_go v p) [] rest
  | w :: ws, c :: cs =>
    let cr := cmpv v w
    if cr = 0 then (p, v :: ws, c :: cs, some w)
    else if cr < 0 then fixup (node_insert_go v p) (w :: ws) (c :: cs)
    else
      let r := insWalk v c ws cs
      (p, w :: r.2.1, r.1 :: r.2.2.1, r.2.2.2)
  | w :: ws, [] => (p, w :: ws, [], none) -- misaligned node: unreachable on B-tree states
termination_by sizeOf p + sizeOf children
decreasing_by
  all_goals first
    | (exact sizeOf_getD_lt _ _ _ (by simp))
    | (simp only [BTreeNode.node.sizeOf_spec, List.cons.sizeOf_spec]
       omega)
    | (have h9 := one_le_sizeOf_list ‹List BTreeNode›
       omega)
end

/-- `node_insert` (ADTSet.c:293-325) at the root: empty tree creates the first
node; a root overflow creates a new root with the median as its only value
(the `parent == NULL` branch of `split`, ADTSet.c:354-361). -/
def node_insert (root : Option BTreeNode) (v : Val) :
    BTreeNode × Bool × Option Val :=
  match root with
  | none => (.node [v] [], true, none)
  | some t =>
    let r := node_insert_go v t
    match r.2 with
    | some o => (r.1, false, some o)
    | none =>
      if r.1.count > MAX_VALUES then
        let s := split r.1
        (.node [s.2.1] [s.1, s.2.2], true, none)
      else (r.1, true, none)

/- ================== set_remove machinery ================== -/

/-- `node_find_min` (ADTSet.c:451-458): descend `children[0]` to a leaf, take
its first value. -/
def node_find_min_v : BTreeNode → Val
  | .node vals [] => vals.getD 0 dummy
  | .node _ (c :: _) => node_find_min_v c

/-- `node_find_max` (ADTSet.c:461-468): descend `children[count]` to a leaf,
take `set_nodes[count-1]`.  (The C code tests `children[count] != NULL` to
detect a leaf; on a node satisfying the arity invariant that is `is_leaf`.) -/
def node_find_max_v (t : BTreeNode) : Val :=
  match t with
  | .node vs [] => vs.getD (vs.length - 1) dummy
  | .node vs (c :: cs) => node_find_max_v ((c :: cs).getD vs.length nilNode)
termination_by sizeOf t
decreasing_by
  all_goals first
    | (exact sizeOf_getD_lt _ _ _ (by simp))
    | (simp only [BTreeNode.node.sizeOf_spec, List.cons.sizeOf_spec]
       omega)
    | (have h9 := one_le_sizeOf_list ‹List BTreeNode›
       omega)

/-- `tranfer_right` (ADTSet.c:125-145, the source misspells "transfer"):
move a value into an underflowed node from its left sibling through the
parent.  `left` is the left sibling, `sep` the separator between them in the
parent (`parent->set_nodes[sep_index]`), `nd` the underflowed node.  The
separator is prepended to `nd`, the left sibling's largest value replaces the
separator, and (for internal nodes) the left sibling's last child is
prepended to `nd`.  Returns the new `(left, separator, nd)`. -/
def tranfer_right (left : BTreeNode) (sep : Val) (nd : BTreeNode) :
    BTreeNode × Val × BTreeNode :=
  (.node left.vals.dropLast left.children.dropLast,
   left.vals.getD (left.vals.length - 1) dummy,
   .node (sep :: nd.vals)
     (if nd.is_leaf then nd.children
      else left.children.getD left.vals.length nilNode :: nd.children))

/-- `transfer_left` (ADTSet.c:149-176): move a value into an underflowed node
from its right sibling through the parent.  The separator is appended to
`nd`, the right sibling's smallest value replaces the separator, and (for
internal nodes) the right sibling's first child is appended to `nd`; the
right sibling's values and children shift one place left.  Returns the new
`(nd, separator, right)`. -/
def transfer_left (nd : BTreeNode) (sep : Val) (right : BTreeNode) :
    BTreeNode × Val × BTreeNode :=
  (.node (nd.vals ++ [sep])
     (if nd.is_leaf then nd.children
      else nd.children ++ [right.children.getD 0 nilNode]),
   right.vals.getD 0 dummy,
   .node (right.vals.drop 1) (right.children.drop 1))

/-- `merge` (ADTSet.c:182-214), the node-building part: absorb the right node
into the left, pulling the separator value down from the parent.  The
parent-side bookkeeping (removing the separator and the right child, and the
`repair_underflow(parent)` the C code triggers through the parent pointer)
is done by the caller's frame. -/
def merge (left : BTreeNode) (sep : Val) (right : BTreeNode) : BTreeNode :=
  .node (left.vals ++ sep :: right.vals)
    (if right.is_leaf then left.children else left.children ++ right.children)

/-- `repair_underflow` (ADTSet.c:99-121) for the first child of a node, which
has no left sibling: the window is `(nd, vals, children)` where `nd` is
`children[0]` and `vals`/`children` are the node's values and its remaining
children.  Priority as in the source: a right sibling with surplus gives a
left rotation, otherwise merge with the right sibling.  No-op when `nd` is
not actually underflowed (first guard of `repair_underflow`). -/
def repair_head (nd : BTreeNode) (vals : List Val) (children : List BTreeNode) :
    BTreeNode × List Val × List BTreeNode :=
  if MIN_VALUES ≤ nd.count then (nd, vals, children)
  else
    match vals, children with
    | w :: ws, c :: cs =>
      if c.count > MIN_VALUES then
        let r := transfer_left nd w c
        (r.1, r.2.1 :: ws, r.2.2 :: cs)
      else (merge nd w c, ws, cs)
    | _, _ => (nd, vals, children) -- no sibling at all: unreachable on B-tree states

/-- `repair_underflow` (ADTSet.c:99-121) for a non-first child: the window is
`(p, w, nd, ws, cs)` where `p` is the left sibling, `w` the separator between
`p` and the underflowed node `nd`, and `ws`/`cs` the rest of the parent's
values and children (so the right sibling, if any, is the head of `cs` with
separator the head of `ws`).  Priority as in the source: right sibling with
surplus, else left sibling with surplus, else merge into the left sibling.
Returns the rebuilt window `(first child, values, children)`.  No-op when
`nd` is not underflowed. -/
def repair_mid (p : BTreeNode) (w : Val) (nd : BTreeNode)
    (ws : List Val) (cs : List BTreeNode) :
    BTreeNode × List Val × List BTreeNode :=
  if MIN_VALUES ≤ nd.count then (p, w :: ws, nd :: cs)
  else
    match ws, cs with
    | w2 :: ws', c2 :: cs' =>
      if c2.count > MIN_VALUES then
        let r := transfer_left nd w2 c2
        (p, w :: r.2.1 :: ws', r.1 :: r.2.2 :: cs')
      else if p.count > MIN_VALUES then
        let r := tranfer_right p w nd
        (r.1, r.2.1 :: w2 :: ws', r.2.2 :: c2 :: cs')
      else (merge p w nd, w2 :: ws', c2 :: cs')
    | _, _ =>
      -- nd is the last child: no right sibling
      if p.count > MIN_VALUES then
        let r := tranfer_right p w nd
        (r.1, r.2.1 :: ws, r.2.2 :: cs)
      else (merge p w nd, ws, cs)

mutual
/-- The removal of the largest value of a subtree, as `node_remove`
(ADTSet.c:258-266) performs it: `node_find_max` descends `children[count]`
to a leaf, the leaf's last value is taken out (`max_node->count--`), and
`repair_underflow` then climbs from that leaf through the parent pointers —
here each frame repairs the child it descended into on return.  Returns the
removed maximum and the new subtree (whose root may be left underflowed, for
the caller to repair). -/
def remove_max (t : BTreeNode) : Val × BTreeNode :=
  match t with
  | .node vals [] =>
    (vals.getD (vals.length - 1) dummy, .node vals.dropLast [])
  | .node vals (c0 :: cs) =>
    let r := remove_maxW c0 vals cs
    let q := repair_head r.2.1 r.2.2.1 r.2.2.2
    (r.1, .node q.2.1 (q.1 :: q.2.2))
termination_by sizeOf t
decreasing_by
  all_goals first
    | (exact sizeOf_getD_lt _ _ _ (by simp))
    | (simp only [BTreeNode.node.sizeOf_spec, List.cons.sizeOf_spec]
       omega)
    | (have h9 := one_le_sizeOf_list ‹List BTreeNode›
       omega)

/-- The walk to the last child for `remove_max`: `p` is the child before the
remaining values `vals` and children `children` of the node.  Runs to the
last child, removes the maximum below it, and on unwind repairs the child
descended into with its sibling window. -/
def remove_maxW (p : BTreeNode) (vals : List Val) (children : List BTreeNode) :
    Val × BTreeNode × List Val × List BTreeNode :=
  match vals, children with
  | [], rest =>
    let r := remove_max p
    (r.1, r.2, [], rest)
  | w :: ws, c :: cs =>
    let r := remove_maxW c ws cs
    let q := repair_mid p w r.2.1 r.2.2.1 r.2.2.2
    (r.1, q)
  | w :: ws, [] => (dummy, p, w :: ws, []) -- misaligned node: unreachable on B-tree states
termination_by sizeOf p + sizeOf children
decreasing_by
  all_goals first
    | (exact sizeOf_getD_lt _ _ _ (by simp))
    | (simp only [BTreeNode.node.sizeOf_spec, List.cons.sizeOf_spec]
       omega)
    | (have h9 := one_le_sizeOf_list ‹List BTreeNode›
       omega)
end

mutual
/-- `node_remove` (ADTSet.c:221-279), descent part, with `node_find` fused in:
find the value; remove it from the leaf directly, or, for an internal node,
replace the separator with the maximum of its left subtree and remove that
maximum from its leaf; repairs climb on unwind exactly where the C code's
`repair_underflow`/`merge` climb through the parent pointers.  Returns `none`
when no equal value exists, otherwise the new subtree (whose root may be
underflowed or even empty — the caller or `node_remove` fixes that up) and
the removed value. -/
def node_remove_go (v : Val) (t : BTreeNode) : Option (BTreeNode × Val) :=
  match t with
  | .node vals [] =>
    match find_slot v vals with
    | .inl i => some (.node (vals.eraseIdx i) [], vals.getD i dummy)
    | .inr _ => none
  | .node vals (c0 :: cs) =>
    match remWalk v c0 vals cs with
    | none => none
    | some r =>
      let q := repair_head r.1 r.2.1 r.2.2.1
      some (.node q.2.1 (q.1 :: q.2.2), r.2.2.2)
termination_by sizeOf t
decreasing_by
  all_goals first
    | (exact sizeOf_getD_lt _ _ _ (by simp))
    | (simp only [BTreeNode.node.sizeOf_spec, List.cons.sizeOf_spec]
       omega)
    | (have h9 := one_le_sizeOf_list ‹List BTreeNode›
       omega)

/-- The `node_find` scan of `node_remove` on an internal node, walking the
values with the child to the left of each: `p` is the child before the
remaining values.  On a match the value is a separator and is replaced by the
maximum of its left subtree (`node_remove`'s internal-node branch,
ADTSet.c:251-267); descending below the first remaining value goes into `p`;
walking past the last value descends into the last child.  On unwind, each
frame repairs the head child of the suffix returned to it (the child the
recursion descended into), which completes the sibling window
`repair_underflow` needs.  Returns the rebuilt suffix and the removed
value. -/
def remWalk (v : Val) (p : BTreeNode) (vals : List Val) (children : List BTreeNode) :
    Option (BTreeNode × List Val × List BTreeNode × Val) :=
  match vals, children with
  | [], rest =>
    (node_remove_go v p).map fun r => (r.1, [], rest, r.2)
  | w :: ws, c :: cs =>
    let cr := cmpv v w
    if cr = 0 then
      -- the value is the separator w: replace it with the max of its left child
      let r := remove_max p
      some (r.2, r.1 :: ws, c :: cs, w)
    else if cr < 0 then
      (node_remove_go v p).map fun r => (r.1, w :: ws, c :: cs, r.2)
    else
      match remWalk v c ws cs with
      | none => none
      | some r =>
        let q := repair_mid p w r.1 r.2.1 r.2.2.1
        some (q.1, q.2.1, q.2.2, r.2.2.2)
  | _ :: _, [] => none -- misaligned node: unreachable on B-tree states
termination_by sizeOf p + sizeOf children
decreasing_by
  all_goals first
    | (exact sizeOf_getD_lt _ _ _ (by simp))
    | (simp only [BTreeNode.node.sizeOf_spec, List.cons.sizeOf_spec]
       omega)
    | (have h9 := one_le_sizeOf_list ‹List BTreeNode›
       omega)
end

/-- `node_remove` (ADTSet.c:221-279) at the root: an empty tree removes
nothing; after a removal, an emptied root is discarded and its only child
(or NULL) becomes the new root (ADTSet.c:270-277). -/
def node_remove (root : Option BTreeNode) (v : Val) :
    Option BTreeNode × Bool × Option Val :=
  match root with
  | none => (none, false, none)
  | some t =>
    match node_remove_go v t with
    | none => (some t, false, none)
    | some r =>
      if r.1.count = 0 then (r.1.children.head?, true, some r.2)
      else (some r.1, true, some r.2)

/- ================== in-order contents ================== -/

mutual
/-- The ordered contents of a subtree: `btree_set_visit`'s visiting order
(ADTSet.c:757-764) — child `i`, value `i`, …, last child.  (The source writes
the node fields as `num_keys`/`keys`; they are this backend's
`count`/`set_nodes[i]->value`.) -/
def inorder : BTreeNode → List Val
  | .node vals [] => vals
  | .node vals (c :: cs) => inorder c ++ inorderW vals cs

/-- Walk pairing each value with the child to its right. -/
def inorderW : List Val → List BTreeNode → List Val
  | [], _ => []
  | v :: vs, [] => v :: vs
  | v :: vs, c :: cs => v :: (inorder c ++ inorderW vs cs)
end

/-- The key sequence of a subtree, in visiting order. -/
def inkeys (t : BTreeNode) : List Int := (inorder t).map Val.key

/- ================== the Set facade ================== -/

/-- `struct set` (ADTSet.c:21-26): root (NULL for the empty tree) and cached
size.  The comparator is fixed (`cmpv`); whether a destructor is installed is
irrelevant to the state — operations below report the values they would pass
to `destroy_value` when one is installed. -/
structure SetState where
  root : Option BTreeNode
  size : Int
deriving Repr

/-- `set_create` (ADTSet.c:557-567). -/
def set_create : SetState := ⟨none, 0⟩

/-- `set_size` (ADTSet.c:569-571). -/
def set_size (s : SetState) : Int := s.size

/-- `set_find` (ADTSet.c:573-576) / `set_find_node` (ADTSet.c:608-613):
the stored value that compares equal, `none` (NULL / `SET_EOF`) otherwise. -/
def set_find (s : SetState) (v : Val) : Option Val :=
  match s.root with
  | none => none
  | some t => node_find_val v t

/-- `set_insert` (ADTSet.c:616-627): insert or replace; the size grows only
on a true insertion; on replacement the displaced value would be passed to
`destroy_value` (returned here as the list of destroyed values). -/
def set_insert (s : SetState) (v : Val) : SetState × List Val :=
  let r := node_insert s.root v
  if r.2.1 then ({ root := some r.1, size := s.size + 1 }, [])
  else ({ root := some r.1, size := s.size }, r.2.2.toList)

/-- `set_remove` (ADTSet.c:578-593): returns the new state, whether a value
was removed, and the values that would be passed to `destroy_value`. -/
def set_remove (s : SetState) (v : Val) : SetState × Bool × List Val :=
  let r := node_remove s.root v
  if r.2.1 then ({ root := r.1, size := s.size - 1 }, true, r.2.2.toList)
  else ({ root := r.1, size := s.size }, false, [])

/-- `set_visit` (ADTSet.c:757-770): apply the callback to each element in
`btree_set_visit`'s order; no structural change.  Modelled as producing the
list of visited values. -/
def set_visit (s : SetState) : List Val :=
  match s.root with
  | none => []
  | some t => inorder t

/-- A mutation of the set: `set_insert` or `set_remove`. -/
inductive Op where
  | ins (v : Val)
  | rem (v : Val)
deriving Repr

/-- One mutation applied to a state. -/
def applyOp (s : SetState) : Op → SetState
  | .ins v => (set_insert s v).1
  | .rem v => (set_remove s v).1

/-- The state produced from `set_create` by a sequence of mutations. -/
def runOps (ops : List Op) : SetState := ops.foldl applyOp set_create

/- ================== the invariant checker of the source ================== -/

/-- The within-node ordering loop of `node_is_btree` (ADTSet.c:701-704):
adjacent values in a node compare strictly ascending. -/
def within_sorted : List Val → Bool
  | [] => true
  | [_] => true
  | a :: b :: rest => decide (cmpv a b < 0) && within_sorted (b :: rest)

/-- `get_height` (ADTSet.c:656-668), the height part: `1 +` the height of
`children[0]` (0 for NULL). -/
def height : BTreeNode → Nat
  | .node _ [] => 1
  | .node _ (c :: _) => height c + 1

mutual
/-- `get_height`/`is_valid_height` (ADTSet.c:656-674), the validity part:
every node's children all have the height of its first child, recursively
(equal leaf depth). -/
def is_valid_height : BTreeNode → Bool
  | .node _ [] => true
  | .node _ (c :: cs) =>
    cs.all (fun d => height d == height c) && valid_heightL (c :: cs)

def valid_heightL : List BTreeNode → Bool
  | [] => true
  | c :: cs => is_valid_height c && valid_heightL cs
end

mutual
/-- `node_is_btree` (ADTSet.c:688-745): the B-tree shape checker used by the
tests (`set_is_proper`).  `rootQ` stands for `node->parent == NULL` (the root
is exempt from the minimum-occupancy check, and carries the height check).
The `is_valid_parent` check of the source (children's parent back-references,
ADTSet.c:677-686) is about the mutable representation only: in a tree-shaped
heap it always passes, and a pure tree has no parent fields, so it has no
counterpart here. -/
def node_is_btree (rootQ : Bool) : Option BTreeNode → Bool
  | none => true
  | some t =>
    match t with
    | .node vs cs =>
      decide (vs.length ≤ MAX_VALUES) &&
      (rootQ || decide (MIN_VALUES ≤ vs.length)) &&
      within_sorted vs &&
      (!rootQ || is_valid_height (.node vs cs)) &&
      sep_check vs cs

/-- The separator loop of `node_is_btree` (ADTSet.c:715-742): for the value
`v` with left child `c0` and right child `c1`, the left child's last value
and subtree maximum are below `v` and the right child's first value and
subtree minimum are above it; the left subtree is checked recursively, and
at the last value the right subtree as well.  A leaf's NULL children make
every iteration pass (the `left_last == NULL` style guards). -/
def sep_check : List Val → List BTreeNode → Bool
  | [], _ => true
  | _ :: _, [] => true
  | v :: vs, [c0] =>
    decide (cmpv (c0.vals.getD (c0.vals.length - 1) dummy) v < 0) &&
    decide (cmpv (node_find_max_v c0) v < 0) &&
    node_is_btree false (some c0) &&
    sep_check vs []
  | v :: vs, c0 :: c1 :: rest =>
    decide (cmpv (c0.vals.getD (c0.vals.length - 1) dummy) v < 0) &&
    decide (cmpv (c1.vals.getD 0 dummy) v > 0) &&
    decide (cmpv (node_find_max_v c0) v < 0) &&
    decide (cmpv (node_find_min_v c1) v > 0) &&
    node_is_btree false (some c0) &&
    (!vs.isEmpty || node_is_btree false (some c1)) &&
    sep_check vs (c1 :: rest)
end

/-- `set_is_proper` (ADTSet.c:747-749). -/
def set_is_proper (s : SetState) : Bool := node_is_btree true s.root

/- ================================================================
   Proof development: the B-tree invariant
   ================================================================ -/

/-- Lower-bound check: `k` is above the optional strict lower bound. -/
def loOK : Option Int → Int → Prop
  | none, _ => True
  | some l, k => l < k

/-- Upper-bound check: `k` is below the optional strict upper bound. -/
def hiOK : Option Int → Int → Prop
  | none, _ => True
  | some u, k => k < u

instance (lo : Option Int) (k : Int) : Decidable (loOK lo k) := by
  cases lo <;> simp only [loOK] <;> infer_instance

instance (hi : Option Int) (k : Int) : Decidable (hiOK hi k) := by
  cases hi <;> simp only [hiOK] <;> infer_instance

/-- A strictly ascending key list whose members all lie strictly between the
optional bounds. -/
def chainB (lo hi : Option Int) (ks : List Int) : Prop :=
  ks.Chain' (· < ·) ∧ ∀ k ∈ ks, loOK lo k ∧ hiOK hi k

/-- The upper bound a node's first child lives under: the first value's key,
or the node's own upper bound if there are no values. -/
def headKey : List Val → Option Int → Option Int
  | [], hi => hi
  | w :: _, _ => some w.key

mutual
/-- The B-tree invariant, with the bookkeeping the proofs need: value count
between `minv` and `maxv` at this node (children are always between
`MIN_VALUES` and `MAX_VALUES`), every key strictly between `lo` and `hi`,
keys strictly ascending in visiting order, every separator strictly between
its flanking subtrees, and every leaf at depth `h`. -/
def wfT (minv maxv : Nat) (lo hi : Option Int) (h : Nat) : BTreeNode → Prop
  | .node vs [] =>
    minv ≤ vs.length ∧ vs.length ≤ maxv ∧ h = 1 ∧
    chainB lo hi (vs.map Val.key)
  | .node vs (c0 :: cs) =>
    minv ≤ vs.length ∧ vs.length ≤ maxv ∧
    match h with
    | 0 => False
    | h' + 1 =>
      wfT MIN_VALUES MAX_VALUES lo (headKey vs hi) h' c0 ∧
      wfSeq lo hi h' vs cs

/-- The invariant for the tail of a node: values `vs` each followed by the
child to its right (`cs`), all between `lo` and `hi`, children of height
`h`. -/
def wfSeq (lo hi : Option Int) (h : Nat) : List Val → List BTreeNode → Prop
  | [], [] => True
  | w :: vs, c :: cs =>
    loOK lo w.key ∧ hiOK hi w.key ∧
    wfT MIN_VALUES MAX_VALUES (some w.key) (headKey vs hi) h c ∧
    wfSeq (some w.key) hi h vs cs
  | _, _ => False
end

/-- The whole-tree invariant of a reachable root: at least one value at the
root, at most `MAX_VALUES` everywhere, no outer bounds. -/
def wfRoot (r : Option BTreeNode) : Prop :=
  match r with
  | none => True
  | some t => ∃ h, wfT 1 MAX_VALUES none none h t

/-- The state invariant: a well-formed root and an accurate cached size. -/
def SInv (s : SetState) : Prop :=
  wfRoot s.root ∧ s.size = ((set_visit s).length : Int)

theorem wfT_count_le (minv maxv : Nat) (lo hi : Option Int) (h : Nat)
    (t : BTreeNode) (hw : wfT minv maxv lo hi h t) :
    minv ≤ t.count ∧ t.count ≤ maxv := by
  cases t with
  | node vs cs =>
    cases cs with
    | nil => exact ⟨hw.1, hw.2.1⟩
    | cons c0 cs => exact ⟨hw.1, hw.2.1⟩

theorem wfT_mono_top (minv maxv minv2 maxv2 : Nat) (lo hi : Option Int)
    (h : Nat) (t : BTreeNode) (hw : wfT minv maxv lo hi h t)
    (h1 : minv2 ≤ minv) (h2 : maxv ≤ maxv2) : wfT minv2 maxv2 lo hi h t := by
  cases t with
  | node vs cs =>
    cases cs with
    | nil => exact ⟨le_trans h1 hw.1, le_trans hw.2.1 h2, hw.2.2⟩
    | cons c0 cs => exact ⟨le_trans h1 hw.1, le_trans hw.2.1 h2, hw.2.2⟩

/- ---------- comparator and bound basics ---------- -/

theorem cmpv_eq_zero_iff (a b : Val) : cmpv a b = 0 ↔ a.key = b.key := by
  unfold cmpv
  split
  · constructor
    · intro h; cases h
    · intro h; omega
  · split
    · simp_all
    · constructor
      · intro h; cases h
      · intro h; omega

theorem cmpv_neg_iff (a b : Val) : cmpv a b < 0 ↔ a.key < b.key := by
  unfold cmpv
  split
  · simp_all
  · split <;> simp_all <;> omega

theorem cmpv_pos_iff (a b : Val) : cmpv a b > 0 ↔ b.key < a.key := by
  unfold cmpv
  split
  · rename_i h; constructor
    · intro hc; cases hc
    · intro hc; omega
  · split
    · simp_all
    · rename_i h1 h2; constructor
      · intro _; omega
      · intro _; exact Int.zero_lt_one

theorem loOK_of_lt (lo : Option Int) (a b : Int) (h1 : loOK lo a) (h2 : a < b) :
    loOK lo b := by
  cases lo with
  | none => trivial
  | some l => exact lt_trans h1 h2

theorem hiOK_of_lt (hi : Option Int) (a b : Int) (h1 : hiOK hi b) (h2 : a < b) :
    hiOK hi a := by
  cases hi with
  | none => trivial
  | some u => exact lt_trans h2 h1

/- ---------- chainB basics ---------- -/

theorem chainB_nil (lo hi : Option Int) : chainB lo hi [] := And.intro List.chain'_nil (by simp)

theorem chainB_mem (lo hi : Option Int) (ks : List Int) (hc : chainB lo hi ks)
    (k : Int) (hk : k ∈ ks) : loOK lo k ∧ hiOK hi k := hc.2 k hk

theorem chainB_weaken (lo hi lo2 hi2 : Option Int) (ks : List Int)
    (hlo : ∀ k, loOK lo k → loOK lo2 k) (hhi : ∀ k, hiOK hi k → hiOK hi2 k)
    (hc : chainB lo hi ks) : chainB lo2 hi2 ks :=
  ⟨hc.1, fun k hk => ⟨hlo k (hc.2 k hk).1, hhi k (hc.2 k hk).2⟩⟩

theorem chainB_cons (lo hi : Option Int) (k : Int) (ks : List Int) :
    chainB lo hi (k :: ks) ↔ loOK lo k ∧ hiOK hi k ∧ chainB (some k) hi ks := by
  constructor
  · rintro ⟨hch, hb⟩
    have hk := hb k (by simp)
    refine ⟨hk.1, hk.2, ?_, ?_⟩
    · exact hch.tail
    · intro x hx
      have hpw := (List.chain'_iff_pairwise.mp hch)
      exact ⟨List.rel_of_pairwise_cons hpw hx, (hb x (by simp [hx])).2⟩
  · rintro ⟨h1, h2, hch, hb⟩
    constructor
    · cases ks with
      | nil => simp
      | cons k2 ks2 =>
        exact List.Chain'.cons (hb k2 (by simp)).1 hch
    · intro x hx
      rcases List.mem_cons.mp hx with rfl | hx2
      · exact ⟨h1, h2⟩
      · have := hb x hx2
        exact ⟨loOK_of_lt lo k x h1 this.1, this.2⟩

theorem chainB_chain (lo hi : Option Int) (ks : List Int) (hc : chainB lo hi ks) :
    ks.Chain' (· < ·) := hc.1

theorem chainB_glue (lo hi : Option Int) (m : Int) (xs ys : List Int)
    (hx : chainB lo (some m) xs) (hy : chainB (some m) hi ys)
    (h1 : loOK lo m) (h2 : hiOK hi m) : chainB lo hi (xs ++ ys) := by
  induction xs generalizing lo with
  | nil =>
    simp only [List.nil_append]
    exact chainB_weaken (some m) hi lo hi ys
      (fun k hk => loOK_of_lt lo m k h1 hk) (fun k hk => hk) hy
  | cons x xs ih =>
    rw [List.cons_append]
    rw [chainB_cons] at hx ⊢
    exact ⟨hx.1, hiOK_of_lt hi x m h2 hx.2.1,
      ih (some x) hx.2.2 hx.2.1⟩

theorem chainB_last (lo hi : Option Int) (m : Int) (xs : List Int)
    (hc : chainB lo hi (xs ++ [m])) :
    chainB lo (some m) xs ∧ loOK lo m ∧ hiOK hi m := by
  induction xs generalizing lo with
  | nil =>
    rw [List.nil_append, chainB_cons] at hc
    exact ⟨chainB_nil lo (some m), hc.1, hc.2.1⟩
  | cons x xs ih =>
    rw [List.cons_append, chainB_cons] at hc
    have hr := ih (some x) hc.2.2
    rw [chainB_cons]
    exact ⟨⟨hc.1, hr.2.1, hr.1⟩, loOK_of_lt lo x m hc.1 hr.2.1, hr.2.2⟩

theorem wfT_raise_min (minv maxv minv2 : Nat) (lo hi : Option Int)
    (h : Nat) (t : BTreeNode) (hw : wfT minv maxv lo hi h t)
    (h1 : minv2 ≤ t.count) : wfT minv2 maxv lo hi h t := by
  cases t with
  | node vs cs =>
    cases cs with
    | nil => exact ⟨h1, hw.2.1, hw.2.2⟩
    | cons c0 cs => exact ⟨h1, hw.2.1, hw.2.2⟩

mutual
theorem wfT_weaken (minv maxv : Nat) (lo hi lo2 hi2 : Option Int) (h : Nat)
    (t : BTreeNode)
    (hlo : ∀ k, loOK lo k → loOK lo2 k) (hhi : ∀ k, hiOK hi k → hiOK hi2 k)
    (hw : wfT minv maxv lo hi h t) : wfT minv maxv lo2 hi2 h t := by
  cases t with
  | node vs cs =>
    cases cs with
    | nil =>
      exact ⟨hw.1, hw.2.1, hw.2.2.1,
        chainB_weaken lo hi lo2 hi2 _ hlo hhi hw.2.2.2⟩
    | cons c0 cs =>
      refine ⟨hw.1, hw.2.1, ?_⟩
      have h3 := hw.2.2
      cases h with
      | zero => exact h3.elim
      | succ h2 =>
        obtain ⟨hc0, hseq⟩ := h3
        refine ⟨?_, wfSeq_weaken lo hi lo2 hi2 h2 vs cs hlo hhi hseq⟩
        cases vs with
        | nil => exact wfT_weaken _ _ lo hi lo2 hi2 h2 c0 hlo hhi hc0
        | cons w ws =>
          exact wfT_weaken _ _ lo (some w.key) lo2 (some w.key) h2 c0 hlo
            (fun k hk => hk) hc0
termination_by (h, 0)

theorem wfSeq_weaken (lo hi lo2 hi2 : Option Int) (h : Nat)
    (vs : List Val) (cs : List BTreeNode)
    (hlo : ∀ k, loOK lo k → loOK lo2 k) (hhi : ∀ k, hiOK hi k → hiOK hi2 k)
    (hs : wfSeq lo hi h vs cs) : wfSeq lo2 hi2 h vs cs := by
  cases vs with
  | nil =>
    cases cs with
    | nil => trivial
    | cons c cs => exact hs.elim
  | cons w ws =>
    cases cs with
    | nil => exact hs.elim
    | cons c cs =>
      obtain ⟨h1, h2, h3, h4⟩ := hs
      refine ⟨hlo _ h1, hhi _ h2, ?_,
        wfSeq_weaken (some w.key) hi (some w.key) hi2 h ws cs
          (fun k hk => hk) hhi h4⟩
      cases ws with
      | nil =>
        exact wfT_weaken _ _ (some w.key) hi (some w.key) hi2 h c
          (fun k hk => hk) hhi h3
      | cons w2 ws => exact h3
termination_by (h, vs.length + 1)
end

/- ---------- in-order equations and the global chain ---------- -/

@[simp] theorem inorder_leaf (vs : List Val) : inorder (.node vs []) = vs := by
  rw [inorder]

@[simp] theorem inorder_internal (vs : List Val) (c : BTreeNode)
    (cs : List BTreeNode) :
    inorder (.node vs (c :: cs)) = inorder c ++ inorderW vs cs := by
  rw [inorder]

@[simp] theorem inorderW_nil_vals (cs : List BTreeNode) : inorderW [] cs = [] := by
  rw [inorderW]

@[simp] theorem inorderW_cons_nil (v : Val) (vs : List Val) :
    inorderW (v :: vs) [] = v :: vs := by
  rw [inorderW]

@[simp] theorem inorderW_cons_cons (v : Val) (vs : List Val) (c : BTreeNode)
    (cs : List BTreeNode) :
    inorderW (v :: vs) (c :: cs) = v :: (inorder c ++ inorderW vs cs) := by
  rw [inorderW]

theorem inorderW_head (w : Val) (vs : List Val) (cs : List BTreeNode) :
    ∃ rest, inorderW (w :: vs) cs = w :: rest := by
  cases cs with
  | nil => exact ⟨vs, by simp⟩
  | cons c cs => exact ⟨inorder c ++ inorderW vs cs, by simp⟩

theorem chainB_glue_mid (lo hi : Option Int) (m : Int) (xs ys : List Int)
    (hx : chainB lo (some m) xs) (hy : chainB (some m) hi ys)
    (h1 : loOK lo m) (h2 : hiOK hi m) : chainB lo hi (xs ++ m :: ys) := by
  induction xs generalizing lo with
  | nil =>
    rw [List.nil_append, chainB_cons]
    exact ⟨h1, h2, hy⟩
  | cons x xs ih =>
    rw [List.cons_append]
    rw [chainB_cons] at hx ⊢
    exact ⟨hx.1, hiOK_of_lt hi x m h2 hx.2.1, ih (some x) hx.2.2 hx.2.1⟩

mutual
theorem wfT_chain (minv maxv : Nat) (lo hi : Option Int) (h : Nat)
    (t : BTreeNode) (hw : wfT minv maxv lo hi h t) :
    chainB lo hi (inkeys t) := by
  cases t with
  | node vs cs =>
    cases cs with
    | nil =>
      unfold inkeys
      rw [inorder_leaf]
      exact hw.2.2.2
    | cons c0 cs =>
      have h3 := hw.2.2
      cases h with
      | zero => exact h3.elim
      | succ h2 =>
        obtain ⟨hc0, hseq⟩ := h3
        unfold inkeys
        rw [inorder_internal, List.map_append]
        have hck := wfT_chain _ _ lo (headKey vs hi) h2 c0 hc0
        have hsk := wfSeq_chain lo hi h2 vs cs hseq
        cases vs with
        | nil =>
          cases cs with
          | nil => simpa using hck
          | cons c2 cs2 => exact hseq.elim
        | cons w ws =>
          obtain ⟨rest, hrest⟩ := inorderW_head w ws cs
          rw [hrest] at hsk ⊢
          rw [List.map_cons] at hsk ⊢
          rw [chainB_cons] at hsk
          exact chainB_glue_mid lo hi w.key _ _ hck hsk.2.2 hsk.1 hsk.2.1
termination_by (h, 0)

theorem wfSeq_chain (lo hi : Option Int) (h : Nat) (vs : List Val)
    (cs : List BTreeNode) (hs : wfSeq lo hi h vs cs) :
    chainB lo hi ((inorderW vs cs).map Val.key) := by
  cases vs with
  | nil =>
    cases cs with
    | nil => simpa using chainB_nil lo hi
    | cons c cs => exact hs.elim
  | cons w ws =>
    cases cs with
    | nil => exact hs.elim
    | cons c cs =>
      obtain ⟨h1, h2, h3, h4⟩ := hs
      rw [inorderW_cons_cons, List.map_cons, List.map_append, chainB_cons]
      refine ⟨h1, h2, ?_⟩
      have hck := wfT_chain _ _ (some w.key) (headKey ws hi) h c h3
      have hsk := wfSeq_chain (some w.key) hi h ws cs h4
      cases ws with
      | nil =>
        cases cs with
        | nil => simpa using hck
        | cons c2 cs2 => exact h4.elim
      | cons w2 ws2 =>
        obtain ⟨rest, hrest⟩ := inorderW_head w2 ws2 cs
        rw [hrest] at hsk ⊢
        rw [List.map_cons] at hsk ⊢
        rw [chainB_cons] at hsk
        exact chainB_glue_mid (some w.key) hi w2.key _ _ hck hsk.2.2 hsk.1 hsk.2.1
termination_by (h, vs.length + 1)
end

/- ---------- sequence composition lemmas ---------- -/

theorem wfSeq_len (lo hi : Option Int) (h : Nat) (vs : List Val)
    (cs : List BTreeNode) (hs : wfSeq lo hi h vs cs) : vs.length = cs.length := by
  induction vs generalizing lo cs with
  | nil =>
    cases cs with
    | nil => rfl
    | cons c cs => exact hs.elim
  | cons w ws ih =>
    cases cs with
    | nil => exact hs.elim
    | cons c cs => simpa using ih (some w.key) cs hs.2.2.2

theorem inorderW_append (vs1 vs2 : List Val) (cs1 cs2 : List BTreeNode)
    (hlen : vs1.length = cs1.length) :
    inorderW (vs1 ++ vs2) (cs1 ++ cs2) = inorderW vs1 cs1 ++ inorderW vs2 cs2 := by
  induction vs1 generalizing cs1 with
  | nil =>
    cases cs1 with
    | nil => simp
    | cons c cs => simp at hlen
  | cons w ws ih =>
    cases cs1 with
    | nil => simp at hlen
    | cons c cs =>
      simp only [List.cons_append, inorderW_cons_cons, List.append_assoc]
      rw [ih cs (by simpa using hlen)]

theorem wfSeq_glue (lo hi : Option Int) (h : Nat) (w : Val)
    (vs1 : List Val) (cs1 : List BTreeNode) (c2 : BTreeNode)
    (vs2 : List Val) (cs2 : List BTreeNode)
    (hs1 : wfSeq lo (some w.key) h vs1 cs1)
    (hw1 : loOK lo w.key) (hw2 : hiOK hi w.key)
    (hc2 : wfT MIN_VALUES MAX_VALUES (some w.key) (headKey vs2 hi) h c2)
    (hs2 : wfSeq (some w.key) hi h vs2 cs2) :
    wfSeq lo hi h (vs1 ++ w :: vs2) (cs1 ++ c2 :: cs2) := by
  induction vs1 generalizing lo cs1 with
  | nil =>
    cases cs1 with
    | nil => exact ⟨hw1, hw2, hc2, hs2⟩
    | cons c cs => exact hs1.elim
  | cons w1 ws1 ih =>
    cases cs1 with
    | nil => exact hs1.elim
    | cons c1 cs1 =>
      obtain ⟨hl1, hh1, hc1, hs1t⟩ := hs1
      refine ⟨hl1, hiOK_of_lt hi w1.key w.key hw2 hh1, ?_,
        ih (some w1.key) cs1 hs1t hh1⟩
      cases ws1 with
      | nil => exact hc1
      | cons w9 ws9 => exact hc1

theorem wfSeq_unsnoc (lo hi : Option Int) (h : Nat) (vs : List Val)
    (cs : List BTreeNode) (hs : wfSeq lo hi h vs cs) (hne : vs ≠ []) :
    ∃ vs0 wl cs0 cl, vs = vs0 ++ [wl] ∧ cs = cs0 ++ [cl] ∧
      wfSeq lo (some wl.key) h vs0 cs0 ∧ loOK lo wl.key ∧ hiOK hi wl.key ∧
      wfT MIN_VALUES MAX_VALUES (some wl.key) hi h cl := by
  induction vs generalizing lo cs with
  | nil => exact absurd rfl hne
  | cons w ws ih =>
    cases cs with
    | nil => exact hs.elim
    | cons c cs =>
      obtain ⟨hl1, hh1, hc1, hst⟩ := hs
      cases ws with
      | nil =>
        have hlen := wfSeq_len (some w.key) hi h [] cs hst
        cases cs with
        | cons c9 cs9 => simp at hlen
        | nil => exact ⟨[], w, [], c, by simp, by simp, trivial, hl1, hh1, hc1⟩
      | cons w2 ws2 =>
        obtain ⟨vs0, wl, cs0, cl, he1, he2, hsq, hlo2, hhi2, hcl⟩ :=
          ih (some w.key) cs hst (by simp)
        refine ⟨w :: vs0, wl, c :: cs0, cl, by simp [he1], by simp [he2], ?_, ?_, hhi2, hcl⟩
        · refine ⟨hl1, ?_, ?_, hsq⟩
          · exact hlo2
          · have : headKey (w2 :: ws2) hi = headKey vs0 (some wl.key) := by
              cases vs0 with
              | nil =>
                obtain ⟨hx⟩ : w2 :: ws2 = [wl] := by simpa using he1
                simp [headKey]
              | cons y ys =>
                have : w2 = y := by
                  have := he1
                  simp at this
                  exact this.1
                simp [headKey, this]
            rw [this] at hc1
            exact hc1
        · exact loOK_of_lt lo w.key wl.key hl1 hlo2

theorem wfT_zero (minv maxv : Nat) (lo hi : Option Int) (t : BTreeNode) :
    ¬ wfT minv maxv lo hi 0 t := by
  intro hw
  cases t with
  | node vs cs =>
    cases cs with
    | nil => exact absurd hw.2.2.1 (by omega)
    | cons c0 cs => exact hw.2.2

theorem wfT_height_one (minv maxv : Nat) (lo hi : Option Int) (t : BTreeNode)
    (hw : wfT minv maxv lo hi 1 t) : t.children = [] := by
  cases t with
  | node vs cs =>
    cases cs with
    | nil => rfl
    | cons c0 cs =>
      exact absurd hw.2.2.1 (wfT_zero MIN_VALUES MAX_VALUES lo (headKey vs hi) c0)

theorem inorder_ne_nil (minv maxv : Nat) (lo hi : Option Int) (h : Nat)
    (t : BTreeNode) (hw : wfT minv maxv lo hi h t) (hm : 1 ≤ minv) :
    inorder t ≠ [] := by
  cases t with
  | node vs cs =>
    cases cs with
    | nil =>
      rw [inorder_leaf]
      intro hc
      rw [hc] at hw
      have := hw.1
      simp at this
      omega
    | cons c0 cs =>
      have h3 := hw.2.2
      cases h with
      | zero => exact h3.elim
      | succ h2 =>
        rw [inorder_internal]
        have := inorder_ne_nil MIN_VALUES MAX_VALUES lo (headKey vs hi) h2 c0
          h3.1 (by norm_num [MIN_VALUES, MIN_CHILDREN])
        simp [this]

/- ---------- tightening the upper bound ---------- -/

mutual
theorem wfT_tighten_hi (minv maxv : Nat) (lo hi hi2 : Option Int) (h : Nat)
    (t : BTreeNode) (hw : wfT minv maxv lo hi h t)
    (hk : ∀ k ∈ inkeys t, hiOK hi2 k) : wfT minv maxv lo hi2 h t := by
  cases t with
  | node vs cs =>
    cases cs with
    | nil =>
      refine ⟨hw.1, hw.2.1, hw.2.2.1, hw.2.2.2.1, ?_⟩
      intro k hkm
      exact ⟨(hw.2.2.2.2 k hkm).1, hk k (by simpa [inkeys] using hkm)⟩
    | cons c0 cs =>
      refine ⟨hw.1, hw.2.1, ?_⟩
      have h3 := hw.2.2
      cases h with
      | zero => exact h3.elim
      | succ h2 =>
        obtain ⟨hc0, hseq⟩ := h3
        have hsub : ∀ k ∈ (inorderW vs cs).map Val.key, hiOK hi2 k := by
          intro k hkm
          refine hk k ?_
          simp only [inkeys, inorder_internal, List.map_append, List.mem_append]
          exact Or.inr hkm
        refine ⟨?_, wfSeq_tighten_hi lo hi hi2 h2 vs cs hseq hsub⟩
        cases vs with
        | nil =>
          refine wfT_tighten_hi _ _ lo hi hi2 h2 c0 hc0 ?_
          intro k hkm
          refine hk k ?_
          simp only [inkeys, inorder_internal, List.map_append, List.mem_append]
          exact Or.inl hkm
        | cons w ws => exact hc0
termination_by (h, 0)

theorem wfSeq_tighten_hi (lo hi hi2 : Option Int) (h : Nat) (vs : List Val)
    (cs : List BTreeNode) (hs : wfSeq lo hi h vs cs)
    (hk : ∀ k ∈ (inorderW vs cs).map Val.key, hiOK hi2 k) :
    wfSeq lo hi2 h vs cs := by
  cases vs with
  | nil =>
    cases cs with
    | nil => trivial
    | cons c cs => exact hs.elim
  | cons w ws =>
    cases cs with
    | nil => exact hs.elim
    | cons c cs =>
      obtain ⟨h1, h2, h3, h4⟩ := hs
      have hw2 : hiOK hi2 w.key := by
        refine hk w.key ?_
        simp
      have hsub : ∀ k ∈ (inorderW ws cs).map Val.key, hiOK hi2 k := by
        intro k hkm
        refine hk k ?_
        simp only [inorderW_cons_cons, List.map_cons, List.map_append,
          List.mem_cons, List.mem_append]
        exact Or.inr (Or.inr hkm)
      refine ⟨h1, hw2, ?_, wfSeq_tighten_hi (some w.key) hi hi2 h ws cs h4 hsub⟩
      cases ws with
      | nil =>
        refine wfT_tighten_hi _ _ (some w.key) hi hi2 h c h3 ?_
        intro k hkm
        refine hk k ?_
        simp only [inorderW_cons_cons, List.map_cons, List.map_append,
          List.mem_cons, List.mem_append, inkeys] at hkm ⊢
        exact Or.inr (Or.inl hkm)
      | cons w2 ws2 => exact h3
termination_by (h, vs.length + 1)
end

/- ---------- min and max characterized on contents ---------- -/

theorem getD_snoc_btree (l : List BTreeNode) (x : BTreeNode) (d : BTreeNode) :
    (l ++ [x]).getD l.length d = x := by
  rw [List.getD_eq_getElem?_getD, List.getElem?_append_right (le_refl _)]
  simp

theorem getD_last_val (vs : List Val) (hne : vs ≠ []) :
    ∃ l, vs = l ++ [vs.getD (vs.length - 1) dummy] := by
  induction vs with
  | nil => exact absurd rfl hne
  | cons w ws ih =>
    cases ws with
    | nil => exact ⟨[], by simp⟩
    | cons w2 ws2 =>
      obtain ⟨l, hl⟩ := ih (by simp)
      refine ⟨w :: l, ?_⟩
      have hx : (w :: w2 :: ws2).getD ((w :: w2 :: ws2).length - 1) dummy
          = (w2 :: ws2).getD ((w2 :: ws2).length - 1) dummy := by
        simp [List.getD]
      rw [hx]
      rw [List.cons_append]
      rw [← hl]

theorem node_find_min_spec (minv maxv : Nat) (lo hi : Option Int) (h : Nat)
    (t : BTreeNode) (hw : wfT minv maxv lo hi h t) (hm : 1 ≤ minv) :
    ∃ l, inorder t = node_find_min_v t :: l := by
  cases t with
  | node vs cs =>
    cases cs with
    | nil =>
      cases vs with
      | nil =>
        have := hw.1
        simp at this
        omega
      | cons w ws => exact ⟨ws, by simp [node_find_min_v]⟩
    | cons c0 cs =>
      have h3 := hw.2.2
      cases h with
      | zero => exact h3.elim
      | succ h2 =>
        obtain ⟨l, hl⟩ := node_find_min_spec MIN_VALUES MAX_VALUES lo
          (headKey vs hi) h2 c0 h3.1 (by norm_num [MIN_VALUES, MIN_CHILDREN])
        refine ⟨l ++ inorderW vs cs, ?_⟩
        rw [inorder_internal, hl]
        simp [node_find_min_v]
termination_by h

theorem node_find_max_spec (minv maxv : Nat) (lo hi : Option Int) (h : Nat)
    (t : BTreeNode) (hw : wfT minv maxv lo hi h t) (hm : 1 ≤ minv) :
    ∃ l, inorder t = l ++ [node_find_max_v t] := by
  cases t with
  | node vs cs =>
    cases cs with
    | nil =>
      rw [inorder_leaf]
      have hne : vs ≠ [] := by
        intro hc
        rw [hc] at hw
        have := hw.1
        simp at this
        omega
      obtain ⟨l, hl⟩ := getD_last_val vs hne
      exact ⟨l, by rw [node_find_max_v]; exact hl⟩
    | cons c0 cs =>
      have h3 := hw.2.2
      cases h with
      | zero => exact h3.elim
      | succ h2 =>
        obtain ⟨hc0, hseq⟩ := h3
        have hvne : vs ≠ [] := by
          intro hc
          rw [hc] at hw
          have := hw.1
          simp at this
          omega
        obtain ⟨vs0, wl, cs0, cl, he1, he2, hsq, hlo2, hhi2, hcl⟩ :=
          wfSeq_unsnoc lo hi h2 vs cs hseq hvne
        have hlen0 := wfSeq_len lo (some wl.key) h2 vs0 cs0 hsq
        have hgd : (c0 :: cs).getD vs.length nilNode = cl := by
          rw [he1, he2]
          have : c0 :: (cs0 ++ [cl]) = (c0 :: cs0) ++ [cl] := by simp
          rw [this]
          have hlv : (vs0 ++ [wl]).length = (c0 :: cs0).length := by
            simp [hlen0]
          rw [hlv]
          exact getD_snoc_btree (c0 :: cs0) cl nilNode
        obtain ⟨l2, hl2⟩ := node_find_max_spec MIN_VALUES MAX_VALUES
          (some wl.key) hi h2 cl hcl (by norm_num [MIN_VALUES, MIN_CHILDREN])
        refine ⟨inorder c0 ++ inorderW vs0 cs0 ++ wl :: l2, ?_⟩
        rw [node_find_max_v, hgd]
        rw [inorder_internal, he1, he2, inorderW_append vs0 [wl] cs0 [cl] hlen0]
        simp [hl2]
termination_by h

/- ---------- rotation and merge specifications ---------- -/

theorem chainB_head_lt (lo hi : Option Int) (k0 : Int) (ks : List Int)
    (hc : chainB lo hi (k0 :: ks)) : ∀ k ∈ ks, k0 < k := by
  intro k hk
  exact List.rel_of_pairwise_cons (List.chain'_iff_pairwise.mp hc.1) hk

mutual
theorem wfT_tighten_lo (minv maxv : Nat) (lo lo2 hi : Option Int) (h : Nat)
    (t : BTreeNode) (hw : wfT minv maxv lo hi h t)
    (hk : ∀ k ∈ inkeys t, loOK lo2 k) : wfT minv maxv lo2 hi h t := by
  cases t with
  | node vs cs =>
    cases cs with
    | nil =>
      refine ⟨hw.1, hw.2.1, hw.2.2.1, hw.2.2.2.1, ?_⟩
      intro k hkm
      exact ⟨hk k (by simpa [inkeys] using hkm), (hw.2.2.2.2 k hkm).2⟩
    | cons c0 cs =>
      refine ⟨hw.1, hw.2.1, ?_⟩
      have h3 := hw.2.2
      cases h with
      | zero => exact h3.elim
      | succ h2 =>
        obtain ⟨hc0, hseq⟩ := h3
        have hsub : ∀ k ∈ inkeys c0, loOK lo2 k := by
          intro k hkm
          refine hk k ?_
          simp only [inkeys, inorder_internal, List.map_append, List.mem_append]
          exact Or.inl (by simpa [inkeys] using hkm)
        refine ⟨wfT_tighten_lo _ _ lo lo2 (headKey vs hi) h2 c0 hc0 hsub, ?_⟩
        refine wfSeq_tighten_lo lo lo2 hi h2 vs cs hseq ?_
        intro k hkm
        refine hk k ?_
        simp only [inkeys, inorder_internal, List.map_append, List.mem_append]
        exact Or.inr hkm
termination_by (h, 0)

theorem wfSeq_tighten_lo (lo lo2 hi : Option Int) (h : Nat) (vs : List Val)
    (cs : List BTreeNode) (hs : wfSeq lo hi h vs cs)
    (hk : ∀ k ∈ (inorderW vs cs).map Val.key, loOK lo2 k) :
    wfSeq lo2 hi h vs cs := by
  cases vs with
  | nil =>
    cases cs with
    | nil => trivial
    | cons c cs => exact hs.elim
  | cons w ws =>
    cases cs with
    | nil => exact hs.elim
    | cons c cs =>
      obtain ⟨h1, h2, h3, h4⟩ := hs
      have hw2 : loOK lo2 w.key := by
        refine hk w.key ?_
        simp
      exact ⟨hw2, h2, h3, h4⟩
termination_by (h, vs.length + 1)
end

theorem wfT_internal_of_succ (minv maxv : Nat) (lo hi : Option Int) (h2 : Nat)
    (vs : List Val) (cs : List BTreeNode)
    (hw : wfT minv maxv lo hi (h2 + 1) (.node vs cs)) (hh : 1 ≤ h2) :
    cs ≠ [] := by
  cases cs with
  | nil =>
    have := hw.2.2.1
    omega
  | cons c0 cs => simp

theorem wfT_leaf_of_one (minv maxv : Nat) (lo hi : Option Int)
    (vs : List Val) (cs : List BTreeNode)
    (hw : wfT minv maxv lo hi 1 (.node vs cs)) : cs = [] := by
  cases cs with
  | nil => rfl
  | cons c0 cs =>
    exact absurd hw.2.2.1 (wfT_zero MIN_VALUES MAX_VALUES lo (headKey vs hi) c0)

/-- What `transfer_left` (the left rotation of `repair_underflow`) does to
contents and invariant: the separator `w2` moves down into `nd`, the right
sibling's smallest value becomes the new separator, and the right sibling's
first child moves across. -/
theorem transfer_left_spec (lon hir : Option Int) (h : Nat)
    (nd c2 : BTreeNode) (w2 : Val)
    (hnd : wfT 1 MAX_VALUES lon (some w2.key) h nd)
    (hc2 : wfT MIN_VALUES MAX_VALUES (some w2.key) hir h c2)
    (hlo : loOK lon w2.key) (hhi : hiOK hir w2.key)
    (hcap : nd.count + 1 ≤ MAX_VALUES) (hsur : MIN_VALUES < c2.count) :
    inorder (transfer_left nd w2 c2).1 ++ (transfer_left nd w2 c2).2.1 ::
        inorder (transfer_left nd w2 c2).2.2
      = inorder nd ++ w2 :: inorder c2 ∧
    wfT MIN_VALUES MAX_VALUES lon (some (transfer_left nd w2 c2).2.1.key) h
      (transfer_left nd w2 c2).1 ∧
    wfT MIN_VALUES MAX_VALUES (some (transfer_left nd w2 c2).2.1.key) hir h
      (transfer_left nd w2 c2).2.2 ∧
    loOK lon (transfer_left nd w2 c2).2.1.key ∧
    hiOK hir (transfer_left nd w2 c2).2.1.key ∧
    (transfer_left nd w2 c2).1.count = nd.count + 1 ∧
    (transfer_left nd w2 c2).2.2.count = c2.count - 1 := by
  cases nd with
  | node nvs ncs =>
  cases c2 with
  | node c2vs c2cs =>
  have hc2len : MIN_CHILDREN ≤ c2vs.length := by
    have := (wfT_count_le _ _ _ _ _ _ hc2).1
    simp only [BTreeNode.count, BTreeNode.vals, MIN_VALUES, MIN_CHILDREN]
      at this hsur ⊢
    omega
  obtain ⟨m0, vrest, hm0⟩ : ∃ m0 vrest, c2vs = m0 :: vrest := by
    cases c2vs with
    | nil => simp [MIN_CHILDREN] at hc2len
    | cons a b => exact ⟨a, b, rfl⟩
  subst hm0
  cases h with
  | zero => exact absurd hnd (wfT_zero _ _ _ _ _)
  | succ h2 =>
  cases ncs with
  | nil =>
    -- nd is a leaf, so h = 1 and the right sibling is a leaf too
    have hh1 : h2 + 1 = 1 := hnd.2.2.1
    have h2z : h2 = 0 := by omega
    subst h2z
    have hc2cs : c2cs = [] := wfT_leaf_of_one _ _ _ _ _ _ hc2
    subst hc2cs
    obtain ⟨hn1, hn2, _, hnch⟩ := hnd
    obtain ⟨hc1, hc4, _, hcch⟩ := hc2
    rw [List.map_cons, chainB_cons] at hcch
    obtain ⟨hml, hmh, hcch2⟩ := hcch
    simp only [transfer_left, BTreeNode.vals, BTreeNode.children,
      BTreeNode.is_leaf, List.isEmpty_nil, if_pos, List.drop_succ_cons,
      List.drop_nil, List.drop_zero, List.getD_cons_zero]
    refine ⟨by simp, ?_, ?_, ?_, ?_, by simp [BTreeNode.count, BTreeNode.vals],
      by simp [BTreeNode.count, BTreeNode.vals]⟩
    · refine ⟨?_, ?_, rfl, ?_⟩
      · simp only [BTreeNode.vals, List.length_append, List.length_cons,
          List.length_nil, MIN_VALUES, MIN_CHILDREN]
        omega
      · simpa [BTreeNode.count, BTreeNode.vals] using hcap
      · rw [List.map_append]
        simp only [List.map_cons, List.map_nil]
        exact chainB_glue_mid lon (some m0.key) w2.key _ [] hnch
          (chainB_nil _ _) hlo hml
    · refine ⟨?_, ?_, rfl, hcch2⟩
      · simp only [BTreeNode.count, BTreeNode.vals, MIN_VALUES, MIN_CHILDREN,
          List.length_cons] at hsur ⊢
        omega
      · simp only [BTreeNode.count, BTreeNode.vals, MAX_VALUES, MAX_CHILDREN,
          List.length_cons] at hc4 ⊢
        omega
    · exact loOK_of_lt lon w2.key m0.key hlo hml
    · exact hmh
  | cons nc0 nrest =>
    -- nd is internal, hence so is the right sibling
    obtain ⟨hn1, hn2, hrest⟩ := hnd
    cases h2 with
    | zero => exact absurd hrest.1 (wfT_zero _ _ _ _ _)
    | succ h3 =>
    obtain ⟨hnc0, hnseq⟩ := hrest
    have hc2ne : c2cs ≠ [] := by
      cases c2cs with
      | nil =>
        have := hc2.2.2.1
        omega
      | cons a b => simp
    obtain ⟨d0, drest, hd0e⟩ : ∃ d0 drest, c2cs = d0 :: drest := by
      cases c2cs with
      | nil => exact absurd rfl hc2ne
      | cons a b => exact ⟨a, b, rfl⟩
    subst hd0e
    obtain ⟨hc1, hc4, hd0, hcseq⟩ := hc2
    obtain ⟨e0, erest, he0e⟩ : ∃ e0 erest, drest = e0 :: erest := by
      cases drest with
      | nil => exact absurd hcseq (by intro hx; exact hx)
      | cons a b => exact ⟨a, b, rfl⟩
    subst he0e
    obtain ⟨lw2m0, hirm0, he0, hseq2⟩ := hcseq
    have heq : transfer_left (.node nvs (nc0 :: nrest)) w2
        (.node (m0 :: vrest) (d0 :: e0 :: erest)) =
        (.node (nvs ++ [w2]) ((nc0 :: nrest) ++ [d0]), m0,
         .node vrest (e0 :: erest)) := rfl
    rw [heq]
    have hlen := wfSeq_len lon (some w2.key) (h3 + 1) nvs nrest hnseq
    refine ⟨?_, ?_, ?_, ?_, hirm0, by simp [BTreeNode.count, BTreeNode.vals],
      by simp [BTreeNode.count, BTreeNode.vals]⟩
    · have hca : (nc0 :: nrest) ++ [d0] = nc0 :: (nrest ++ [d0]) := by simp
      rw [hca]
      rw [inorder_internal, inorder_internal, inorder_internal, inorder_internal]
      rw [inorderW_append nvs [w2] nrest [d0] hlen]
      simp
    · refine ⟨?_, ?_, ?_⟩
      · simp only [BTreeNode.count, BTreeNode.vals, List.length_append,
          List.length_cons, List.length_nil, MIN_VALUES, MIN_CHILDREN] at hn1 ⊢
        omega
      · simpa [BTreeNode.count, BTreeNode.vals] using hcap
      · refine ⟨?_, ?_⟩
        · cases nvs with
          | nil => exact hnc0
          | cons a b => exact hnc0
        · exact wfSeq_glue lon (some m0.key) (h3 + 1) w2 nvs nrest d0 [] []
            hnseq hlo lw2m0 hd0 trivial
    · refine ⟨?_, ?_, he0, hseq2⟩
      · simp only [BTreeNode.count, BTreeNode.vals, MIN_VALUES, MIN_CHILDREN,
          List.length_cons] at hsur ⊢
        omega
      · simp only [BTreeNode.count, BTreeNode.vals, MAX_VALUES, MAX_CHILDREN,
          List.length_cons] at hc4 ⊢
        omega
    · exact loOK_of_lt lon w2.key m0.key hlo lw2m0

theorem getD_snoc_val (l : List Val) (x : Val) (d : Val) :
    (l ++ [x]).getD l.length d = x := by
  rw [List.getD_eq_getElem?_getD, List.getElem?_append_right (le_refl _)]
  simp

/-- What `tranfer_right` (the right rotation of `repair_underflow`) does to
contents and invariant: the separator `w` moves down to the front of `nd`,
the left sibling's largest value becomes the new separator, and the left
sibling's last child moves across. -/
theorem tranfer_right_spec (lop hin : Option Int) (h : Nat)
    (p nd : BTreeNode) (w : Val)
    (hp : wfT MIN_VALUES MAX_VALUES lop (some w.key) h p)
    (hnd : wfT 1 MAX_VALUES (some w.key) hin h nd)
    (hlo : loOK lop w.key) (hhi : hiOK hin w.key)
    (hcap : nd.count + 1 ≤ MAX_VALUES) (hsur : MIN_VALUES < p.count) :
    inorder (tranfer_right p w nd).1 ++ (tranfer_right p w nd).2.1 ::
        inorder (tranfer_right p w nd).2.2
      = inorder p ++ w :: inorder nd ∧
    wfT MIN_VALUES MAX_VALUES lop (some (tranfer_right p w nd).2.1.key) h
      (tranfer_right p w nd).1 ∧
    wfT MIN_VALUES MAX_VALUES (some (tranfer_right p w nd).2.1.key) hin h
      (tranfer_right p w nd).2.2 ∧
    loOK lop (tranfer_right p w nd).2.1.key ∧
    hiOK hin (tranfer_right p w nd).2.1.key ∧
    (tranfer_right p w nd).1.count = p.count - 1 ∧
    (tranfer_right p w nd).2.2.count = nd.count + 1 := by
  cases p with
  | node pvs pcs =>
  cases nd with
  | node nvs ncs =>
  have hplen : MIN_CHILDREN ≤ pvs.length := by
    have := (wfT_count_le _ _ _ _ _ _ hp).1
    simp only [BTreeNode.count, BTreeNode.vals, MIN_VALUES, MIN_CHILDREN]
      at this hsur ⊢
    omega
  cases h with
  | zero => exact absurd hnd (wfT_zero _ _ _ _ _)
  | succ h2 =>
  cases ncs with
  | nil =>
    have hh1 : h2 + 1 = 1 := hnd.2.2.1
    have h2z : h2 = 0 := by omega
    subst h2z
    have hpcs : pcs = [] := wfT_leaf_of_one _ _ _ _ _ _ hp
    subst hpcs
    obtain ⟨hp1, hp2, _, hpch⟩ := hp
    obtain ⟨hn1, hn2, _, hnch⟩ := hnd
    have hpne : pvs ≠ [] := by
      intro hc
      rw [hc] at hplen
      simp [MIN_CHILDREN] at hplen
    obtain ⟨l, hl⟩ := getD_last_val pvs hpne
    have hwl : pvs.getD (pvs.length - 1) dummy = pvs.getD (pvs.length - 1) dummy := rfl
    have hmap : pvs.map Val.key = l.map Val.key ++
        [(pvs.getD (pvs.length - 1) dummy).key] := by
      conv in pvs.map Val.key => rw [hl]
      simp
    rw [hmap] at hpch
    obtain ⟨hch0, hlo0, hhi0⟩ := chainB_last lop (some w.key)
      (pvs.getD (pvs.length - 1) dummy).key (l.map Val.key) hpch
    have heq : tranfer_right (.node pvs []) w (.node nvs []) =
        (.node pvs.dropLast [], pvs.getD (pvs.length - 1) dummy,
         .node (w :: nvs) []) := rfl
    rw [heq]
    have hdl : pvs.dropLast = l := by
      conv in pvs.dropLast => rw [hl]
      simp
    refine ⟨?_, ?_, ?_, hlo0, ?_, ?_, by simp [BTreeNode.count, BTreeNode.vals]⟩
    · rw [inorder_leaf, inorder_leaf, inorder_leaf, inorder_leaf, hdl]
      conv in (pvs ++ w :: nvs) => rw [hl]
      simp
    · refine ⟨?_, ?_, rfl, ?_⟩
      · simp only [BTreeNode.vals, hdl, MIN_VALUES, MIN_CHILDREN]
        have : pvs.length = l.length + 1 := by rw [hl]; simp
        simp only [MIN_CHILDREN, MIN_VALUES] at hplen
        omega
      · simp only [BTreeNode.vals, hdl]
        have : pvs.length = l.length + 1 := by rw [hl]; simp
        simp only [BTreeNode.count, BTreeNode.vals, MAX_VALUES, MAX_CHILDREN]
          at hp2 ⊢
        omega
      · simpa [hdl, BTreeNode.vals] using hch0
    · refine ⟨?_, ?_, rfl, ?_⟩
      · simp only [BTreeNode.vals, List.length_cons, MIN_VALUES, MIN_CHILDREN]
        omega
      · simp only [BTreeNode.vals, List.length_cons]
        simpa [BTreeNode.count, BTreeNode.vals] using hcap
      · rw [List.map_cons, chainB_cons]
        exact ⟨hhi0, hhi, hnch⟩
    · exact hiOK_of_lt hin _ w.key hhi hhi0
    · simp [BTreeNode.count, BTreeNode.vals, hdl]
      rw [hl]
      simp
  | cons nc0 nrest =>
    obtain ⟨hn1, hn2, hrest⟩ := hnd
    cases h2 with
    | zero => exact absurd hrest.1 (wfT_zero _ _ _ _ _)
    | succ h3 =>
    obtain ⟨hnc0, hnseq⟩ := hrest
    have hpcne : pcs ≠ [] := by
      cases pcs with
      | nil =>
        have := hp.2.2.1
        omega
      | cons a b => simp
    obtain ⟨pc0, prest, hpc⟩ : ∃ pc0 prest, pcs = pc0 :: prest := by
      cases pcs with
      | nil => exact absurd rfl hpcne
      | cons a b => exact ⟨a, b, rfl⟩
    subst hpc
    obtain ⟨hp1, hp2, hpc0, hpseq⟩ := hp
    have hpvne : pvs ≠ [] := by
      intro hc
      rw [hc] at hplen
      simp [MIN_CHILDREN] at hplen
    obtain ⟨pvs0, wl, prest0, cl, he1, he2, hsq0, hlo0, hhi0, hcl⟩ :=
      wfSeq_unsnoc lop (some w.key) (h3 + 1) pvs prest hpseq hpvne
    have hlen0 := wfSeq_len lop (some wl.key) (h3 + 1) pvs0 prest0 hsq0
    have hwl : pvs.getD (pvs.length - 1) dummy = wl := by
      rw [he1]
      have : (pvs0 ++ [wl]).length - 1 = pvs0.length := by simp
      rw [this]
      exact getD_snoc_val pvs0 wl dummy
    have hgd : (pc0 :: prest).getD pvs.length nilNode = cl := by
      rw [he1, he2]
      have hax : pc0 :: (prest0 ++ [cl]) = ((pc0 :: prest0) ++ [cl] : List BTreeNode) := by
        simp
      rw [hax]
      have hlv : (pvs0 ++ [wl]).length = (pc0 :: prest0).length := by
        simp [hlen0]
      rw [hlv]
      exact getD_snoc_btree (pc0 :: prest0) cl nilNode
    have hdl1 : pvs.dropLast = pvs0 := by
      rw [he1]
      simp
    have hdl2 : (pc0 :: prest).dropLast = pc0 :: prest0 := by
      rw [he2]
      rw [List.dropLast_cons_of_ne_nil (by simp)]
      rw [List.dropLast_concat]
    have heq : tranfer_right (.node pvs (pc0 :: prest)) w
        (.node nvs (nc0 :: nrest)) =
        (.node pvs.dropLast (pc0 :: prest).dropLast,
         pvs.getD (pvs.length - 1) dummy,
         .node (w :: nvs)
           ((pc0 :: prest).getD pvs.length nilNode :: nc0 :: nrest)) := rfl
    rw [heq, hwl, hgd, hdl1, hdl2]
    refine ⟨?_, ?_, ?_, hlo0, hiOK_of_lt hin wl.key w.key hhi hhi0, ?_, ?_⟩
    · rw [inorder_internal, inorder_internal, inorder_internal, inorder_internal]
      rw [he1, he2, inorderW_append pvs0 [wl] prest0 [cl] hlen0]
      simp
    · refine ⟨?_, ?_, ?_, ?_⟩
      · have hx : pvs.length = pvs0.length + 1 := by rw [he1]; simp
        simp only [BTreeNode.vals, MIN_VALUES, MIN_CHILDREN] at hplen ⊢
        omega
      · have hx : pvs.length = pvs0.length + 1 := by rw [he1]; simp
        simp only [BTreeNode.vals, MAX_VALUES, MAX_CHILDREN] at hp2 ⊢
        omega
      · have hhk : headKey pvs (some w.key) = headKey pvs0 (some wl.key) := by
          cases pvs0 with
          | nil =>
            have : pvs = [wl] := by simpa using he1
            rw [this]
            rfl
          | cons y ys =>
            have : pvs = y :: (ys ++ [wl]) := by simpa using he1
            rw [this]
            rfl
        rw [← hhk]
        exact hpc0
      · exact hsq0
    · refine ⟨?_, ?_, hcl, ?_⟩
      · simp only [BTreeNode.vals, List.length_cons, MIN_VALUES, MIN_CHILDREN]
        omega
      · simp only [BTreeNode.vals, List.length_cons]
        simpa [BTreeNode.count, BTreeNode.vals] using hcap
      · exact ⟨hhi0, hhi, hnc0, hnseq⟩
    · simp only [BTreeNode.count, BTreeNode.vals]
      rw [he1]
      simp
    · simp [BTreeNode.count, BTreeNode.vals]

/-- What `merge` does to contents and invariant: the separator comes down
between the two nodes' contents, and the result satisfies the occupancy
bounds whenever the combined count fits. -/
theorem merge_spec (lo hi : Option Int) (h : Nat) (p nd : BTreeNode) (w : Val)
    (hp : wfT 1 MAX_VALUES lo (some w.key) h p)
    (hnd : wfT 1 MAX_VALUES (some w.key) hi h nd)
    (hlo : loOK lo w.key) (hhi : hiOK hi w.key)
    (hsum : p.count + nd.count + 1 ≤ MAX_VALUES) :
    inorder (merge p w nd) = inorder p ++ w :: inorder nd ∧
    wfT MIN_VALUES MAX_VALUES lo hi h (merge p w nd) ∧
    (merge p w nd).count = p.count + nd.count + 1 := by
  cases p with
  | node pvs pcs =>
  cases nd with
  | node nvs ncs =>
  cases h with
  | zero => exact absurd hnd (wfT_zero _ _ _ _ _)
  | succ h2 =>
  cases ncs with
  | nil =>
    have hh1 : h2 + 1 = 1 := hnd.2.2.1
    have h2z : h2 = 0 := by omega
    subst h2z
    have hpcs : pcs = [] := wfT_leaf_of_one _ _ _ _ _ _ hp
    subst hpcs
    obtain ⟨hp1, hp2, _, hpch⟩ := hp
    obtain ⟨hn1, hn2, _, hnch⟩ := hnd
    have heq : merge (.node pvs []) w (.node nvs []) =
        .node (pvs ++ w :: nvs) [] := rfl
    rw [heq]
    refine ⟨by simp, ?_, ?_⟩
    · refine ⟨?_, ?_, rfl, ?_⟩
      · simp only [BTreeNode.vals, List.length_append, List.length_cons,
          MIN_VALUES, MIN_CHILDREN]
        omega
      · simp only [BTreeNode.count, BTreeNode.vals] at hsum
        simpa [BTreeNode.vals] using hsum
      · rw [List.map_append, List.map_cons]
        exact chainB_glue_mid lo hi w.key _ _ hpch hnch hlo hhi
    · simp [BTreeNode.count, BTreeNode.vals]
      omega
  | cons nc0 nrest =>
    obtain ⟨hn1, hn2, hrest⟩ := hnd
    cases h2 with
    | zero => exact absurd hrest.1 (wfT_zero _ _ _ _ _)
    | succ h3 =>
    obtain ⟨hnc0, hnseq⟩ := hrest
    have hpcne : pcs ≠ [] := by
      cases pcs with
      | nil =>
        have := hp.2.2.1
        omega
      | cons a b => simp
    obtain ⟨pc0, prest, hpc⟩ : ∃ pc0 prest, pcs = pc0 :: prest := by
      cases pcs with
      | nil => exact absurd rfl hpcne
      | cons a b => exact ⟨a, b, rfl⟩
    subst hpc
    obtain ⟨hp1, hp2, hpc0, hpseq⟩ := hp
    have hlen := wfSeq_len lo (some w.key) (h3 + 1) pvs prest hpseq
    have heq : merge (.node pvs (pc0 :: prest)) w (.node nvs (nc0 :: nrest)) =
        .node (pvs ++ w :: nvs) ((pc0 :: prest) ++ (nc0 :: nrest)) := rfl
    rw [heq]
    refine ⟨?_, ?_, ?_⟩
    · have hca : (pc0 :: prest) ++ (nc0 :: nrest) =
          pc0 :: (prest ++ nc0 :: nrest) := by simp
      rw [hca]
      rw [inorder_internal, inorder_internal, inorder_internal]
      rw [inorderW_append pvs (w :: nvs) prest (nc0 :: nrest) hlen]
      simp
    · refine ⟨?_, ?_, ?_, ?_⟩
      · simp only [BTreeNode.vals, List.length_append, List.length_cons,
          MIN_VALUES, MIN_CHILDREN]
        omega
      · simp only [BTreeNode.count, BTreeNode.vals] at hsum
        simpa [BTreeNode.vals] using hsum
      · cases pvs with
        | nil => exact hpc0
        | cons a b => exact hpc0
      · exact wfSeq_glue lo hi (h3 + 1) w pvs prest nc0 nvs nrest
          hpseq hlo hhi hnc0 hnseq
    · simp [BTreeNode.count, BTreeNode.vals]
      omega

theorem wfSeq_headKey_gt (a : Int) (hi : Option Int) (h : Nat) (vs : List Val)
    (cs : List BTreeNode) (hs : wfSeq (some a) hi h vs cs)
    (hbase : hiOK hi a) : hiOK (headKey vs hi) a := by
  cases vs with
  | nil => exact hbase
  | cons w3 ws3 =>
    cases cs with
    | nil => exact hs.elim
    | cons c3 cs3 => exact hs.1

theorem wfSeq_set_lo (lo lo2 hi : Option Int) (h : Nat) (vs : List Val)
    (cs : List BTreeNode) (hs : wfSeq lo hi h vs cs)
    (hhd : ∀ w3 ws3, vs = w3 :: ws3 → loOK lo2 w3.key) :
    wfSeq lo2 hi h vs cs := by
  cases vs with
  | nil =>
    cases cs with
    | nil => trivial
    | cons c cs => exact hs.elim
  | cons w3 ws3 =>
    cases cs with
    | nil => exact hs.elim
    | cons c cs => exact ⟨hhd w3 ws3 rfl, hs.2.1, hs.2.2.1, hs.2.2.2⟩

/-- `repair_underflow` through a non-first child's window: contents are
preserved, the invariant is restored for every node in the window, and the
parent loses at most one value (exactly one on a merge). -/
theorem repair_mid_spec (lo hi : Option Int) (h : Nat) (p nd : BTreeNode)
    (w : Val) (ws : List Val) (cs : List BTreeNode)
    (hp : wfT MIN_VALUES MAX_VALUES lo (some w.key) h p)
    (hlo : loOK lo w.key) (hhi : hiOK hi w.key)
    (hnd : wfT 1 MAX_VALUES (some w.key) (headKey ws hi) h nd)
    (hs : wfSeq (some w.key) hi h ws cs) :
    inorder (repair_mid p w nd ws cs).1 ++
        inorderW (repair_mid p w nd ws cs).2.1 (repair_mid p w nd ws cs).2.2 =
      inorder p ++ inorderW (w :: ws) (nd :: cs) ∧
    wfT MIN_VALUES MAX_VALUES lo (headKey (repair_mid p w nd ws cs).2.1 hi) h
      (repair_mid p w nd ws cs).1 ∧
    wfSeq lo hi h (repair_mid p w nd ws cs).2.1 (repair_mid p w nd ws cs).2.2 ∧
    ws.length ≤ (repair_mid p w nd ws cs).2.1.length ∧
    (repair_mid p w nd ws cs).2.1.length ≤ ws.length + 1 := by
  have hnd1 : 1 ≤ nd.count := (wfT_count_le _ _ _ _ _ _ hnd).1
  have hp24 := wfT_count_le _ _ _ _ _ _ hp
  cases ws with
  | nil =>
    cases cs with
    | cons c9 cs9 => exact hs.elim
    | nil =>
      by_cases hdef : MIN_VALUES ≤ nd.count
      · have heq : repair_mid p w nd [] [] = (p, [w], [nd]) := by
          rw [repair_mid, if_pos hdef]
          intro a b c d hx hy
          exact List.noConfusion hx
        rw [heq]
        exact ⟨rfl, hp, ⟨hlo, hhi, wfT_raise_min _ _ _ _ _ _ _ hnd hdef, trivial⟩,
          by simp, by simp⟩
      · by_cases hpsur : MIN_VALUES < p.count
        · have heq : repair_mid p w nd [] [] =
              ((tranfer_right p w nd).1, [(tranfer_right p w nd).2.1],
               [(tranfer_right p w nd).2.2]) := by
            rw [repair_mid, if_neg hdef, if_pos hpsur]
            intro a b c d hx hy
            exact List.noConfusion hx
          obtain ⟨hco, hwp, hwn, hol, hoh, hc1, hc2q⟩ :=
            tranfer_right_spec lo hi h p nd w hp hnd hlo hhi
              (by
                simp only [MIN_VALUES, MIN_CHILDREN, MAX_VALUES, MAX_CHILDREN]
                  at hdef ⊢
                omega) hpsur
          rw [heq]
          refine ⟨?_, hwp, ⟨hol, hoh, hwn, trivial⟩, by simp, by simp⟩
          simpa using hco
        · have heq : repair_mid p w nd [] [] = (merge p w nd, [], []) := by
            rw [repair_mid, if_neg hdef, if_neg hpsur]
            intro a b c d hx hy
            exact List.noConfusion hx
          obtain ⟨hco, hwm, hcm⟩ := merge_spec lo hi h p nd w
            (wfT_mono_top _ _ _ _ _ _ _ _ hp (by norm_num [MIN_VALUES, MIN_CHILDREN])
              (le_refl _)) hnd hlo hhi
            (by
              simp only [MIN_VALUES, MIN_CHILDREN, MAX_VALUES, MAX_CHILDREN]
                at hpsur hp24 hdef ⊢
              omega)
          rw [heq]
          exact ⟨by simpa using hco, hwm, trivial, by simp, by simp⟩
  | cons w2 ws2 =>
    cases cs with
    | nil => exact hs.elim
    | cons c2 cs2 =>
      obtain ⟨hl2, hh2, hc2, hs2⟩ := hs
      by_cases hdef : MIN_VALUES ≤ nd.count
      · have heq : repair_mid p w nd (w2 :: ws2) (c2 :: cs2) =
            (p, w :: w2 :: ws2, nd :: c2 :: cs2) := by
          rw [repair_mid, if_pos hdef]
        rw [heq]
        exact ⟨rfl, hp,
          ⟨hlo, hhi, wfT_raise_min _ _ _ _ _ _ _ hnd hdef, hl2, hh2, hc2, hs2⟩,
          by simp, by simp⟩
      · by_cases hrsur : MIN_VALUES < c2.count
        · -- rotate from the right sibling
          have heq : repair_mid p w nd (w2 :: ws2) (c2 :: cs2) =
              (p, w :: (transfer_left nd w2 c2).2.1 :: ws2,
               (transfer_left nd w2 c2).1 ::
                 (transfer_left nd w2 c2).2.2 :: cs2) := by
            rw [repair_mid, if_neg hdef, if_pos hrsur]
          have hh2b : hiOK (headKey ws2 hi) w2.key :=
            wfSeq_headKey_gt w2.key hi h ws2 cs2 hs2 hh2
          obtain ⟨hco, hwn, hwc, hol, hoh, hc1q, hc2q⟩ :=
            transfer_left_spec (some w.key) (headKey ws2 hi) h nd c2 w2
              hnd hc2 hl2 hh2b
              (by
                simp only [MIN_VALUES, MIN_CHILDREN, MAX_VALUES, MAX_CHILDREN]
                  at hdef ⊢
                omega) hrsur
          rw [heq]
          have hmhi : hiOK hi (transfer_left nd w2 c2).2.1.key := by
            cases ws2 with
            | nil => exact hoh
            | cons w3 ws3 =>
              cases cs2 with
              | nil => exact hs2.elim
              | cons c3 cs3 =>
                exact hiOK_of_lt hi _ w3.key (hs2.2.1) hoh
          refine ⟨?_, hp, ?_, by simp, by simp⟩
          · simp only [inorderW_cons_cons, List.append_assoc, List.cons_append]
            have hco2 := congrArg (fun l => l ++ inorderW ws2 cs2) hco
            simp only [List.append_assoc, List.cons_append] at hco2
            rw [hco2]
          · refine ⟨hlo, hhi, hwn, hol, hmhi, hwc, ?_⟩
            refine wfSeq_set_lo (some w2.key) _ hi h ws2 cs2 hs2 ?_
            intro w3 ws3 hvs
            subst hvs
            exact hoh
        · by_cases hpsur : MIN_VALUES < p.count
          · -- rotate from the left sibling
            have heq : repair_mid p w nd (w2 :: ws2) (c2 :: cs2) =
                ((tranfer_right p w nd).1,
                 (tranfer_right p w nd).2.1 :: w2 :: ws2,
                 (tranfer_right p w nd).2.2 :: c2 :: cs2) := by
              rw [repair_mid, if_neg hdef, if_neg hrsur, if_pos hpsur]
            obtain ⟨hco, hwp, hwn, hol, hoh, hc1q, hc2q⟩ :=
              tranfer_right_spec lo (some w2.key) h p nd w hp hnd hlo hl2
                (by
                  simp only [MIN_VALUES, MIN_CHILDREN, MAX_VALUES, MAX_CHILDREN]
                    at hdef ⊢
                  omega) hpsur
            rw [heq]
            refine ⟨?_, hwp, ?_, by simp, by simp⟩
            · simp only [inorderW_cons_cons, List.append_assoc, List.cons_append]
              have hco2 := congrArg
                (fun l => l ++ w2 :: (inorder c2 ++ inorderW ws2 cs2)) hco
              simp only [List.append_assoc, List.cons_append] at hco2
              rw [hco2]
            · exact ⟨hol, hiOK_of_lt hi _ w2.key hh2 hoh, hwn,
                hoh, hh2, hc2, hs2⟩
          · -- merge with the left sibling
            have heq : repair_mid p w nd (w2 :: ws2) (c2 :: cs2) =
                (merge p w nd, w2 :: ws2, c2 :: cs2) := by
              rw [repair_mid, if_neg hdef, if_neg hrsur, if_neg hpsur]
            obtain ⟨hco, hwm, hcm⟩ := merge_spec lo (some w2.key) h p nd w
              (wfT_mono_top _ _ _ _ _ _ _ _ hp
                (by norm_num [MIN_VALUES, MIN_CHILDREN]) (le_refl _)) hnd hlo hl2
              (by
                simp only [MIN_VALUES, MIN_CHILDREN, MAX_VALUES, MAX_CHILDREN]
                  at hpsur hp24 hdef ⊢
                omega)
            rw [heq]
            refine ⟨?_, hwm,
              ⟨loOK_of_lt lo w.key w2.key hlo hl2, hh2, hc2, hs2⟩,
              by simp, by simp⟩
            simp only [inorderW_cons_cons, List.append_assoc, List.cons_append]
            have hco2 := congrArg
              (fun l => l ++ w2 :: (inorder c2 ++ inorderW ws2 cs2)) hco
            simp only [List.append_assoc, List.cons_append] at hco2
            rw [hco2]

/-- `repair_underflow` through the first child's window (no left sibling):
right-sibling rotation or right merge, as in the source. -/
theorem repair_head_spec (lo hi : Option Int) (h : Nat) (nd : BTreeNode)
    (vs : List Val) (cs : List BTreeNode)
    (hnd : wfT 1 MAX_VALUES lo (headKey vs hi) h nd)
    (hs : wfSeq lo hi h vs cs)
    (hne : nd.count < MIN_VALUES → vs ≠ []) :
    inorder (repair_head nd vs cs).1 ++
        inorderW (repair_head nd vs cs).2.1 (repair_head nd vs cs).2.2 =
      inorder nd ++ inorderW vs cs ∧
    wfT MIN_VALUES MAX_VALUES lo (headKey (repair_head nd vs cs).2.1 hi) h
      (repair_head nd vs cs).1 ∧
    wfSeq lo hi h (repair_head nd vs cs).2.1 (repair_head nd vs cs).2.2 ∧
    vs.length - 1 ≤ (repair_head nd vs cs).2.1.length ∧
    (repair_head nd vs cs).2.1.length ≤ vs.length := by
  have hnd1 : 1 ≤ nd.count := (wfT_count_le _ _ _ _ _ _ hnd).1
  by_cases hdef : MIN_VALUES ≤ nd.count
  · have heq : repair_head nd vs cs = (nd, vs, cs) := by
      cases vs with
      | nil =>
        cases cs with
        | nil => simp [repair_head]
        | cons c cs2 => simp [repair_head]
      | cons w ws =>
        cases cs with
        | nil => simp [repair_head]
        | cons c cs2 => rw [repair_head, if_pos hdef]
    rw [heq]
    exact ⟨rfl, wfT_raise_min _ _ _ _ _ _ _ hnd hdef, hs, by simp, by simp⟩
  · have hvne : vs ≠ [] := hne (by omega)
    cases vs with
    | nil => exact absurd rfl hvne
    | cons w ws =>
      cases cs with
      | nil => exact hs.elim
      | cons c cs2 =>
        obtain ⟨hl1, hh1, hc, ht⟩ := hs
        have hh2b : hiOK (headKey ws hi) w.key :=
          wfSeq_headKey_gt w.key hi h ws cs2 ht hh1
        by_cases hrsur : MIN_VALUES < c.count
        · have heq : repair_head nd (w :: ws) (c :: cs2) =
              ((transfer_left nd w c).1, (transfer_left nd w c).2.1 :: ws,
               (transfer_left nd w c).2.2 :: cs2) := by
            rw [repair_head, if_neg hdef, if_pos hrsur]
          rw [heq]
          obtain ⟨hco, hwn, hwc, hol, hoh, hc1q, hc2q⟩ :=
            transfer_left_spec lo (headKey ws hi) h nd c w hnd hc hl1 hh2b
              (by
                simp only [MIN_VALUES, MIN_CHILDREN, MAX_VALUES, MAX_CHILDREN]
                  at hdef ⊢
                omega) hrsur
          have hmhi : hiOK hi (transfer_left nd w c).2.1.key := by
            cases ws with
            | nil => exact hoh
            | cons w3 ws3 =>
              cases cs2 with
              | nil => exact ht.elim
              | cons c3 cs3 =>
                exact hiOK_of_lt hi _ w3.key (ht.2.1) hoh
          refine ⟨?_, hwn, ?_, by simp, by simp⟩
          · simp only [inorderW_cons_cons, List.append_assoc, List.cons_append]
            have hco2 := congrArg (fun l => l ++ inorderW ws cs2) hco
            simp only [List.append_assoc, List.cons_append] at hco2
            rw [hco2]
          · refine ⟨hol, hmhi, hwc, ?_⟩
            refine wfSeq_set_lo (some w.key) _ hi h ws cs2 ht ?_
            intro w3 ws3 hvs
            subst hvs
            exact hoh
        · have heq : repair_head nd (w :: ws) (c :: cs2) =
              (merge nd w c, ws, cs2) := by
            rw [repair_head, if_neg hdef, if_neg hrsur]
          rw [heq]
          have hc24 := wfT_count_le _ _ _ _ _ _ hc
          obtain ⟨hco, hwm, hcm⟩ := merge_spec lo (headKey ws hi) h nd c w
            hnd (wfT_mono_top _ _ _ _ _ _ _ _ hc
              (by norm_num [MIN_VALUES, MIN_CHILDREN]) (le_refl _)) hl1 hh2b
            (by
              simp only [MIN_VALUES, MIN_CHILDREN, MAX_VALUES, MAX_CHILDREN]
                at hdef hrsur hc24 ⊢
              omega)
          refine ⟨?_, hwm, ?_, by simp, by simp⟩
          · simp only [inorderW_cons_cons]
            rw [hco]
            simp [List.append_assoc]
          · refine wfSeq_set_lo (some w.key) _ hi h ws cs2 ht ?_
            intro w3 ws3 hvs
            subst hvs
            cases cs2 with
            | nil => exact ht.elim
            | cons c3 cs3 => exact loOK_of_lt lo w.key w3.key hl1 ht.1

theorem trip_1 {α β γ : Type} (a : α) (b : β) (c : γ) : (a, b, c).1 = a := rfl

theorem trip_21 {α β γ : Type} (a : α) (b : β) (c : γ) : (a, b, c).2.1 = b := rfl

theorem trip_22 {α β γ : Type} (a : α) (b : β) (c : γ) : (a, b, c).2.2 = c := rfl

theorem quad_1 {α β γ δ : Type} (a : α) (b : β) (c : γ) (d : δ) :
    (a, b, c, d).1 = a := rfl

theorem quad_21 {α β γ δ : Type} (a : α) (b : β) (c : γ) (d : δ) :
    (a, b, c, d).2.1 = b := rfl

theorem quad_221 {α β γ δ : Type} (a : α) (b : β) (c : γ) (d : δ) :
    (a, b, c, d).2.2.1 = c := rfl

theorem quad_222 {α β γ δ : Type} (a : α) (b : β) (c : γ) (d : δ) :
    (a, b, c, d).2.2.2 = d := rfl

theorem repair_head_noop (nd : BTreeNode) (vs : List Val) (cs : List BTreeNode)
    (hdef : MIN_VALUES ≤ nd.count) : repair_head nd vs cs = (nd, vs, cs) := by
  cases vs with
  | nil =>
    cases cs with
    | nil => simp [repair_head]
    | cons c cs2 => simp [repair_head]
  | cons w ws =>
    cases cs with
    | nil => simp [repair_head]
    | cons c cs2 => rw [repair_head, if_pos hdef]

theorem repair_mid_noop (p nd : BTreeNode) (w : Val) (ws : List Val)
    (cs : List BTreeNode) (hdef : MIN_VALUES ≤ nd.count) :
    repair_mid p w nd ws cs = (p, w :: ws, nd :: cs) := by
  cases ws with
  | nil =>
    cases cs with
    | nil =>
      rw [repair_mid, if_pos hdef]
      intro a b c d hx hy
      exact List.noConfusion hx
    | cons c cs2 =>
      rw [repair_mid, if_pos hdef]
      intro a b c d hx hy
      exact List.noConfusion hx
  | cons w2 ws2 =>
    cases cs with
    | nil =>
      rw [repair_mid, if_pos hdef]
      intro a b c d hx hy
      exact List.noConfusion hy
    | cons c2 cs2 => rw [repair_mid, if_pos hdef]

mutual
/-- `remove_max` (the max-removal path of `node_remove`, ADTSet.c:258-266):
the removed value is the last of the subtree's contents, the invariant is
restored everywhere except that the subtree's root may be left one value
short, and the height is unchanged. -/
theorem remove_max_spec (minv : Nat) (lo hi : Option Int) (h : Nat)
    (t : BTreeNode) (hw : wfT minv MAX_VALUES lo hi h t) (hm : 1 ≤ minv) :
    inorder t = inorder (remove_max t).2 ++ [(remove_max t).1] ∧
    wfT (minv - 1) MAX_VALUES lo hi h (remove_max t).2 ∧
    t.count - 1 ≤ (remove_max t).2.count ∧ (remove_max t).2.count ≤ t.count := by
  cases t with
  | node vs cs =>
    cases cs with
    | nil =>
      have hvne : vs ≠ [] := by
        intro hc
        rw [hc] at hw
        have := hw.1
        simp at this
        omega
      obtain ⟨l, hl⟩ := getD_last_val vs hvne
      have heq : remove_max (.node vs []) =
          (vs.getD (vs.length - 1) dummy, .node vs.dropLast []) := by
        rw [remove_max]
      rw [heq]
      have hdl : vs.dropLast = l := by
        conv in vs.dropLast => rw [hl]
        simp
      obtain ⟨h1, h2, hh1, hch⟩ := hw
      have hmap : vs.map Val.key = l.map Val.key ++
          [(vs.getD (vs.length - 1) dummy).key] := by
        conv in vs.map Val.key => rw [hl]
        simp
      rw [hmap] at hch
      obtain ⟨hch0, hlo0, hhi0⟩ := chainB_last lo hi _ (l.map Val.key) hch
      have hvl : vs.length = l.length + 1 := by rw [hl]; simp
      refine ⟨by simpa [hdl] using hl, ⟨?_, ?_, hh1, ?_⟩, ?_, ?_⟩
      · simp only [BTreeNode.vals, hdl]
        omega
      · simp only [BTreeNode.vals, hdl]
        omega
      · simp only [BTreeNode.vals, hdl]
        refine chainB_weaken lo (some (vs.getD (vs.length - 1) dummy).key) lo hi
          _ (fun k hk => hk) ?_ hch0
        intro k hk
        exact hiOK_of_lt hi k _ hhi0 hk
      · simp only [BTreeNode.count, BTreeNode.vals, hdl]
        omega
      · simp only [BTreeNode.count, BTreeNode.vals, hdl]
        omega
    | cons c0 cs2 =>
      obtain ⟨h1, h2, h3⟩ := hw
      cases h with
      | zero => exact h3.elim
      | succ h2n =>
      obtain ⟨hc0, hseq⟩ := h3
      have hvne : vs ≠ [] := by
        intro hc
        subst hc
        simp at h1
        omega
      have hvpos : 1 ≤ vs.length := by
        cases vs with
        | nil => exact absurd rfl hvne
        | cons a b => simp
      obtain ⟨hcon, hwh, hwseq, hlen1, hlen2, hdefi⟩ :=
        remove_maxW_spec lo hi h2n c0 vs cs2 hc0 hseq
      have heq : remove_max (.node vs (c0 :: cs2)) =
          ((remove_maxW c0 vs cs2).1,
           .node (repair_head (remove_maxW c0 vs cs2).2.1
               (remove_maxW c0 vs cs2).2.2.1 (remove_maxW c0 vs cs2).2.2.2).2.1
             ((repair_head (remove_maxW c0 vs cs2).2.1
               (remove_maxW c0 vs cs2).2.2.1 (remove_maxW c0 vs cs2).2.2.2).1 ::
              (repair_head (remove_maxW c0 vs cs2).2.1
               (remove_maxW c0 vs cs2).2.2.1 (remove_maxW c0 vs cs2).2.2.2).2.2)) := by
        rw [remove_max]
      rw [heq]
      rcases hR : remove_maxW c0 vs cs2 with ⟨mx, rh, rvs, rcs⟩
      rw [hR] at hcon hwh hwseq hlen1 hlen2 hdefi
      simp only [trip_1, trip_21, trip_22, quad_1, quad_21, quad_221, quad_222] at hcon hwh hwseq hlen1 hlen2 hdefi
      simp only [hR, trip_1, trip_21, trip_22, quad_1, quad_21, quad_221, quad_222]
      obtain ⟨hrco, hrwf, hrseq, hrl1, hrl2⟩ :=
        repair_head_spec lo hi h2n rh rvs rcs hwh hwseq
          (by
            intro hdf hc
            have hLq := hdefi hdf
            rw [hc] at hLq
            simp only [List.length_nil] at hLq
            omega)
      rcases hQ : repair_head rh rvs rcs with ⟨qh, qvs, qcs⟩
      rw [hQ] at hrco hrwf hrseq hrl1 hrl2
      simp only [trip_1, trip_21, trip_22, quad_1, quad_21, quad_221, quad_222] at hrco hrwf hrseq hrl1 hrl2
      simp only [hQ, trip_1, trip_21, trip_22]
      have hqle : rvs.length - 1 ≤ qvs.length ∧ qvs.length ≤ rvs.length := ⟨hrl1, hrl2⟩
      have hkey : vs.length - 1 ≤ qvs.length := by
        by_cases hd : MIN_VALUES ≤ rh.count
        · have hx := hQ.symm.trans (repair_head_noop rh rvs rcs hd)
          simp only [Prod.mk.injEq] at hx
          rw [hx.2.1]
          omega
        · have hLq := hdefi (by omega)
          omega
      refine ⟨?_, ⟨?_, ?_, hrwf, hrseq⟩, ?_, ?_⟩
      · rw [inorder_internal, inorder_internal, hcon, hrco]
      · omega
      · omega
      · simp only [BTreeNode.count, BTreeNode.vals]
        omega
      · simp only [BTreeNode.count, BTreeNode.vals]
        omega
termination_by (sizeOf t, 0)

/-- The walk of `remove_max` along a node: contents lose exactly their last
element, each window is repaired on unwind, and the suffix keeps its length
unless a merge consumed one separator (never leaving a deficient first
child in that case). -/
theorem remove_maxW_spec (lo hi : Option Int) (h : Nat) (p : BTreeNode)
    (vs : List Val) (cs : List BTreeNode)
    (hp : wfT MIN_VALUES MAX_VALUES lo (headKey vs hi) h p)
    (hs : wfSeq lo hi h vs cs) :
    inorder p ++ inorderW vs cs =
      (inorder (remove_maxW p vs cs).2.1 ++
        inorderW (remove_maxW p vs cs).2.2.1 (remove_maxW p vs cs).2.2.2) ++
        [(remove_maxW p vs cs).1] ∧
    wfT 1 MAX_VALUES lo (headKey (remove_maxW p vs cs).2.2.1 hi) h
      (remove_maxW p vs cs).2.1 ∧
    wfSeq lo hi h (remove_maxW p vs cs).2.2.1 (remove_maxW p vs cs).2.2.2 ∧
    vs.length - 1 ≤ (remove_maxW p vs cs).2.2.1.length ∧
    (remove_maxW p vs cs).2.2.1.length ≤ vs.length ∧
    ((remove_maxW p vs cs).2.1.count < MIN_VALUES →
      (remove_maxW p vs cs).2.2.1.length = vs.length) := by
  cases vs with
  | nil =>
    cases cs with
    | cons c9 cs9 => exact hs.elim
    | nil =>
      have heq : remove_maxW p [] [] =
          ((remove_max p).1, (remove_max p).2, [], []) := by
        rw [remove_maxW]
      rw [heq]
      obtain ⟨hco, hwf, hc1, hc2⟩ := remove_max_spec MIN_VALUES lo hi h p hp
        (by norm_num [MIN_VALUES, MIN_CHILDREN])
      exact ⟨by simpa using hco, hwf, trivial, by simp, by simp, fun _ => rfl⟩
  | cons w ws =>
    cases cs with
    | nil => exact hs.elim
    | cons c cs2 =>
      obtain ⟨hl1, hh1, hc, ht⟩ := hs
      obtain ⟨hcon, hwh, hwseq, hlen1, hlen2, hdefi⟩ :=
        remove_maxW_spec (some w.key) hi h c ws cs2 hc ht
      have heq : remove_maxW p (w :: ws) (c :: cs2) =
          ((remove_maxW c ws cs2).1,
           repair_mid p w (remove_maxW c ws cs2).2.1
             (remove_maxW c ws cs2).2.2.1 (remove_maxW c ws cs2).2.2.2) := by
        rw [remove_maxW]
      rw [heq]
      rcases hR : remove_maxW c ws cs2 with ⟨mx, rh, rvs, rcs⟩
      rw [hR] at hcon hwh hwseq hlen1 hlen2 hdefi
      simp only [trip_1, trip_21, trip_22, quad_1, quad_21, quad_221, quad_222] at hcon hwh hwseq hlen1 hlen2 hdefi
      simp only [hR, trip_1, trip_21, trip_22, quad_1, quad_21, quad_221, quad_222]
      obtain ⟨hrco, hrwf, hrseq, hrl1, hrl2⟩ :=
        repair_mid_spec lo hi h p rh w rvs rcs hp hl1 hh1 hwh hwseq
      rcases hQ : repair_mid p w rh rvs rcs with ⟨qh, qvs, qcs⟩
      rw [hQ] at hrco hrwf hrseq hrl1 hrl2
      simp only [trip_1, trip_21, trip_22, quad_1, quad_21, quad_221, quad_222] at hrco hrwf hrseq hrl1 hrl2
      simp only [hQ, trip_1, trip_21, trip_22]
      have hsz : MIN_VALUES ≤ qh.count := (wfT_count_le _ _ _ _ _ _ hrwf).1
      have hkey : ws.length ≤ qvs.length := by
        by_cases hdev : MIN_VALUES ≤ rh.count
        · have hx := hQ.symm.trans (repair_mid_noop p rh w rvs rcs hdev)
          simp only [Prod.mk.injEq] at hx
          rw [hx.2.1]
          simp only [List.length_cons]
          omega
        · have := hdefi (by omega)
          omega
      refine ⟨?_, wfT_mono_top _ _ _ _ _ _ _ _ hrwf
        (by norm_num [MIN_VALUES, MIN_CHILDREN]) (le_refl _), hrseq,
        by simpa using hkey, by simp only [List.length_cons]; omega, ?_⟩
      · rw [inorderW_cons_cons, hrco, inorderW_cons_cons]
        have hco2 := congrArg (fun l => inorder p ++ (w :: l)) hcon
        simp only [List.append_assoc, List.cons_append] at hco2 ⊢
        rw [hco2]
      · intro hdd
        exact absurd hsz (by omega)
termination_by (sizeOf p + sizeOf cs, vs.length + 1)
end

/- ---------- keyed-removal content helpers ---------- -/

/-- Remove the first value whose key equals the key of `v`. -/
def eraseKeyd (v : Val) : List Val → List Val
  | [] => []
  | w :: ws => if w.key = v.key then ws else w :: eraseKeyd v ws

theorem eraseKeyd_sublist (v : Val) (l : List Val) : (eraseKeyd v l).Sublist l := by
  induction l with
  | nil => exact List.Sublist.refl []
  | cons w ws ih =>
    rw [eraseKeyd]
    by_cases hk : w.key = v.key
    · rw [if_pos hk]
      exact (List.sublist_cons_self w ws)
    · rw [if_neg hk]
      exact List.Sublist.cons₂ w ih

theorem chainB_sublist (lo hi : Option Int) (l1 l2 : List Int)
    (hsub : l1.Sublist l2) (hc : chainB lo hi l2) : chainB lo hi l1 := by
  refine ⟨?_, ?_⟩
  · have h1 := List.chain'_iff_pairwise.mp hc.1
    exact List.chain'_iff_pairwise.mpr (h1.sublist hsub)
  · intro k hk
    exact hc.2 k (hsub.subset hk)

theorem eraseKeyd_append_nomatch (v : Val) (l1 l2 : List Val)
    (hno : ∀ w ∈ l1, w.key ≠ v.key) :
    eraseKeyd v (l1 ++ l2) = l1 ++ eraseKeyd v l2 := by
  induction l1 with
  | nil => simp
  | cons w ws ih =>
    rw [List.cons_append, eraseKeyd, if_neg (hno w (by simp)), ih]
    · simp
    · intro x hx
      exact hno x (by simp [hx])

theorem eraseKeyd_cons_match (v w : Val) (ws : List Val) (hk : w.key = v.key) :
    eraseKeyd v (w :: ws) = ws := by
  rw [eraseKeyd, if_pos hk]

theorem eraseKeyd_cons_nomatch (v w : Val) (ws : List Val) (hk : w.key ≠ v.key) :
    eraseKeyd v (w :: ws) = w :: eraseKeyd v ws := by
  rw [eraseKeyd, if_neg hk]

theorem eraseKeyd_append_match (v : Val) (l1 l2 : List Val)
    (hm : ∃ w ∈ l1, w.key = v.key) :
    eraseKeyd v (l1 ++ l2) = eraseKeyd v l1 ++ l2 := by
  induction l1 with
  | nil =>
    obtain ⟨w, hw, _⟩ := hm
    cases hw
  | cons w ws ih =>
    by_cases hk : w.key = v.key
    · rw [List.cons_append, eraseKeyd_cons_match v w _ hk,
        eraseKeyd_cons_match v w _ hk]
    · obtain ⟨w2, hw2, hk2⟩ := hm
      rcases List.mem_cons.mp hw2 with he | he
      · rw [he] at hk2
        exact absurd hk2 hk
      · rw [List.cons_append, eraseKeyd_cons_nomatch v w _ hk,
          eraseKeyd_cons_nomatch v w _ hk, ih ⟨w2, he, hk2⟩, List.cons_append]

/- ---------- find_slot lemmas ---------- -/

theorem find_slot_inl_spec (v : Val) (vs : List Val) (i : Nat)
    (h : find_slot v vs = .inl i) :
    i < vs.length ∧ (vs.getD i dummy).key = v.key ∧
    vs.eraseIdx i = eraseKeyd v vs ∧ vs.getD i dummy ∈ vs := by
  induction vs generalizing i with
  | nil => exact absurd h (by rw [find_slot]; simp)
  | cons w ws ih =>
    rw [find_slot] at h
    by_cases hc0 : cmpv v w = 0
    · rw [if_pos hc0] at h
      obtain rfl : i = 0 := by
        have := Sum.inl.injEq (α := Nat) (β := Nat) 0 i
        cases h
        rfl
      have hk : w.key = v.key := ((cmpv_eq_zero_iff v w).mp hc0).symm
      exact ⟨by simp, by simpa using hk, by
        rw [List.eraseIdx_cons_zero, eraseKeyd_cons_match v w ws hk], by simp⟩
    · rw [if_neg hc0] at h
      by_cases hcn : cmpv v w < 0
      · rw [if_pos hcn] at h
        cases h
      · rw [if_neg hcn] at h
        have hgt : 0 < cmpv v w := by
          rcases lt_trichotomy (cmpv v w) 0 with hx | hx | hx
          · exact absurd hx hcn
          · exact absurd hx hc0
          · exact hx
        have hwk : w.key < v.key := (cmpv_pos_iff v w).mp hgt
        cases hfs : find_slot v ws with
        | inl j =>
          rw [hfs] at h
          obtain rfl : i = j + 1 := by
            cases h
            rfl
          obtain ⟨hj1, hj2, hj3, hj4⟩ := ih j hfs
          refine ⟨by simpa using hj1, by simpa using hj2, ?_, by
            right
            exact hj4⟩
          rw [List.eraseIdx_cons_succ, eraseKeyd, if_neg (by omega), hj3]
        | inr j =>
          rw [hfs] at h
          cases h

theorem find_slot_inr_nokey (v : Val) (vs : List Val) (lo hi : Option Int)
    (hch : chainB lo hi (vs.map Val.key)) (i : Nat)
    (h : find_slot v vs = .inr i) : ∀ w ∈ vs, w.key ≠ v.key := by
  induction vs generalizing lo i with
  | nil => intro w hw; cases hw
  | cons w ws ih =>
    rw [List.map_cons, chainB_cons] at hch
    rw [find_slot] at h
    by_cases hc0 : cmpv v w = 0
    · rw [if_pos hc0] at h
      cases h
    · rw [if_neg hc0] at h
      by_cases hcn : cmpv v w < 0
      · rw [if_pos hcn] at h
        have hvk : v.key < w.key := (cmpv_neg_iff v w).mp hcn
        intro x hx
        rcases List.mem_cons.mp hx with rfl | hx2
        · omega
        · have := (hch.2.2.2 x.key (by simp; exact ⟨x, hx2, rfl⟩)).1
          simp only [loOK] at this
          omega
      · rw [if_neg hcn] at h
        have hgt : 0 < cmpv v w := by
          rcases lt_trichotomy (cmpv v w) 0 with hx | hx | hx
          · exact absurd hx hcn
          · exact absurd hx hc0
          · exact hx
        have hwk : w.key < v.key := (cmpv_pos_iff v w).mp hgt
        intro x hx
        rcases List.mem_cons.mp hx with rfl | hx2
        · omega
        · cases hfs : find_slot v ws with
          | inl j =>
            rw [hfs] at h
            cases h
          | inr j =>
            exact ih (some w.key) hch.2.2 j hfs x hx2

theorem inorder_keys_lt (minv maxv : Nat) (lo : Option Int) (k : Int)
    (h : Nat) (t : BTreeNode) (hw : wfT minv maxv lo (some k) h t) :
    ∀ x ∈ inorder t, x.key < k := by
  intro x hx
  have := (wfT_chain minv maxv lo (some k) h t hw).2 x.key
    (List.mem_map_of_mem Val.key hx)
  exact this.2

theorem inorder_keys_gt (minv maxv : Nat) (k : Int) (hi : Option Int)
    (h : Nat) (t : BTreeNode) (hw : wfT minv maxv (some k) hi h t) :
    ∀ x ∈ inorder t, k < x.key := by
  intro x hx
  have := (wfT_chain minv maxv (some k) hi h t hw).2 x.key
    (List.mem_map_of_mem Val.key hx)
  exact this.1

theorem inorderW_keys_gt (k : Int) (hi : Option Int) (h : Nat)
    (vs : List Val) (cs : List BTreeNode) (hs : wfSeq (some k) hi h vs cs) :
    ∀ x ∈ inorderW vs cs, k < x.key := by
  intro x hx
  have := (wfSeq_chain (some k) hi h vs cs hs).2 x.key
    (List.mem_map_of_mem Val.key hx)
  exact this.1

mutual
/-- `node_remove` descent (ADTSet.c:221-279) below the root: a `none` result
means no equal value exists in the subtree; otherwise the removed value, the
new contents (the old contents minus that one value), the restored invariant
(the subtree root may be left one value short of the minimum), and the
preserved height. -/
theorem node_remove_go_spec (minv : Nat) (lo hi : Option Int) (h : Nat)
    (v : Val) (t : BTreeNode)
    (hw : wfT minv MAX_VALUES lo hi h t) (hm : 1 ≤ minv) :
    (node_remove_go v t = none → ∀ x ∈ inorder t, x.key ≠ v.key) ∧
    (∀ t2 old, node_remove_go v t = some (t2, old) →
      old ∈ inorder t ∧ old.key = v.key ∧
      inorder t2 = eraseKeyd v (inorder t) ∧
      wfT (minv - 1) MAX_VALUES lo hi h t2 ∧
      t.count - 1 ≤ t2.count ∧ t2.count ≤ t.count) := by
  cases t with
  | node vs cs =>
    cases cs with
    | nil =>
      obtain ⟨h1, h2, hh1, hch⟩ := hw
      constructor
      · intro hnone
        rw [node_remove_go] at hnone
        cases hfs : find_slot v vs with
        | inl i =>
          rw [hfs] at hnone
          cases hnone
        | inr i =>
          rw [inorder_leaf]
          exact find_slot_inr_nokey v vs lo hi hch i hfs
      · intro t2 old hsome
        rw [node_remove_go] at hsome
        cases hfs : find_slot v vs with
        | inr i =>
          rw [hfs] at hsome
          cases hsome
        | inl i =>
          rw [hfs] at hsome
          obtain ⟨hi1, hi2, hi3, hi4⟩ := find_slot_inl_spec v vs i hfs
          have ht2 : t2 = .node (vs.eraseIdx i) [] := by
            cases hsome
            rfl
          have hold : old = vs.getD i dummy := by
            cases hsome
            rfl
          subst ht2
          subst hold
          have hlen : (vs.eraseIdx i).length = vs.length - 1 :=
            List.length_eraseIdx_of_lt hi1
          refine ⟨by simpa using hi4, hi2, ?_, ⟨?_, ?_, hh1, ?_⟩, ?_, ?_⟩
          · rw [inorder_leaf, inorder_leaf, hi3]
          · omega
          · omega
          · refine chainB_sublist lo hi _ _ ?_ hch
            rw [hi3]
            exact (eraseKeyd_sublist v vs).map Val.key
          · simp only [BTreeNode.count, BTreeNode.vals]
            omega
          · simp only [BTreeNode.count, BTreeNode.vals]
            omega
    | cons c0 cs2 =>
      obtain ⟨h1, h2, h3⟩ := hw
      cases h with
      | zero => exact h3.elim
      | succ h2n =>
      obtain ⟨hc0, hseq⟩ := h3
      obtain ⟨hwn, hws⟩ := remWalk_spec lo hi h2n v c0 vs cs2 hc0 hseq
      constructor
      · intro hnone
        rw [node_remove_go] at hnone
        cases hrw : remWalk v c0 vs cs2 with
        | some r =>
          rw [hrw] at hnone
          cases hnone
        | none =>
          rw [inorder_internal]
          exact hwn hrw
      · intro t2 old hsome
        rw [node_remove_go] at hsome
        cases hrw : remWalk v c0 vs cs2 with
        | none =>
          rw [hrw] at hsome
          cases hsome
        | some r =>
          rw [hrw] at hsome
          rcases r with ⟨rh, rvs, rcs, rold⟩
          obtain ⟨ho1, ho2, ho3, ho4, ho5, ho6, ho7, ho8⟩ :=
            hws rh rvs rcs rold hrw
          obtain ⟨hrco, hrwf, hrseq, hrl1, hrl2⟩ :=
            repair_head_spec lo hi h2n rh rvs rcs ho4 ho5
              (by
                intro hdf hc
                have hLq := ho8 hdf
                rw [hc] at hLq
                simp only [List.length_nil] at hLq
                omega)
          rcases hQ : repair_head rh rvs rcs with ⟨qh, qvs, qcs⟩
          rw [hQ] at hrco hrwf hrseq hrl1 hrl2
          simp only [trip_1, trip_21, trip_22] at hrco hrwf hrseq hrl1 hrl2
          have ht2 : t2 = .node qvs (qh :: qcs) := by
            cases hsome
            simp [hQ]
          have hold : old = rold := by
            cases hsome
            rfl
          subst ht2
          subst hold
          have hkey : vs.length - 1 ≤ qvs.length := by
            by_cases hd : MIN_VALUES ≤ rh.count
            · have hx := hQ.symm.trans (repair_head_noop rh rvs rcs hd)
              simp only [Prod.mk.injEq] at hx
              rw [hx.2.1]
              omega
            · have hLq := ho8 (by omega)
              omega
          refine ⟨by rw [inorder_internal]; exact ho1, ho2, ?_,
            ⟨?_, ?_, hrwf, hrseq⟩, ?_, ?_⟩
          · rw [inorder_internal, inorder_internal, hrco, ho3]
          · omega
          · omega
          · simp only [BTreeNode.count, BTreeNode.vals]
            omega
          · simp only [BTreeNode.count, BTreeNode.vals]
            omega
termination_by (sizeOf t, 0)

/-- The `node_find` walk of `node_remove` along an internal node: same
contract as `node_remove_go_spec`, phrased on the remaining window of the
node (`p` is the child left of the remaining values `vs`). -/
theorem remWalk_spec (lo hi : Option Int) (h : Nat) (v : Val) (p : BTreeNode)
    (vs : List Val) (cs : List BTreeNode)
    (hp : wfT MIN_VALUES MAX_VALUES lo (headKey vs hi) h p)
    (hs : wfSeq lo hi h vs cs) :
    (remWalk v p vs cs = none →
      ∀ x ∈ inorder p ++ inorderW vs cs, x.key ≠ v.key) ∧
    (∀ rh rvs rcs old, remWalk v p vs cs = some (rh, rvs, rcs, old) →
      old ∈ inorder p ++ inorderW vs cs ∧ old.key = v.key ∧
      inorder rh ++ inorderW rvs rcs =
        eraseKeyd v (inorder p ++ inorderW vs cs) ∧
      wfT 1 MAX_VALUES lo (headKey rvs hi) h rh ∧
      wfSeq lo hi h rvs rcs ∧
      vs.length - 1 ≤ rvs.length ∧ rvs.length ≤ vs.length ∧
      (rh.count < MIN_VALUES → rvs.length = vs.length)) := by
  cases vs with
  | nil =>
    cases cs with
    | cons c9 cs9 => exact ⟨fun _ => hs.elim, fun _ _ _ _ _ => hs.elim⟩
    | nil =>
      obtain ⟨hgn, hgs⟩ := node_remove_go_spec MIN_VALUES lo hi h v p hp
        (by decide)
      constructor
      · intro hnone
        rw [remWalk] at hnone
        cases hgo : node_remove_go v p with
        | some r =>
          rw [hgo] at hnone
          cases hnone
        | none =>
          intro x hx
          rw [inorderW_nil_vals, List.append_nil] at hx
          exact hgn hgo x hx
      · intro rh rvs rcs old hsome
        rw [remWalk] at hsome
        cases hgo : node_remove_go v p with
        | none =>
          rw [hgo] at hsome
          cases hsome
        | some r =>
          rw [hgo] at hsome
          simp only [Option.map_some', Option.some.injEq, Prod.mk.injEq]
            at hsome
          obtain ⟨e1, e2, e3, e4⟩ := hsome
          subst e1
          subst e2
          subst e3
          subst e4
          obtain ⟨hg1, hg2, hg3, hg4, hg5, hg6⟩ := hgs r.1 r.2 hgo
          refine ⟨by simpa using hg1, hg2, ?_, ?_, trivial, by simp, by simp,
            fun _ => rfl⟩
          · simp only [inorderW_nil_vals, List.append_nil]
            exact hg3
          · exact wfT_mono_top (MIN_VALUES - 1) MAX_VALUES 1 MAX_VALUES lo hi
              h r.1 hg4 (by decide) le_rfl
  | cons w ws =>
    cases cs with
    | nil => exact ⟨fun _ => hs.elim, fun _ _ _ _ _ => hs.elim⟩
    | cons c cs2 =>
      obtain ⟨hlow, hhiw, hc, hseq2⟩ := hs
      by_cases hcr0 : cmpv v w = 0
      · have hkey : v.key = w.key := (cmpv_eq_zero_iff v w).mp hcr0
        have heqW : remWalk v p (w :: ws) (c :: cs2) =
            some ((remove_max p).2, (remove_max p).1 :: ws, c :: cs2, w) := by
          simp only [remWalk]
          rw [if_pos hcr0]
        obtain ⟨hm1, hm2, hm3, hm4⟩ := remove_max_spec MIN_VALUES lo
          (some w.key) h p hp (by decide)
        have hchp : chainB lo (some w.key)
            ((inorder (remove_max p).2).map Val.key ++
              [(remove_max p).1.key]) := by
          have h0 := wfT_chain MIN_VALUES MAX_VALUES lo (some w.key) h p hp
          rw [inkeys, hm1, List.map_append, List.map_cons, List.map_nil] at h0
          exact h0
        obtain ⟨hcp2, hlomx, hhimx⟩ := chainB_last lo (some w.key)
          (remove_max p).1.key ((inorder (remove_max p).2).map Val.key) hchp
        have hmxw : (remove_max p).1.key < w.key := hhimx
        constructor
        · intro hnone
          rw [heqW] at hnone
          cases hnone
        · intro rh rvs rcs old hsome
          rw [heqW] at hsome
          simp only [Option.some.injEq, Prod.mk.injEq] at hsome
          obtain ⟨e1, e2, e3, e4⟩ := hsome
          subst e1
          subst e2
          subst e3
          subst e4
          have hno : ∀ x ∈ inorder p, x.key ≠ v.key := by
            intro x hx
            have := inorder_keys_lt MIN_VALUES MAX_VALUES lo w.key h p hp x hx
            omega
          refine ⟨by simp, hkey.symm, ?_, ?_, ?_, by simp, by simp,
            fun _ => rfl⟩
          · rw [inorderW_cons_cons, inorderW_cons_cons,
              eraseKeyd_append_nomatch v _ _ hno,
              eraseKeyd_cons_match v w _ hkey.symm, hm1]
            simp
          · refine wfT_mono_top (MIN_VALUES - 1) MAX_VALUES 1 MAX_VALUES lo
              (some (remove_max p).1.key) h (remove_max p).2 ?_ (by decide)
              le_rfl
            refine wfT_tighten_hi (MIN_VALUES - 1) MAX_VALUES lo (some w.key)
              (some (remove_max p).1.key) h (remove_max p).2 hm2 ?_
            intro k hk2
            exact (hcp2.2 k hk2).2
          · refine ⟨hlomx, hiOK_of_lt hi (remove_max p).1.key w.key hhiw hmxw,
              ?_, ?_⟩
            · exact wfT_weaken MIN_VALUES MAX_VALUES (some w.key)
                (headKey ws hi) (some (remove_max p).1.key) (headKey ws hi)
                h c (fun k hk => lt_trans hmxw hk) (fun k hk => hk) hc
            · exact wfSeq_weaken (some w.key) hi
                (some (remove_max p).1.key) hi h ws cs2
                (fun k hk => lt_trans hmxw hk) (fun k hk => hk) hseq2
      · by_cases hcrneg : cmpv v w < 0
        · have hkeylt : v.key < w.key := (cmpv_neg_iff v w).mp hcrneg
          have heqW : remWalk v p (w :: ws) (c :: cs2) =
              (node_remove_go v p).map
                fun r => (r.1, w :: ws, c :: cs2, r.2) := by
            simp only [remWalk]
            rw [if_neg hcr0, if_pos hcrneg]
          obtain ⟨hgn, hgs⟩ := node_remove_go_spec MIN_VALUES lo (some w.key)
            h v p hp (by decide)
          constructor
          · intro hnone
            rw [heqW] at hnone
            cases hgo : node_remove_go v p with
            | some r =>
              rw [hgo] at hnone
              cases hnone
            | none =>
              intro x hx
              rcases List.mem_append.mp hx with hx1 | hx1
              · exact hgn hgo x hx1
              · rw [inorderW_cons_cons] at hx1
                rcases List.mem_cons.mp hx1 with hx2 | hx2
                · rw [hx2]
                  omega
                · rcases List.mem_append.mp hx2 with hx3 | hx3
                  · have := inorder_keys_gt MIN_VALUES MAX_VALUES w.key
                      (headKey ws hi) h c hc x hx3
                    omega
                  · have := inorderW_keys_gt w.key hi h ws cs2 hseq2 x hx3
                    omega
          · intro rh rvs rcs old hsome
            rw [heqW] at hsome
            cases hgo : node_remove_go v p with
            | none =>
              rw [hgo] at hsome
              cases hsome
            | some r =>
              rw [hgo] at hsome
              simp only [Option.map_some', Option.some.injEq, Prod.mk.injEq]
                at hsome
              obtain ⟨e1, e2, e3, e4⟩ := hsome
              subst e1
              subst e2
              subst e3
              subst e4
              obtain ⟨hg1, hg2, hg3, hg4, hg5, hg6⟩ := hgs r.1 r.2 hgo
              refine ⟨List.mem_append_left _ hg1, hg2, ?_, ?_,
                ⟨hlow, hhiw, hc, hseq2⟩, Nat.sub_le _ _, le_rfl,
                fun _ => rfl⟩
              · rw [eraseKeyd_append_match v _ _ ⟨r.2, hg1, hg2⟩, hg3]
              · exact wfT_mono_top (MIN_VALUES - 1) MAX_VALUES 1 MAX_VALUES
                  lo (some w.key) h r.1 hg4 (by decide) le_rfl
        · have hpos : 0 < cmpv v w := by omega
          have hkeygt : w.key < v.key := (cmpv_pos_iff v w).mp hpos
          obtain ⟨hwn, hws⟩ := remWalk_spec (some w.key) hi h v c ws cs2 hc
            hseq2
          constructor
          · intro hnone
            simp only [remWalk] at hnone
            rw [if_neg hcr0, if_neg hcrneg] at hnone
            cases hrec : remWalk v c ws cs2 with
            | some r =>
              rw [hrec] at hnone
              cases hnone
            | none =>
              intro x hx
              rcases List.mem_append.mp hx with hx1 | hx1
              · have := inorder_keys_lt MIN_VALUES MAX_VALUES lo w.key h p hp
                  x hx1
                omega
              · rw [inorderW_cons_cons] at hx1
                rcases List.mem_cons.mp hx1 with hx2 | hx2
                · rw [hx2]
                  omega
                · exact hwn hrec x hx2
          · intro rh rvs rcs old hsome
            simp only [remWalk] at hsome
            rw [if_neg hcr0, if_neg hcrneg] at hsome
            cases hrec : remWalk v c ws cs2 with
            | none =>
              rw [hrec] at hsome
              cases hsome
            | some r =>
              rcases r with ⟨rh2, rvs2, rcs2, rold2⟩
              rw [hrec] at hsome
              obtain ⟨ho1, ho2, ho3, ho4, ho5, ho6, ho7, ho8⟩ :=
                hws rh2 rvs2 rcs2 rold2 hrec
              obtain ⟨hrco, hrwf, hrseq, hrl1, hrl2⟩ :=
                repair_mid_spec lo hi h p rh2 w rvs2 rcs2 hp hlow hhiw ho4 ho5
              rcases hQ : repair_mid p w rh2 rvs2 rcs2 with ⟨qh, qvs, qcs⟩
              rw [hQ] at hrco hrwf hrseq hrl1 hrl2
              simp only [trip_1, trip_21, trip_22]
                at hrco hrwf hrseq hrl1 hrl2
              simp only [quad_1, quad_21, quad_221, quad_222] at hsome
              rw [hQ] at hsome
              simp only [trip_1, trip_21, trip_22, Option.some.injEq,
                Prod.mk.injEq] at hsome
              obtain ⟨e1, e2, e3, e4⟩ := hsome
              subst e1
              subst e2
              subst e3
              subst e4
              have hno : ∀ x ∈ inorder p, x.key ≠ v.key := by
                intro x hx
                have := inorder_keys_lt MIN_VALUES MAX_VALUES lo w.key h p hp
                  x hx
                omega
              have hwne : w.key ≠ v.key := by omega
              refine ⟨?_, ho2, ?_, ?_, hrseq, ?_, ?_, ?_⟩
              · simp only [inorderW_cons_cons]
                exact List.mem_append_right _ (List.mem_cons_of_mem w ho1)
              · simp only [inorderW_cons_cons]
                rw [eraseKeyd_append_nomatch v _ _ hno,
                  eraseKeyd_cons_nomatch v w _ hwne, ← ho3]
                simp only [inorderW_cons_cons] at hrco
                exact hrco
              · exact wfT_mono_top MIN_VALUES MAX_VALUES 1 MAX_VALUES lo
                  (headKey qvs hi) h qh hrwf (by decide) le_rfl
              · simp only [List.length_cons]
                by_cases hdf : MIN_VALUES ≤ rh2.count
                · have hx := hQ.symm.trans
                    (repair_mid_noop p rh2 w rvs2 rcs2 hdf)
                  simp only [Prod.mk.injEq] at hx
                  have hx2 : qvs.length = rvs2.length + 1 := by
                    rw [hx.2.1]
                    simp
                  omega
                · have hLq := ho8 (by omega)
                  omega
              · simp only [List.length_cons]
                omega
              · intro hq
                have := (wfT_count_le _ _ _ _ _ _ hrwf).1
                omega
termination_by (sizeOf p + sizeOf cs, vs.length + 1)
end

/-- `node_remove` (ADTSet.c:221-279) at a well-formed root: on a miss the
tree is returned unchanged with `removed = false`; on a hit the unique value
with the searched key is removed and returned, the root collapses to its
only child when emptied (ADTSet.c:270-277), and the result is a well-formed
root with the removed value erased from the contents. -/
theorem node_remove_root_spec (t : BTreeNode) (v : Val) (h : Nat)
    (hw : wfT 1 MAX_VALUES none none h t) :
    (node_remove (some t) v = (some t, false, none) ∧
      ∀ x ∈ inorder t, x.key ≠ v.key) ∨
    (∃ r2 old, node_remove (some t) v = (r2, true, some old) ∧
      old ∈ inorder t ∧ old.key = v.key ∧
      (match r2 with | none => [] | some u => inorder u) =
        eraseKeyd v (inorder t) ∧ wfRoot r2) := by
  obtain ⟨hgn, hgs⟩ := node_remove_go_spec 1 none none h v t hw le_rfl
  cases hgo : node_remove_go v t with
  | none =>
    left
    constructor
    · rw [node_remove, hgo]
    · exact hgn hgo
  | some r =>
    right
    obtain ⟨hg1, hg2, hg3, hg4, hg5, hg6⟩ := hgs r.1 r.2 hgo
    by_cases hz : r.1.count = 0
    · refine ⟨r.1.children.head?, r.2, ?_, hg1, hg2, ?_, ?_⟩
      · simp [node_remove, hgo, hz]
      · cases ht2 : r.1 with
        | node vs2 cs2 =>
          rw [ht2] at hz hg3 hg4
          have hvs2 : vs2 = [] := by
            simp only [BTreeNode.count, BTreeNode.vals] at hz
            exact List.eq_nil_of_length_eq_zero hz
          subst hvs2
          cases cs2 with
          | nil =>
            simp only [BTreeNode.children, List.head?_nil]
            rw [inorder_leaf] at hg3
            exact hg3
          | cons c0 cs3 =>
            obtain ⟨hq1, hq2, hq3⟩ := hg4
            cases h with
            | zero => exact hq3.elim
            | succ h2 =>
              obtain ⟨hc0, hseq⟩ := hq3
              cases cs3 with
              | cons c4 cs4 => exact hseq.elim
              | nil =>
                simp only [BTreeNode.children, List.head?_cons]
                rw [inorder_internal, inorderW_nil_vals,
                  List.append_nil] at hg3
                exact hg3
      · cases ht2 : r.1 with
        | node vs2 cs2 =>
          rw [ht2] at hz hg4
          have hvs2 : vs2 = [] := by
            simp only [BTreeNode.count, BTreeNode.vals] at hz
            exact List.eq_nil_of_length_eq_zero hz
          subst hvs2
          cases cs2 with
          | nil => exact trivial
          | cons c0 cs3 =>
            obtain ⟨hq1, hq2, hq3⟩ := hg4
            cases h with
            | zero => exact hq3.elim
            | succ h2 =>
              obtain ⟨hc0, hseq⟩ := hq3
              cases cs3 with
              | cons c4 cs4 => exact hseq.elim
              | nil =>
                simp only [BTreeNode.children, List.head?_cons]
                exact ⟨h2, wfT_mono_top MIN_VALUES MAX_VALUES 1 MAX_VALUES
                  none none h2 c0 hc0 (by decide) le_rfl⟩
    · refine ⟨some r.1, r.2, ?_, hg1, hg2, hg3, ?_⟩
      · simp [node_remove, hgo, hz]
      · exact ⟨h, wfT_raise_min 0 MAX_VALUES 1 none none h r.1 hg4
          (by omega)⟩

mutual
/-- `node_find` + `set_find` value lookup (ADTSet.c:422-448, 573-576) on a
well-formed subtree: `none` exactly when no stored value compares equal, and
otherwise the stored value with the searched key. -/
theorem node_find_val_spec (minv : Nat) (lo hi : Option Int) (h : Nat)
    (v : Val) (t : BTreeNode) (hw : wfT minv MAX_VALUES lo hi h t) :
    (node_find_val v t = none → ∀ x ∈ inorder t, x.key ≠ v.key) ∧
    (∀ u, node_find_val v t = some u → u ∈ inorder t ∧ u.key = v.key) := by
  cases t with
  | node vs cs =>
    cases cs with
    | nil =>
      obtain ⟨h1, h2, hh1, hch⟩ := hw
      constructor
      · intro hnone
        rw [node_find_val] at hnone
        cases hfs : find_slot v vs with
        | inl i =>
          rw [hfs] at hnone
          cases hnone
        | inr i =>
          rw [inorder_leaf]
          exact find_slot_inr_nokey v vs lo hi hch i hfs
      · intro u hsome
        rw [node_find_val] at hsome
        cases hfs : find_slot v vs with
        | inr i =>
          rw [hfs] at hsome
          cases hsome
        | inl i =>
          rw [hfs] at hsome
          obtain ⟨hi1, hi2, hi3, hi4⟩ := find_slot_inl_spec v vs i hfs
          have hu : u = vs.getD i dummy := by
            cases hsome
            rfl
          subst hu
          exact ⟨by simpa using hi4, hi2⟩
    | cons c0 cs2 =>
      obtain ⟨h1, h2, h3⟩ := hw
      cases h with
      | zero => exact h3.elim
      | succ h2n =>
        obtain ⟨hc0, hseq⟩ := h3
        obtain ⟨hfn, hfs⟩ := findWalk_spec lo hi h2n v c0 vs cs2 hc0 hseq
        constructor
        · intro hnone
          rw [node_find_val] at hnone
          rw [inorder_internal]
          exact hfn hnone
        · intro u hsome
          rw [node_find_val] at hsome
          rw [inorder_internal]
          exact hfs u hsome
termination_by (sizeOf t, 0)

/-- The `node_find` walk along an internal node: same contract as
`node_find_val_spec`, phrased on the remaining window. -/
theorem findWalk_spec (lo hi : Option Int) (h : Nat) (v : Val) (p : BTreeNode)
    (vs : List Val) (cs : List BTreeNode)
    (hp : wfT MIN_VALUES MAX_VALUES lo (headKey vs hi) h p)
    (hs : wfSeq lo hi h vs cs) :
    (findWalk v p vs cs = none →
      ∀ x ∈ inorder p ++ inorderW vs cs, x.key ≠ v.key) ∧
    (∀ u, findWalk v p vs cs = some u →
      u ∈ inorder p ++ inorderW vs cs ∧ u.key = v.key) := by
  cases vs with
  | nil =>
    cases cs with
    | cons c9 cs9 => exact ⟨fun _ => hs.elim, fun _ _ => hs.elim⟩
    | nil =>
      obtain ⟨hgn, hgs⟩ := node_find_val_spec MIN_VALUES lo hi h v p hp
      constructor
      · intro hnone
        rw [findWalk] at hnone
        intro x hx
        rw [inorderW_nil_vals, List.append_nil] at hx
        exact hgn hnone x hx
      · intro u hsome
        rw [findWalk] at hsome
        obtain ⟨hu1, hu2⟩ := hgs u hsome
        exact ⟨by simpa using hu1, hu2⟩
  | cons w ws =>
    cases cs with
    | nil => exact ⟨fun _ => hs.elim, fun _ _ => hs.elim⟩
    | cons c cs2 =>
      obtain ⟨hlow, hhiw, hc, hseq2⟩ := hs
      by_cases hcr0 : cmpv v w = 0
      · have hkey : v.key = w.key := (cmpv_eq_zero_iff v w).mp hcr0
        have heqW : findWalk v p (w :: ws) (c :: cs2) = some w := by
          simp only [findWalk]
          rw [if_pos hcr0]
        constructor
        · intro hnone
          rw [heqW] at hnone
          cases hnone
        · intro u hsome
          rw [heqW] at hsome
          have hu : u = w := by
            cases hsome
            rfl
          subst hu
          exact ⟨by simp, hkey.symm⟩
      · by_cases hcrneg : cmpv v w < 0
        · have hkeylt : v.key < w.key := (cmpv_neg_iff v w).mp hcrneg
          have heqW : findWalk v p (w :: ws) (c :: cs2) =
              node_find_val v p := by
            simp only [findWalk]
            rw [if_neg hcr0, if_pos hcrneg]
          obtain ⟨hgn, hgs⟩ := node_find_val_spec MIN_VALUES lo (some w.key)
            h v p hp
          constructor
          · intro hnone
            rw [heqW] at hnone
            intro x hx
            rcases List.mem_append.mp hx with hx1 | hx1
            · exact hgn hnone x hx1
            · rw [inorderW_cons_cons] at hx1
              rcases List.mem_cons.mp hx1 with hx2 | hx2
              · rw [hx2]
                omega
              · rcases List.mem_append.mp hx2 with hx3 | hx3
                · have := inorder_keys_gt MIN_VALUES MAX_VALUES w.key
                    (headKey ws hi) h c hc x hx3
                  omega
                · have := inorderW_keys_gt w.key hi h ws cs2 hseq2 x hx3
                  omega
          · intro u hsome
            rw [heqW] at hsome
            obtain ⟨hu1, hu2⟩ := hgs u hsome
            exact ⟨List.mem_append_left _ hu1, hu2⟩
        · have hpos : 0 < cmpv v w := by omega
          have hkeygt : w.key < v.key := (cmpv_pos_iff v w).mp hpos
          have heqW : findWalk v p (w :: ws) (c :: cs2) =
              findWalk v c ws cs2 := by
            simp only [findWalk]
            rw [if_neg hcr0, if_neg hcrneg]
          obtain ⟨hwn, hws⟩ := findWalk_spec (some w.key) hi h v c ws cs2 hc
            hseq2
          constructor
          · intro hnone
            rw [heqW] at hnone
            intro x hx
            rcases List.mem_append.mp hx with hx1 | hx1
            · have := inorder_keys_lt MIN_VALUES MAX_VALUES lo w.key h p hp
                x hx1
              omega
            · rw [inorderW_cons_cons] at hx1
              rcases List.mem_cons.mp hx1 with hx2 | hx2
              · rw [hx2]
                omega
              · exact hwn hnone x hx2
          · intro u hsome
            rw [heqW] at hsome
            obtain ⟨hu1, hu2⟩ := hws u hsome
            refine ⟨?_, hu2⟩
            simp only [inorderW_cons_cons]
            exact List.mem_append_right _ (List.mem_cons_of_mem w hu1)
termination_by (sizeOf p + sizeOf cs, vs.length + 1)
end

theorem eraseKeyd_length_of_mem (v : Val) (l : List Val)
    (hm : ∃ w ∈ l, w.key = v.key) :
    (eraseKeyd v l).length + 1 = l.length := by
  induction l with
  | nil =>
    obtain ⟨w, hw, _⟩ := hm
    cases hw
  | cons w ws ih =>
    by_cases hk : w.key = v.key
    · rw [eraseKeyd_cons_match v w _ hk, List.length_cons]
    · obtain ⟨w2, hw2, hk2⟩ := hm
      rcases List.mem_cons.mp hw2 with he | he
      · rw [he] at hk2
        exact absurd hk2 hk
      · rw [eraseKeyd_cons_nomatch v w _ hk, List.length_cons,
          List.length_cons, ih ⟨w2, he, hk2⟩]

/-- `set_remove` (ADTSet.c:578-593) on an invariant-satisfying state: the
invariant is preserved; a `false` return leaves the state untouched, calls
no destructor, and happens exactly when no equal value is stored; a `true`
return removes the unique equal value, hands exactly it to the destructor,
and decrements the size by one. -/
theorem set_remove_spec (s : SetState) (v : Val) (hs : SInv s) :
    SInv (set_remove s v).1 ∧
    ((set_remove s v).2.1 = false →
      (set_remove s v).1 = s ∧ (set_remove s v).2.2 = [] ∧
      ∀ x ∈ set_visit s, x.key ≠ v.key) ∧
    ((set_remove s v).2.1 = true →
      ∃ old, (set_remove s v).2.2 = [old] ∧ old ∈ set_visit s ∧
        old.key = v.key ∧
        set_visit (set_remove s v).1 = eraseKeyd v (set_visit s) ∧
        (set_remove s v).1.size = s.size - 1) := by
  rcases s with ⟨sr, ssz⟩
  obtain ⟨hroot, hsize⟩ := hs
  cases sr with
  | none =>
    refine ⟨⟨trivial, hsize⟩, ?_, ?_⟩
    · intro _
      refine ⟨rfl, rfl, ?_⟩
      intro x hx
      cases hx
    · intro hcon
      simp [set_remove, node_remove] at hcon
  | some t =>
    obtain ⟨h, hw⟩ := hroot
    rcases node_remove_root_spec t v h hw with
      ⟨heq, hno⟩ | ⟨r2, old, heq, ho1, ho2, ho3, ho4⟩
    · have hsr : set_remove ⟨some t, ssz⟩ v = (⟨some t, ssz⟩, false, []) := by
        simp [set_remove, heq]
      rw [hsr]
      refine ⟨⟨⟨h, hw⟩, hsize⟩, ?_, ?_⟩
      · intro _
        exact ⟨rfl, rfl, hno⟩
      · intro hcon
        cases hcon
    · have hsr : set_remove ⟨some t, ssz⟩ v =
          (⟨r2, ssz - 1⟩, true, [old]) := by
        simp [set_remove, heq]
      rw [hsr]
      have hvis : set_visit ⟨r2, ssz - 1⟩ = eraseKeyd v (inorder t) := by
        cases r2 with
        | none => exact ho3
        | some u => exact ho3
      have hlen := eraseKeyd_length_of_mem v (inorder t) ⟨old, ho1, ho2⟩
      refine ⟨⟨ho4, ?_⟩, ?_, ?_⟩
      · show (ssz - 1 : Int) = ((set_visit ⟨r2, ssz - 1⟩).length : Int)
        rw [hvis]
        have hsz : ssz = ((inorder t).length : Int) := hsize
        omega
      · intro hcon
        cases hcon
      · intro _
        exact ⟨old, rfl, ho1, ho2, hvis, rfl⟩

/- ---------- ordered insert-or-replace on the flat contents ---------- -/

/-- Ordered insert-or-replace into the flat contents: the effect of
`set_insert` on the visiting order. -/
def insRep (v : Val) : List Val → List Val
  | [] => [v]
  | w :: ws =>
    if v.key < w.key then v :: w :: ws
    else if v.key = w.key then v :: ws
    else w :: insRep v ws

theorem insRep_cons_lt (v w : Val) (ws : List Val) (h : v.key < w.key) :
    insRep v (w :: ws) = v :: w :: ws := by
  rw [insRep, if_pos h]

theorem insRep_cons_eq (v w : Val) (ws : List Val) (h : v.key = w.key) :
    insRep v (w :: ws) = v :: ws := by
  rw [insRep, if_neg (by omega), if_pos h]

theorem insRep_cons_gt (v w : Val) (ws : List Val) (h : w.key < v.key) :
    insRep v (w :: ws) = w :: insRep v ws := by
  rw [insRep, if_neg (by omega), if_neg (by omega)]

theorem insRep_append_cons (v w : Val) (l1 l2 : List Val)
    (hvw : v.key < w.key) :
    insRep v (l1 ++ w :: l2) = insRep v l1 ++ w :: l2 := by
  induction l1 with
  | nil =>
    rw [List.nil_append, insRep_cons_lt v w l2 hvw]
    rfl
  | cons x l1 ih =>
    rcases lt_trichotomy v.key x.key with hx | hx | hx
    · rw [List.cons_append, insRep_cons_lt v x _ hx, insRep_cons_lt v x _ hx,
        List.cons_append, List.cons_append]
    · rw [List.cons_append, insRep_cons_eq v x _ hx, insRep_cons_eq v x _ hx,
        List.cons_append]
    · rw [List.cons_append, insRep_cons_gt v x _ hx, insRep_cons_gt v x _ hx,
        ih, List.cons_append]

theorem insRep_append_keys_lt (v : Val) (l1 l2 : List Val)
    (hlt : ∀ x ∈ l1, x.key < v.key) :
    insRep v (l1 ++ l2) = l1 ++ insRep v l2 := by
  induction l1 with
  | nil => rw [List.nil_append, List.nil_append]
  | cons x l1 ih =>
    rw [List.cons_append, insRep_cons_gt v x _ (hlt x (by simp)),
      ih fun y hy => hlt y (by simp [hy]), List.cons_append]

theorem insRep_chainB (v : Val) (lo hi : Option Int) (l : List Val)
    (hc : chainB lo hi (l.map Val.key)) (hlo : loOK lo v.key)
    (hhi : hiOK hi v.key) :
    chainB lo hi ((insRep v l).map Val.key) := by
  induction l generalizing lo with
  | nil =>
    exact (chainB_cons lo hi v.key []).mpr ⟨hlo, hhi, chainB_nil _ _⟩
  | cons w ws ih =>
    rw [List.map_cons] at hc
    obtain ⟨hlw, hhw, hcws⟩ := (chainB_cons lo hi w.key _).mp hc
    rcases lt_trichotomy v.key w.key with hx | hx | hx
    · rw [insRep_cons_lt v w ws hx, List.map_cons, List.map_cons]
      refine (chainB_cons _ _ _ _).mpr ⟨hlo, hhi, ?_⟩
      exact (chainB_cons _ _ _ _).mpr ⟨hx, hhw, hcws⟩
    · rw [insRep_cons_eq v w ws hx, List.map_cons]
      refine (chainB_cons _ _ _ _).mpr ⟨hlo, hhi, ?_⟩
      rw [hx]
      exact hcws
    · rw [insRep_cons_gt v w ws hx, List.map_cons]
      exact (chainB_cons _ _ _ _).mpr ⟨hlw, hhw, ih (some w.key) hcws hx⟩

theorem insRep_length_nomatch (v : Val) (l : List Val)
    (hno : ∀ w ∈ l, w.key ≠ v.key) :
    (insRep v l).length = l.length + 1 := by
  induction l with
  | nil => rfl
  | cons w ws ih =>
    rcases lt_trichotomy v.key w.key with hx | hx | hx
    · rw [insRep_cons_lt v w ws hx]
      simp
    · exact absurd hx.symm (hno w (by simp))
    · rw [insRep_cons_gt v w ws hx]
      simp only [List.length_cons, ih fun y hy => hno y (by simp [hy])]

theorem insRep_length_match (v : Val) (lo hi : Option Int) (l : List Val)
    (hc : chainB lo hi (l.map Val.key)) (hm : ∃ w ∈ l, w.key = v.key) :
    (insRep v l).length = l.length := by
  induction l generalizing lo with
  | nil =>
    obtain ⟨w, hw, _⟩ := hm
    cases hw
  | cons w ws ih =>
    rw [List.map_cons] at hc
    obtain ⟨hlw, hhw, hcws⟩ := (chainB_cons lo hi w.key _).mp hc
    rcases lt_trichotomy v.key w.key with hx | hx | hx
    · exfalso
      obtain ⟨w2, hw2, hk2⟩ := hm
      rcases List.mem_cons.mp hw2 with he | he
      · rw [he] at hk2
        omega
      · have h5 : w.key < w2.key := (chainB_mem _ _ _ hcws w2.key
          (List.mem_map_of_mem Val.key he)).1
        omega
    · rw [insRep_cons_eq v w ws hx]
      simp
    · rw [insRep_cons_gt v w ws hx, List.length_cons, List.length_cons]
      obtain ⟨w2, hw2, hk2⟩ := hm
      rcases List.mem_cons.mp hw2 with he | he
      · rw [he] at hk2
        omega
      · rw [ih (some w.key) hcws ⟨w2, he, hk2⟩]

theorem find_slot_inl_set (v : Val) (vs : List Val) (lo hi : Option Int)
    (hch : chainB lo hi (vs.map Val.key)) (i : Nat)
    (h : find_slot v vs = .inl i) : vs.set i v = insRep v vs := by
  induction vs generalizing lo i with
  | nil =>
    rw [find_slot] at h
    cases h
  | cons w ws ih =>
    rw [List.map_cons] at hch
    obtain ⟨hlw, hhw, hcws⟩ := (chainB_cons lo hi w.key _).mp hch
    rw [find_slot] at h
    by_cases hc0 : cmpv v w = 0
    · rw [if_pos hc0] at h
      injection h with h2
      rw [← h2, List.set_cons_zero,
        insRep_cons_eq v w ws ((cmpv_eq_zero_iff v w).mp hc0)]
    · rw [if_neg hc0] at h
      by_cases hcn : cmpv v w < 0
      · rw [if_pos hcn] at h
        cases h
      · rw [if_neg hcn] at h
        have hpos : 0 < cmpv v w := by omega
        have hgt : w.key < v.key := (cmpv_pos_iff v w).mp hpos
        cases hfs : find_slot v ws with
        | inr j =>
          rw [hfs] at h
          cases h
        | inl j =>
          rw [hfs] at h
          injection h with h2
          rw [← h2, List.set_cons_succ, insRep_cons_gt v w ws hgt,
            ih (some w.key) hcws j hfs]

theorem leaf_pos_insertIdx (v : Val) (vs : List Val)
    (hno : ∀ w ∈ vs, w.key ≠ v.key) :
    vs.insertIdx (leaf_pos v vs) v = insRep v vs := by
  induction vs with
  | nil => rfl
  | cons w ws ih =>
    rw [leaf_pos]
    by_cases hgt : cmpv v w > 0
    · rw [if_pos hgt]
      have hk : w.key < v.key := (cmpv_pos_iff v w).mp hgt
      rw [List.insertIdx_succ_cons, insRep_cons_gt v w ws hk,
        ih fun y hy => hno y (by simp [hy])]
    · rw [if_neg hgt]
      have hne : w.key ≠ v.key := hno w (by simp)
      have hnp : ¬ w.key < v.key := fun hc => hgt ((cmpv_pos_iff v w).mpr hc)
      have hk : v.key < w.key := by omega
      rw [List.insertIdx_zero, insRep_cons_lt v w ws hk]

theorem set_map_key_eq (vs : List Val) (i : Nat) (v : Val)
    (hk : (vs.getD i dummy).key = v.key) :
    (vs.set i v).map Val.key = vs.map Val.key := by
  induction vs generalizing i with
  | nil => rfl
  | cons w ws ih =>
    cases i with
    | zero =>
      rw [List.set_cons_zero, List.map_cons, List.map_cons]
      simp only [List.getD_cons_zero] at hk
      rw [hk]
    | succ j =>
      rw [List.set_cons_succ, List.map_cons, List.map_cons]
      simp only [List.getD_cons_succ] at hk
      rw [ih j hk]

/-- `split` (ADTSet.c:330-375) on a node overflowing by one (5 values): the
left node and the fresh right sibling each keep `count/2 = 2` values; the
promoted median is exactly `vals[count/2] = vals[2]`; the two halves are
well-formed around the median and the contents are preserved in order. -/
theorem split_spec (lo hi : Option Int) (h : Nat) (t : BTreeNode)
    (hw : wfT 1 (MAX_VALUES + 1) lo hi h t) (hc : t.count = MAX_VALUES + 1) :
    inorder (split t).1 ++ (split t).2.1 :: inorder (split t).2.2 =
      inorder t ∧
    wfT MIN_VALUES MAX_VALUES lo (some (split t).2.1.key) h (split t).1 ∧
    wfT MIN_VALUES MAX_VALUES (some (split t).2.1.key) hi h (split t).2.2 ∧
    loOK lo (split t).2.1.key ∧ hiOK hi (split t).2.1.key ∧
    (split t).1.count = (MAX_VALUES + 1) / 2 ∧
    (split t).2.2.count = (MAX_VALUES + 1) / 2 ∧
    (split t).2.1 = t.vals.getD ((MAX_VALUES + 1) / 2) dummy := by
  cases t with
  | node vals cs =>
    have hlen : vals.length = 5 := by
      simpa [BTreeNode.count, BTreeNode.vals, MAX_VALUES, MAX_CHILDREN]
        using hc
    cases vals with
    | nil => simp at hlen
    | cons v0 t0 =>
    cases t0 with
    | nil => simp at hlen
    | cons v1 t1 =>
    cases t1 with
    | nil => simp at hlen
    | cons v2 t2 =>
    cases t2 with
    | nil => simp at hlen
    | cons v3 t3 =>
    cases t3 with
    | nil => simp at hlen
    | cons v4 t4 =>
    cases t4 with
    | cons v5 t5 => simp at hlen
    | nil =>
    cases cs with
    | nil =>
      have hsp : split (.node [v0, v1, v2, v3, v4] ([] : List BTreeNode)) =
          (.node [v0, v1] [], v2, .node [v3, v4] []) := by norm_num [split]
      rw [hsp]
      obtain ⟨h1, h2, hh1, hch⟩ := hw
      simp only [List.map_cons, List.map_nil] at hch
      obtain ⟨hl0, hh0, hch⟩ := (chainB_cons _ _ _ _).mp hch
      obtain ⟨hl1, hh1x, hch⟩ := (chainB_cons _ _ _ _).mp hch
      obtain ⟨hl2, hh2x, hch⟩ := (chainB_cons _ _ _ _).mp hch
      obtain ⟨hl3, hh3x, hch⟩ := (chainB_cons _ _ _ _).mp hch
      obtain ⟨hl4, hh4x, _⟩ := (chainB_cons _ _ _ _).mp hch
      refine ⟨rfl, ⟨by simp [MIN_VALUES, MIN_CHILDREN], by simp [MAX_VALUES, MAX_CHILDREN],
          hh1, ?_⟩,
        ⟨by simp [MIN_VALUES, MIN_CHILDREN], by simp [MAX_VALUES, MAX_CHILDREN],
          hh1, ?_⟩, ?_, hh2x,
        by norm_num [MAX_VALUES, MAX_CHILDREN, BTreeNode.count, BTreeNode.vals],
        by norm_num [MAX_VALUES, MAX_CHILDREN, BTreeNode.count, BTreeNode.vals],
        by norm_num [MAX_VALUES, MAX_CHILDREN, BTreeNode.vals]⟩
      · refine (chainB_cons _ _ _ _).mpr ⟨hl0, ?_, ?_⟩
        · show v0.key < v2.key
          have hx1 : v0.key < v1.key := hl1
          have hx2 : v1.key < v2.key := hl2
          omega
        · exact (chainB_cons _ _ _ _).mpr ⟨hl1, hl2, chainB_nil _ _⟩
      · refine (chainB_cons _ _ _ _).mpr ⟨hl3, hh3x, ?_⟩
        exact (chainB_cons _ _ _ _).mpr ⟨hl4, hh4x, chainB_nil _ _⟩
      · refine loOK_of_lt lo v0.key v2.key hl0 ?_
        have hx1 : v0.key < v1.key := hl1
        have hx2 : v1.key < v2.key := hl2
        omega
    | cons c0 cs2 =>
      obtain ⟨h1, h2, h3⟩ := hw
      cases h with
      | zero => exact h3.elim
      | succ h2n =>
      obtain ⟨hc0, hseq⟩ := h3
      cases cs2 with
      | nil => exact hseq.elim
      | cons c1 cs3 =>
      obtain ⟨hl0, hh0, hwc1, hseq⟩ := hseq
      cases cs3 with
      | nil => exact hseq.elim
      | cons c2 cs4 =>
      obtain ⟨hl1, hh1x, hwc2, hseq⟩ := hseq
      cases cs4 with
      | nil => exact hseq.elim
      | cons c3 cs5 =>
      obtain ⟨hl2, hh2x, hwc3, hseq3⟩ := hseq
      cases cs5 with
      | nil => exact hseq3.elim
      | cons c4 cs6 =>
      have hseq3' := hseq3
      obtain ⟨hl3, hh3x, hwc4, hseq⟩ := hseq3
      cases cs6 with
      | nil => exact hseq.elim
      | cons c5 cs7 =>
      obtain ⟨hl4, hh4x, hwc5, hseq⟩ := hseq
      cases cs7 with
      | cons c6 cs8 => exact hseq.elim
      | nil =>
      have hsp : split (.node [v0, v1, v2, v3, v4]
          [c0, c1, c2, c3, c4, c5]) =
          (.node [v0, v1] [c0, c1, c2], v2, .node [v3, v4] [c3, c4, c5]) :=
        by norm_num [split]
      rw [hsp]
      refine ⟨?_, ⟨by simp [MIN_VALUES, MIN_CHILDREN], by simp [MAX_VALUES, MAX_CHILDREN],
          hc0, ?_⟩,
        ⟨by simp [MIN_VALUES, MIN_CHILDREN], by simp [MAX_VALUES, MAX_CHILDREN],
          hwc3, hseq3'⟩, ?_, hh2x,
        by norm_num [MAX_VALUES, MAX_CHILDREN, BTreeNode.count, BTreeNode.vals],
        by norm_num [MAX_VALUES, MAX_CHILDREN, BTreeNode.count, BTreeNode.vals],
        by norm_num [MAX_VALUES, MAX_CHILDREN, BTreeNode.vals]⟩
      · simp [List.append_assoc]
      · refine ⟨hl0, ?_, hwc1, hl1, hl2, hwc2, trivial⟩
        show v0.key < v2.key
        have hx1 : v0.key < v1.key := hl1
        have hx2 : v1.key < v2.key := hl2
        omega
      · refine loOK_of_lt lo v0.key v2.key hl0 ?_
        have hx1 : v0.key < v1.key := hl1
        have hx2 : v1.key < v2.key := hl2
        omega

theorem wfT_lower_max (minv maxv maxv2 : Nat) (lo hi : Option Int) (h : Nat)
    (t : BTreeNode) (hw : wfT minv maxv lo hi h t)
    (h1 : t.count ≤ maxv2) : wfT minv maxv2 lo hi h t := by
  cases t with
  | node vs cs =>
    cases cs with
    | nil => exact ⟨hw.1, h1, hw.2.2⟩
    | cons c0 cs => exact ⟨hw.1, h1, hw.2.2⟩

/-- The overflow repair a parent performs on the child a `node_insert`
descent returned (ADTSet.c:319-320 with the parent half of `split`,
ADTSet.c:363-373): a child back above `MAX_VALUES` is split and the median
and new right sibling spliced in at the descent position; otherwise nothing
happens.  Contents are preserved, the window invariant is restored, the
window grows by at most one value, and the replaced-value report passes
through. -/
theorem fixup_spec (lo hi : Option Int) (h : Nat) (r : BTreeNode × Option Val)
    (vals : List Val) (children : List BTreeNode)
    (hr : wfT MIN_VALUES (MAX_VALUES + 1) lo (headKey vals hi) h r.1)
    (hs : wfSeq lo hi h vals children) :
    inorder (fixup r vals children).1 ++
        inorderW (fixup r vals children).2.1 (fixup r vals children).2.2.1 =
      inorder r.1 ++ inorderW vals children ∧
    wfT MIN_VALUES MAX_VALUES lo (headKey (fixup r vals children).2.1 hi) h
      (fixup r vals children).1 ∧
    wfSeq lo hi h (fixup r vals children).2.1 (fixup r vals children).2.2.1 ∧
    vals.length ≤ (fixup r vals children).2.1.length ∧
    (fixup r vals children).2.1.length ≤ vals.length + 1 ∧
    (fixup r vals children).2.2.2 = r.2 ∧
    (r.1.count ≤ MAX_VALUES → (fixup r vals children).2.1 = vals) := by
  by_cases hov : r.1.count > MAX_VALUES
  · have hc5 : r.1.count = MAX_VALUES + 1 := by
      have := (wfT_count_le _ _ _ _ _ _ hr).2
      omega
    obtain ⟨sco, swl, swr, slo, shi, sc1, sc2, smed⟩ :=
      split_spec lo (headKey vals hi) h r.1
        (wfT_mono_top MIN_VALUES (MAX_VALUES + 1) 1 (MAX_VALUES + 1) lo
          (headKey vals hi) h r.1 hr (by decide) le_rfl) hc5
    have heq : fixup r vals children =
        ((split r.1).1, (split r.1).2.1 :: vals,
          (split r.1).2.2 :: children, r.2) := by
      simp [fixup, hov]
    rw [heq]
    have hhim : hiOK hi (split r.1).2.1.key := by
      cases vals with
      | nil => exact shi
      | cons w ws =>
        cases children with
        | nil => exact hs.elim
        | cons c cs =>
          exact hiOK_of_lt hi (split r.1).2.1.key w.key hs.2.1 shi
    refine ⟨?_, swl, ?_, by simp, by simp, rfl,
      fun hle => absurd hov (not_lt.mpr hle)⟩
    · simp only [inorderW_cons_cons]
      rw [← sco]
      simp [List.append_assoc]
    · refine ⟨slo, hhim, swr, ?_⟩
      refine wfSeq_set_lo lo (some (split r.1).2.1.key) hi h vals children hs
        ?_
      intro w3 ws3 hv
      rw [hv] at shi
      exact shi
  · have heq : fixup r vals children = (r.1, vals, children, r.2) := by
      simp [fixup, hov]
    rw [heq]
    refine ⟨rfl, ?_, hs, le_rfl, Nat.le_succ _, rfl, fun _ => rfl⟩
    exact wfT_lower_max MIN_VALUES (MAX_VALUES + 1) MAX_VALUES lo
      (headKey vals hi) h r.1 hr (by omega)

theorem leaf_pos_le (v : Val) (vs : List Val) : leaf_pos v vs ≤ vs.length := by
  induction vs with
  | nil => exact le_rfl
  | cons w ws ih =>
    rw [leaf_pos]
    by_cases hgt : cmpv v w > 0
    · rw [if_pos hgt]
      simpa using ih
    · rw [if_neg hgt]
      simp

mutual
/-- `node_insert` descent (ADTSet.c:293-325) below the root: the contents
become the ordered insert-or-replace of the new value; when no equal value
existed the insertion is genuine (the subtree root may be left one value
over `MAX_VALUES` for the caller to split) and the count grows by at most
one; when an equal value existed it is replaced in place, reported back, and
nothing else changes shape. -/
theorem node_insert_go_spec (minv : Nat) (lo hi : Option Int) (h : Nat)
    (v : Val) (t : BTreeNode)
    (hw : wfT minv MAX_VALUES lo hi h t)
    (hlo : loOK lo v.key) (hhi : hiOK hi v.key) :
    inorder (node_insert_go v t).1 = insRep v (inorder t) ∧
    ((node_insert_go v t).2 = none →
      (∀ x ∈ inorder t, x.key ≠ v.key) ∧
      wfT minv (MAX_VALUES + 1) lo hi h (node_insert_go v t).1 ∧
      t.count ≤ (node_insert_go v t).1.count ∧
      (node_insert_go v t).1.count ≤ t.count + 1) ∧
    (∀ old, (node_insert_go v t).2 = some old →
      old ∈ inorder t ∧ old.key = v.key ∧
      wfT minv MAX_VALUES lo hi h (node_insert_go v t).1 ∧
      (node_insert_go v t).1.count = t.count) := by
  cases t with
  | node vs cs =>
    cases cs with
    | nil =>
      obtain ⟨h1, h2, hh1, hch⟩ := hw
      cases hfs : find_slot v vs with
      | inl i =>
        have heq : node_insert_go v (.node vs []) =
            (.node (vs.set i v) [], some (vs.getD i dummy)) := by
          rw [node_insert_go, hfs]
        rw [heq]
        obtain ⟨hi1, hi2, hi3, hi4⟩ := find_slot_inl_spec v vs i hfs
        have hset := find_slot_inl_set v vs lo hi hch i hfs
        refine ⟨?_, ?_, ?_⟩
        · rw [inorder_leaf, inorder_leaf, hset]
        · intro hcon
          cases hcon
        · intro old hold
          have ho : old = vs.getD i dummy := by
            cases hold
            rfl
          subst ho
          refine ⟨by simpa using hi4, hi2, ⟨?_, ?_, hh1, ?_⟩, ?_⟩
          · simpa using h1
          · simpa using h2
          · rw [set_map_key_eq vs i v hi2]
            exact hch
          · simp [BTreeNode.count, BTreeNode.vals]
      | inr i =>
        have heq : node_insert_go v (.node vs []) =
            (.node (vs.insertIdx (leaf_pos v vs) v) [], none) := by
          rw [node_insert_go, hfs]
        rw [heq]
        have hno := find_slot_inr_nokey v vs lo hi hch i hfs
        have hins := leaf_pos_insertIdx v vs hno
        have hlen : (vs.insertIdx (leaf_pos v vs) v).length =
            vs.length + 1 :=
          List.length_insertIdx (leaf_pos v vs) vs (leaf_pos_le v vs)
        refine ⟨?_, ?_, ?_⟩
        · rw [inorder_leaf, inorder_leaf, hins]
        · intro _
          refine ⟨by rw [inorder_leaf]; exact hno, ⟨?_, ?_, hh1, ?_⟩, ?_, ?_⟩
          · show minv ≤ (vs.insertIdx (leaf_pos v vs) v).length
            omega
          · show (vs.insertIdx (leaf_pos v vs) v).length ≤ MAX_VALUES + 1
            omega
          · rw [show (List.insertIdx (leaf_pos v vs) v vs).map Val.key =
              (insRep v vs).map Val.key from by rw [hins]]
            exact insRep_chainB v lo hi vs hch hlo hhi
          · simp only [BTreeNode.count, BTreeNode.vals]
            omega
          · simp only [BTreeNode.count, BTreeNode.vals]
            omega
        · intro old hcon
          cases hcon
    | cons c0 cs2 =>
      obtain ⟨h1, h2, h3⟩ := hw
      cases h with
      | zero => exact h3.elim
      | succ h2n =>
      obtain ⟨hc0, hseq⟩ := h3
      obtain ⟨ico, inone, isome⟩ := insWalk_spec lo hi h2n v c0 vs cs2 hc0
        hseq hlo hhi
      rcases hR : insWalk v c0 vs cs2 with ⟨rh, rvs, rcs, rep⟩
      rw [hR] at ico inone isome
      simp only [quad_1, quad_21, quad_221, quad_222] at ico inone isome
      have heq : node_insert_go v (.node vs (c0 :: cs2)) =
          (.node rvs (rh :: rcs), rep) := by
        rw [node_insert_go, hR]
      rw [heq]
      refine ⟨?_, ?_, ?_⟩
      · rw [inorder_internal, inorder_internal]
        exact ico
      · intro hrep
        obtain ⟨hnk, hwf, hsq, hl1, hl2⟩ := inone hrep
        refine ⟨by rw [inorder_internal]; exact hnk, ⟨?_, ?_, hwf, hsq⟩,
          ?_, ?_⟩
        · show minv ≤ rvs.length
          omega
        · show rvs.length ≤ MAX_VALUES + 1
          omega
        · simp only [BTreeNode.count, BTreeNode.vals]
          omega
        · simp only [BTreeNode.count, BTreeNode.vals]
          omega
      · intro old hold
        obtain ⟨ho1, ho2, hwf, hsq, hl⟩ := isome old hold
        refine ⟨by rw [inorder_internal]; exact ho1, ho2, ⟨?_, ?_, hwf, hsq⟩,
          ?_⟩
        · show minv ≤ rvs.length
          omega
        · show rvs.length ≤ MAX_VALUES
          omega
        · simp only [BTreeNode.count, BTreeNode.vals]
          omega
termination_by (sizeOf t, 0)

/-- The `node_find` scan of `node_insert` along an internal node: same
contract as `node_insert_go_spec`, phrased on the remaining window; the
returned head child has been repaired by `fixup`, so the window grows by at
most one value (exactly none on a replacement). -/
theorem insWalk_spec (lo hi : Option Int) (h : Nat) (v : Val) (p : BTreeNode)
    (vs : List Val) (cs : List BTreeNode)
    (hp : wfT MIN_VALUES MAX_VALUES lo (headKey vs hi) h p)
    (hs : wfSeq lo hi h vs cs)
    (hlo : loOK lo v.key) (hhi : hiOK hi v.key) :
    inorder (insWalk v p vs cs).1 ++
        inorderW (insWalk v p vs cs).2.1 (insWalk v p vs cs).2.2.1 =
      insRep v (inorder p ++ inorderW vs cs) ∧
    ((insWalk v p vs cs).2.2.2 = none →
      (∀ x ∈ inorder p ++ inorderW vs cs, x.key ≠ v.key) ∧
      wfT MIN_VALUES MAX_VALUES lo (headKey (insWalk v p vs cs).2.1 hi) h
        (insWalk v p vs cs).1 ∧
      wfSeq lo hi h (insWalk v p vs cs).2.1 (insWalk v p vs cs).2.2.1 ∧
      vs.length ≤ (insWalk v p vs cs).2.1.length ∧
      (insWalk v p vs cs).2.1.length ≤ vs.length + 1) ∧
    (∀ old, (insWalk v p vs cs).2.2.2 = some old →
      old ∈ inorder p ++ inorderW vs cs ∧ old.key = v.key ∧
      wfT MIN_VALUES MAX_VALUES lo (headKey (insWalk v p vs cs).2.1 hi) h
        (insWalk v p vs cs).1 ∧
      wfSeq lo hi h (insWalk v p vs cs).2.1 (insWalk v p vs cs).2.2.1 ∧
      (insWalk v p vs cs).2.1.length = vs.length) := by
  cases vs with
  | nil =>
    cases cs with
    | cons c9 cs9 => exact ⟨hs.elim, fun _ => hs.elim, fun _ _ => hs.elim⟩
    | nil =>
      obtain ⟨gco, gnone, gsome⟩ := node_insert_go_spec MIN_VALUES lo hi h v
        p hp hlo hhi
      have hrw : wfT MIN_VALUES (MAX_VALUES + 1) lo (headKey ([] : List Val)
          hi) h (node_insert_go v p).1 := by
        cases hgr : (node_insert_go v p).2 with
        | none => exact (gnone hgr).2.1
        | some o =>
          exact wfT_mono_top MIN_VALUES MAX_VALUES MIN_VALUES
            (MAX_VALUES + 1) lo hi h _ (gsome o hgr).2.2.1 le_rfl
            (by omega)
      obtain ⟨fco, fwf, fsq, fl1, fl2, frep, fpass⟩ :=
        fixup_spec lo hi h (node_insert_go v p) [] [] hrw trivial
      have heq : insWalk v p [] [] = fixup (node_insert_go v p) [] [] := by
        rw [insWalk]
      rw [heq]
      refine ⟨?_, ?_, ?_⟩
      · rw [fco, inorderW_nil_vals, List.append_nil, List.append_nil, gco]
      · intro hrep
        rw [frep] at hrep
        obtain ⟨hnk, _, _, _⟩ := gnone hrep
        refine ⟨?_, fwf, fsq, by omega, ?_⟩
        · intro x hx
          rw [inorderW_nil_vals, List.append_nil] at hx
          exact hnk x hx
        · simpa using fl2
      · intro old hold
        rw [frep] at hold
        obtain ⟨ho1, ho2, hwfo, hco⟩ := gsome old hold
        have hpass := fpass (by
          have := (wfT_count_le _ _ _ _ _ _ hwfo).2
          omega)
        refine ⟨?_, ho2, fwf, fsq, ?_⟩
        · rw [inorderW_nil_vals, List.append_nil]
          exact ho1
        · rw [hpass]
  | cons w ws =>
    cases cs with
    | nil => exact ⟨hs.elim, fun _ => hs.elim, fun _ _ => hs.elim⟩
    | cons c cs2 =>
      obtain ⟨hlow, hhiw, hc, hseq2⟩ := hs
      by_cases hcr0 : cmpv v w = 0
      · have hkey : v.key = w.key := (cmpv_eq_zero_iff v w).mp hcr0
        have heq : insWalk v p (w :: ws) (c :: cs2) =
            (p, v :: ws, c :: cs2, some w) := by
          simp only [insWalk]
          rw [if_pos hcr0]
        rw [heq]
        have hplt : ∀ x ∈ inorder p, x.key < v.key := by
          intro x hx
          have := inorder_keys_lt MIN_VALUES MAX_VALUES lo w.key h p hp x hx
          omega
        refine ⟨?_, ?_, ?_⟩
        · rw [inorderW_cons_cons, inorderW_cons_cons,
            insRep_append_keys_lt v _ _ hplt, insRep_cons_eq v w _ hkey]
        · intro hcon
          cases hcon
        · intro old hold
          have ho : old = w := by
            cases hold
            rfl
          subst ho
          refine ⟨by simp, hkey.symm, ?_, ?_, rfl⟩
          · show wfT MIN_VALUES MAX_VALUES lo (some v.key) h p
            rw [hkey]
            exact hp
          · refine ⟨hlo, hhi, ?_, ?_⟩
            · show wfT MIN_VALUES MAX_VALUES (some v.key) (headKey ws hi) h c
              rw [hkey]
              exact hc
            · show wfSeq (some v.key) hi h ws cs2
              rw [hkey]
              exact hseq2
      · by_cases hcrneg : cmpv v w < 0
        · have hkeylt : v.key < w.key := (cmpv_neg_iff v w).mp hcrneg
          have heq : insWalk v p (w :: ws) (c :: cs2) =
              fixup (node_insert_go v p) (w :: ws) (c :: cs2) := by
            simp only [insWalk]
            rw [if_neg hcr0, if_pos hcrneg]
          rw [heq]
          obtain ⟨gco, gnone, gsome⟩ := node_insert_go_spec MIN_VALUES lo
            (some w.key) h v p hp hlo hkeylt
          have hrw : wfT MIN_VALUES (MAX_VALUES + 1) lo
              (headKey (w :: ws) hi) h (node_insert_go v p).1 := by
            cases hgr : (node_insert_go v p).2 with
            | none => exact (gnone hgr).2.1
            | some o =>
              exact wfT_mono_top MIN_VALUES MAX_VALUES MIN_VALUES
                (MAX_VALUES + 1) lo (some w.key) h _ (gsome o hgr).2.2.1
                le_rfl (by omega)
          obtain ⟨fco, fwf, fsq, fl1, fl2, frep, fpass⟩ :=
            fixup_spec lo hi h (node_insert_go v p) (w :: ws) (c :: cs2) hrw
              ⟨hlow, hhiw, hc, hseq2⟩
          refine ⟨?_, ?_, ?_⟩
          · rw [fco, inorderW_cons_cons, insRep_append_cons v w _ _ hkeylt,
              gco]
          · intro hrep
            rw [frep] at hrep
            obtain ⟨hnk, _, _, _⟩ := gnone hrep
            refine ⟨?_, fwf, fsq, fl1, fl2⟩
            intro x hx
            rcases List.mem_append.mp hx with hx1 | hx1
            · exact hnk x hx1
            · rw [inorderW_cons_cons] at hx1
              rcases List.mem_cons.mp hx1 with hx2 | hx2
              · rw [hx2]
                omega
              · rcases List.mem_append.mp hx2 with hx3 | hx3
                · have := inorder_keys_gt MIN_VALUES MAX_VALUES w.key
                    (headKey ws hi) h c hc x hx3
                  omega
                · have := inorderW_keys_gt w.key hi h ws cs2 hseq2 x hx3
                  omega
          · intro old hold
            rw [frep] at hold
            obtain ⟨ho1, ho2, hwfo, hco⟩ := gsome old hold
            have hpass := fpass (by
              have := (wfT_count_le _ _ _ _ _ _ hwfo).2
              omega)
            refine ⟨List.mem_append_left _ ho1, ho2, fwf, fsq, ?_⟩
            rw [hpass]
        · have hpos : 0 < cmpv v w := by omega
          have hkeygt : w.key < v.key := (cmpv_pos_iff v w).mp hpos
          obtain ⟨ico, inone, isome⟩ := insWalk_spec (some w.key) hi h v c ws
            cs2 hc hseq2 hkeygt hhi
          rcases hR : insWalk v c ws cs2 with ⟨rh, rvs, rcs, rep⟩
          rw [hR] at ico inone isome
          simp only [quad_1, quad_21, quad_221, quad_222]
            at ico inone isome
          have heq : insWalk v p (w :: ws) (c :: cs2) =
              (p, w :: rvs, rh :: rcs, rep) := by
            simp only [insWalk]
            rw [if_neg hcr0, if_neg hcrneg, hR]
          rw [heq]
          have hplt : ∀ x ∈ inorder p, x.key < v.key := by
            intro x hx
            have := inorder_keys_lt MIN_VALUES MAX_VALUES lo w.key h p hp x
              hx
            omega
          refine ⟨?_, ?_, ?_⟩
          · rw [inorderW_cons_cons, inorderW_cons_cons,
              insRep_append_keys_lt v _ _ hplt, insRep_cons_gt v w _ hkeygt,
              ico]
          · intro hrep
            obtain ⟨hnk, hwf, hsq, hl1, hl2⟩ := inone hrep
            refine ⟨?_, hp, ⟨hlow, hhiw, hwf, hsq⟩, ?_, ?_⟩
            · intro x hx
              rcases List.mem_append.mp hx with hx1 | hx1
              · exact fun hk => absurd hk (by have := hplt x hx1; omega)
              · rw [inorderW_cons_cons] at hx1
                rcases List.mem_cons.mp hx1 with hx2 | hx2
                · rw [hx2]
                  omega
                · exact hnk x hx2
            · simp only [List.length_cons]
              omega
            · simp only [List.length_cons]
              omega
          · intro old hold
            obtain ⟨ho1, ho2, hwf, hsq, hl⟩ := isome old hold
            refine ⟨?_, ho2, hp, ⟨hlow, hhiw, hwf, hsq⟩, ?_⟩
            · simp only [inorderW_cons_cons]
              exact List.mem_append_right _ (List.mem_cons_of_mem w ho1)
            · simp only [List.length_cons]
              omega
termination_by (sizeOf p + sizeOf cs, vs.length + 1)
end

/-- `node_insert` (ADTSet.c:293-325) at a well-formed root: contents become
the ordered insert-or-replace; the root stays well formed (a root overflow
creates a new root holding just the promoted median, ADTSet.c:354-361); the
`inserted` flag is true exactly when no equal value existed, and otherwise
the replaced value is reported. -/
theorem node_insert_root_spec (t : BTreeNode) (v : Val) (h : Nat)
    (hw : wfT 1 MAX_VALUES none none h t) :
    inorder (node_insert (some t) v).1 = insRep v (inorder t) ∧
    (∃ h2, wfT 1 MAX_VALUES none none h2 (node_insert (some t) v).1) ∧
    ((node_insert (some t) v).2.1 = true →
      (node_insert (some t) v).2.2 = none ∧
      ∀ x ∈ inorder t, x.key ≠ v.key) ∧
    ((node_insert (some t) v).2.1 = false →
      ∃ old, (node_insert (some t) v).2.2 = some old ∧ old ∈ inorder t ∧
        old.key = v.key) := by
  obtain ⟨gco, gnone, gsome⟩ := node_insert_go_spec 1 none none h v t hw
    trivial trivial
  cases hgr : (node_insert_go v t).2 with
  | some o =>
    obtain ⟨ho1, ho2, hwfo, _⟩ := gsome o hgr
    have heq : node_insert (some t) v = ((node_insert_go v t).1, false,
        some o) := by
      simp [node_insert, hgr]
    rw [heq]
    refine ⟨gco, ⟨h, hwfo⟩, ?_, ?_⟩
    · intro hcon
      cases hcon
    · intro _
      exact ⟨o, rfl, ho1, ho2⟩
  | none =>
    obtain ⟨hnk, hwfo, hc1, hc2⟩ := gnone hgr
    by_cases hov : (node_insert_go v t).1.count > MAX_VALUES
    · have hc5 : (node_insert_go v t).1.count = MAX_VALUES + 1 := by
        have := (wfT_count_le _ _ _ _ _ _ hwfo).2
        omega
      obtain ⟨sco, swl, swr, slo, shi, sc1, sc2, smed⟩ :=
        split_spec none none h (node_insert_go v t).1 hwfo hc5
      have heq : node_insert (some t) v =
          (.node [(split (node_insert_go v t).1).2.1]
            [(split (node_insert_go v t).1).1,
             (split (node_insert_go v t).1).2.2], true, none) := by
        simp [node_insert, hgr, hov]
      rw [heq]
      refine ⟨?_, ⟨h + 1, ?_⟩, ?_, ?_⟩
      · rw [inorder_internal, inorderW_cons_cons, inorderW_nil_vals,
          List.append_nil, ← gco]
        exact sco
      · exact ⟨by simp, by simp [MAX_VALUES, MAX_CHILDREN], swl,
          trivial, trivial, swr, trivial⟩
      · intro _
        exact ⟨rfl, hnk⟩
      · intro hcon
        cases hcon
    · have heq : node_insert (some t) v = ((node_insert_go v t).1, true,
          none) := by
        simp [node_insert, hgr, hov]
      rw [heq]
      have hle : (node_insert_go v t).1.count ≤ MAX_VALUES := by omega
      refine ⟨gco, ⟨h, wfT_lower_max 1 (MAX_VALUES + 1) MAX_VALUES none none
        h _ hwfo hle⟩, ?_, ?_⟩
      · intro _
        exact ⟨rfl, hnk⟩
      · intro hcon
        cases hcon

/-- `set_insert` (ADTSet.c:616-627) on an invariant-satisfying state: the
invariant is preserved and the contents become the ordered
insert-or-replace of the new value (the new pointer is the one stored).
When no equal value existed, nothing is handed to the destructor and the
size grows by one; when one existed, exactly the displaced stored value is
handed to the destructor and the size is unchanged. -/
theorem set_insert_spec (s : SetState) (v : Val) (hs : SInv s) :
    SInv (set_insert s v).1 ∧
    set_visit (set_insert s v).1 = insRep v (set_visit s) ∧
    ((∀ x ∈ set_visit s, x.key ≠ v.key) →
      (set_insert s v).2 = [] ∧ (set_insert s v).1.size = s.size + 1) ∧
    ((∃ x ∈ set_visit s, x.key = v.key) →
      ∃ old, (set_insert s v).2 = [old] ∧ old ∈ set_visit s ∧
        old.key = v.key ∧ (set_insert s v).1.size = s.size) := by
  rcases s with ⟨sr, ssz⟩
  obtain ⟨hroot, hsize⟩ := hs
  cases sr with
  | none =>
    have heq : set_insert ⟨none, ssz⟩ v =
        (⟨some (.node [v] []), ssz + 1⟩, []) := by
      simp [set_insert, node_insert]
    rw [heq]
    have hsz : ssz = 0 := hsize
    refine ⟨⟨⟨1, ?_, ?_, rfl, ?_⟩, ?_⟩, rfl, ?_, ?_⟩
    · simp
    · simp [MAX_VALUES, MAX_CHILDREN]
    · exact (chainB_cons _ _ _ _).mpr ⟨trivial, trivial, chainB_nil _ _⟩
    · show ssz + 1 = ((1 : Nat) : Int)
      omega
    · intro _
      exact ⟨rfl, rfl⟩
    · intro ⟨x, hx, _⟩
      cases hx
  | some t =>
    obtain ⟨h, hw⟩ := hroot
    obtain ⟨rco, ⟨h2, rwf⟩, rtrue, rfalse⟩ := node_insert_root_spec t v h hw
    have hch := wfT_chain 1 MAX_VALUES none none h t hw
    cases hfl : (node_insert (some t) v).2.1 with
    | true =>
      obtain ⟨_, hnk⟩ := rtrue hfl
      have heq : set_insert ⟨some t, ssz⟩ v =
          (⟨some (node_insert (some t) v).1, ssz + 1⟩, []) := by
        simp [set_insert, hfl]
      rw [heq]
      have hlen := insRep_length_nomatch v (inorder t) hnk
      refine ⟨⟨⟨h2, rwf⟩, ?_⟩, rco, ?_, ?_⟩
      · show ssz + 1 = ((inorder (node_insert (some t) v).1).length : Int)
        rw [rco]
        have hsz : ssz = ((inorder t).length : Int) := hsize
        omega
      · intro _
        exact ⟨rfl, rfl⟩
      · intro hex
        obtain ⟨x, hx, hk⟩ := hex
        exact absurd hk (hnk x hx)
    | false =>
      obtain ⟨old, hsome, homem, hokey⟩ := rfalse hfl
      have heq : set_insert ⟨some t, ssz⟩ v =
          (⟨some (node_insert (some t) v).1, ssz⟩, [old]) := by
        simp [set_insert, hfl, hsome]
      rw [heq]
      have hlen := insRep_length_match v none none (inorder t) hch
        ⟨old, homem, hokey⟩
      refine ⟨⟨⟨h2, rwf⟩, ?_⟩, rco, ?_, ?_⟩
      · show ssz = ((inorder (node_insert (some t) v).1).length : Int)
        rw [rco]
        have hsz : ssz = ((inorder t).length : Int) := hsize
        omega
      · intro hnk
        exact absurd hokey (hnk old homem)
      · intro _
        exact ⟨old, rfl, homem, hokey, rfl⟩

theorem SInv_create : SInv set_create := ⟨trivial, rfl⟩

theorem SInv_applyOp (s : SetState) (op : Op) (hs : SInv s) :
    SInv (applyOp s op) := by
  cases op with
  | ins v => exact (set_insert_spec s v hs).1
  | rem v => exact (set_remove_spec s v hs).1

theorem SInv_foldl (ops : List Op) (s : SetState) (hs : SInv s) :
    SInv (ops.foldl applyOp s) := by
  induction ops generalizing s with
  | nil => exact hs
  | cons op ops ih => exact ih (applyOp s op) (SInv_applyOp s op hs)

theorem SInv_runOps (ops : List Op) : SInv (runOps ops) :=
  SInv_foldl ops set_create SInv_create

/- ================== the checker accepts well-formed trees ================== -/

theorem mem_inorderW_of_mem_vals (vs : List Val) (cs : List BTreeNode)
    (x : Val) (hx : x ∈ vs) (hlen : vs.length = cs.length) :
    x ∈ inorderW vs cs := by
  induction vs generalizing cs with
  | nil => cases hx
  | cons w ws ih =>
    cases cs with
    | nil => simp at hlen
    | cons c cs2 =>
      rw [inorderW_cons_cons]
      rcases List.mem_cons.mp hx with he | he
      · rw [he]
        exact List.mem_cons_self w _
      · exact List.mem_cons_of_mem w
          (List.mem_append_right _ (ih cs2 he (by simpa using hlen)))

theorem vals_mem_inorder (vs : List Val) (cs : List BTreeNode) (x : Val)
    (hx : x ∈ vs) (hlen : cs = [] ∨ vs.length + 1 = cs.length) :
    x ∈ inorder (.node vs cs) := by
  rcases hlen with hl | hl
  · rw [hl, inorder_leaf]
    exact hx
  · cases cs with
    | nil => simp at hl
    | cons c0 cs2 =>
      rw [inorder_internal]
      exact List.mem_append_right _
        (mem_inorderW_of_mem_vals vs cs2 x hx (by simpa using hl))

theorem wfSeq_chain_vals (lo hi : Option Int) (h : Nat) (vs : List Val)
    (cs : List BTreeNode) (hs : wfSeq lo hi h vs cs) :
    chainB lo hi (vs.map Val.key) := by
  induction vs generalizing lo cs with
  | nil => exact chainB_nil lo hi
  | cons w ws ih =>
    cases cs with
    | nil => exact hs.elim
    | cons c cs2 =>
      rw [List.map_cons]
      exact (chainB_cons _ _ _ _).mpr ⟨hs.1, hs.2.1, ih (some w.key) cs2
        hs.2.2.2⟩

theorem within_sorted_of_chainB (lo hi : Option Int) (vs : List Val)
    (hc : chainB lo hi (vs.map Val.key)) : within_sorted vs = true := by
  induction vs generalizing lo with
  | nil => rfl
  | cons a vs2 ih =>
    cases vs2 with
    | nil => rfl
    | cons b rest =>
      rw [List.map_cons] at hc
      obtain ⟨hla, hha, hc2⟩ := (chainB_cons _ _ _ _).mp hc
      have hab : a.key < b.key := by
        have := (chainB_mem _ _ _ hc2 b.key (by simp)).1
        exact this
      rw [within_sorted, Bool.and_eq_true, decide_eq_true_eq]
      exact ⟨(cmpv_neg_iff a b).mpr hab, ih (some a.key) hc2⟩

theorem height_of_wfT (minv maxv : Nat) (lo hi : Option Int) (h : Nat)
    (t : BTreeNode) (hw : wfT minv maxv lo hi h t) : height t = h := by
  cases t with
  | node vs cs =>
    cases cs with
    | nil =>
      rw [height]
      exact hw.2.2.1.symm
    | cons c0 cs2 =>
      cases h with
      | zero => exact hw.2.2.elim
      | succ h2 =>
        rw [height, height_of_wfT MIN_VALUES MAX_VALUES lo
          (headKey vs hi) h2 c0 hw.2.2.1]
termination_by sizeOf t

theorem wfSeq_mem_wf (lo hi : Option Int) (h : Nat) (vs : List Val)
    (cs : List BTreeNode) (hs : wfSeq lo hi h vs cs) (d : BTreeNode)
    (hd : d ∈ cs) :
    ∃ lo2 hi2, wfT MIN_VALUES MAX_VALUES lo2 hi2 h d := by
  induction vs generalizing lo cs with
  | nil =>
    cases cs with
    | nil => cases hd
    | cons c cs2 => exact hs.elim
  | cons w ws ih =>
    cases cs with
    | nil => exact hs.elim
    | cons c cs2 =>
      rcases List.mem_cons.mp hd with he | he
      · exact ⟨some w.key, headKey ws hi, by rw [he]; exact hs.2.2.1⟩
      · exact ih (some w.key) cs2 hs.2.2.2 he

mutual
theorem is_valid_height_of_wfT (minv maxv : Nat) (lo hi : Option Int)
    (h : Nat) (t : BTreeNode) (hw : wfT minv maxv lo hi h t) :
    is_valid_height t = true := by
  cases t with
  | node vs cs =>
    cases cs with
    | nil => rfl
    | cons c0 cs2 =>
      cases h with
      | zero => exact hw.2.2.elim
      | succ h2 =>
        obtain ⟨hc0, hseq⟩ := hw.2.2
        rw [is_valid_height, Bool.and_eq_true]
        constructor
        · rw [List.all_eq_true]
          intro d hd
          obtain ⟨lo2, hi2, hwd⟩ := wfSeq_mem_wf lo hi h2 vs cs2 hseq d hd
          rw [beq_iff_eq, height_of_wfT _ _ _ _ _ _ hwd,
            height_of_wfT _ _ _ _ _ _ hc0]
        · rw [valid_heightL, Bool.and_eq_true]
          exact ⟨is_valid_height_of_wfT MIN_VALUES MAX_VALUES lo
            (headKey vs hi) h2 c0 hc0, valid_heightL_of_wfSeq lo hi h2 vs
            cs2 hseq⟩
termination_by (sizeOf t, 0)

theorem valid_heightL_of_wfSeq (lo hi : Option Int) (h : Nat)
    (vs : List Val) (cs : List BTreeNode) (hs : wfSeq lo hi h vs cs) :
    valid_heightL cs = true := by
  cases vs with
  | nil =>
    cases cs with
    | nil => rfl
    | cons c cs2 => exact hs.elim
  | cons w ws =>
    cases cs with
    | nil => exact hs.elim
    | cons c cs2 =>
      rw [valid_heightL, Bool.and_eq_true]
      exact ⟨is_valid_height_of_wfT MIN_VALUES MAX_VALUES (some w.key)
        (headKey ws hi) h c hs.2.2.1,
        valid_heightL_of_wfSeq (some w.key) hi h ws cs2 hs.2.2.2⟩
termination_by (sizeOf cs, vs.length + 1)
end

theorem getD_mem_val (l : List Val) (i : Nat) (hi : i < l.length) :
    l.getD i dummy ∈ l := by
  induction l generalizing i with
  | nil => simp at hi
  | cons w ws ih =>
    cases i with
    | zero => simp
    | succ j =>
      rw [List.getD_cons_succ]
      exact List.mem_cons_of_mem w (ih j (by simpa using hi))

theorem own_vals_mem_inorder (minv maxv : Nat) (lo hi : Option Int)
    (h : Nat) (t : BTreeNode) (hw : wfT minv maxv lo hi h t) (x : Val)
    (hx : x ∈ t.vals) : x ∈ inorder t := by
  cases t with
  | node vs cs =>
    cases cs with
    | nil =>
      rw [inorder_leaf]
      exact hx
    | cons c0 cs2 =>
      cases h with
      | zero => exact hw.2.2.elim
      | succ h2 =>
        rw [inorder_internal]
        exact List.mem_append_right _ (mem_inorderW_of_mem_vals vs cs2 x hx
          (wfSeq_len lo hi h2 vs cs2 hw.2.2.2))

mutual
/-- `node_is_btree` with the root exemption off (ADTSet.c:688-745) accepts
every subtree satisfying the invariant with full minimum occupancy. -/
theorem node_is_btree_false_of_wfT (lo hi : Option Int) (h : Nat)
    (t : BTreeNode) (hw : wfT MIN_VALUES MAX_VALUES lo hi h t) :
    node_is_btree false (some t) = true := by
  cases t with
  | node vs cs =>
    rw [node_is_btree]
    simp only [Bool.and_eq_true, Bool.or_eq_true, decide_eq_true_eq]
    have hcnt := wfT_count_le _ _ _ _ _ _ hw
    simp only [BTreeNode.count] at hcnt
    refine ⟨⟨⟨⟨hcnt.2, Or.inr hcnt.1⟩, ?_⟩, Or.inl rfl⟩, ?_⟩
    · cases cs with
      | nil => exact within_sorted_of_chainB lo hi vs hw.2.2.2
      | cons c0 cs2 =>
        cases h with
        | zero => exact hw.2.2.elim
        | succ h2 =>
          exact within_sorted_of_chainB lo hi vs
            (wfSeq_chain_vals lo hi h2 vs cs2 hw.2.2.2)
    · cases cs with
      | nil =>
        cases vs with
        | nil => rw [sep_check]
        | cons w ws => rw [sep_check]
      | cons c0 cs2 =>
        cases h with
        | zero => exact hw.2.2.elim
        | succ h2 =>
          exact sep_check_true lo hi h2 vs c0 cs2 hw.2.2.1 hw.2.2.2
termination_by (sizeOf t, 0)

/-- The separator loop of `node_is_btree` (ADTSet.c:715-742) passes on a
well-formed window: `p` is the child left of the remaining values `vs`. -/
theorem sep_check_true (lo hi : Option Int) (h : Nat) (vs : List Val)
    (p : BTreeNode) (cs : List BTreeNode)
    (hp : wfT MIN_VALUES MAX_VALUES lo (headKey vs hi) h p)
    (hs : wfSeq lo hi h vs cs) : sep_check vs (p :: cs) = true := by
  cases vs with
  | nil => rw [sep_check]
  | cons v vs2 =>
    cases cs with
    | nil => exact hs.elim
    | cons c1 rest =>
      obtain ⟨hlov, hhiv, hc1, hseq2⟩ := hs
      have hp1 : 1 ≤ p.count := by
        have := (wfT_count_le _ _ _ _ _ _ hp).1
        simp only [MIN_VALUES, MIN_CHILDREN] at this
        omega
      have hc11 : 1 ≤ c1.count := by
        have := (wfT_count_le _ _ _ _ _ _ hc1).1
        simp only [MIN_VALUES, MIN_CHILDREN] at this
        omega
      have hplt : ∀ x ∈ inorder p, x.key < v.key := by
        intro x hx
        exact inorder_keys_lt MIN_VALUES MAX_VALUES lo v.key h p hp x hx
      have hcgt : ∀ x ∈ inorder c1, v.key < x.key := by
        intro x hx
        exact inorder_keys_gt MIN_VALUES MAX_VALUES v.key
          (headKey vs2 hi) h c1 hc1 x hx
      have hpl : p.vals.getD (p.vals.length - 1) dummy ∈ inorder p :=
        own_vals_mem_inorder MIN_VALUES MAX_VALUES lo (some v.key) h p hp _
          (getD_mem_val p.vals (p.vals.length - 1) (by
            simp only [BTreeNode.count] at hp1
            omega))
      have hc1f : c1.vals.getD 0 dummy ∈ inorder c1 :=
        own_vals_mem_inorder MIN_VALUES MAX_VALUES (some v.key)
          (headKey vs2 hi) h c1 hc1 _
          (getD_mem_val c1.vals 0 (by
            simp only [BTreeNode.count] at hc11
            omega))
      obtain ⟨lmx, hmx⟩ := node_find_max_spec MIN_VALUES MAX_VALUES lo
        (some v.key) h p hp (by decide)
      obtain ⟨lmn, hmn⟩ := node_find_min_spec MIN_VALUES MAX_VALUES
        (some v.key) (headKey vs2 hi) h c1 hc1 (by decide)
      rw [sep_check]
      simp only [Bool.and_eq_true, Bool.or_eq_true, decide_eq_true_eq]
      refine ⟨⟨⟨⟨⟨⟨?_, ?_⟩, ?_⟩, ?_⟩, ?_⟩, ?_⟩, ?_⟩
      · exact (cmpv_neg_iff _ v).mpr (hplt _ hpl)
      · exact (cmpv_pos_iff _ v).mpr (hcgt _ hc1f)
      · refine (cmpv_neg_iff _ v).mpr (hplt _ ?_)
        rw [hmx]
        exact List.mem_append_right _ (by simp)
      · refine (cmpv_pos_iff _ v).mpr (hcgt _ ?_)
        rw [hmn]
        exact List.mem_cons_self _ _
      · exact node_is_btree_false_of_wfT lo (some v.key) h p hp
      · exact Or.inr (node_is_btree_false_of_wfT (some v.key)
          (headKey vs2 hi) h c1 hc1)
      · exact sep_check_true (some v.key) hi h vs2 c1 rest hc1 hseq2
termination_by (sizeOf p + sizeOf cs, vs.length + 1)
end

/-- `node_is_btree` at the root (the `parent == NULL` case, with the height
check and without the minimum-occupancy requirement). -/
theorem node_is_btree_true_of_wfT (lo hi : Option Int) (h : Nat)
    (t : BTreeNode) (hw : wfT 1 MAX_VALUES lo hi h t) :
    node_is_btree true (some t) = true := by
  cases t with
  | node vs cs =>
    rw [node_is_btree]
    simp only [Bool.and_eq_true, Bool.or_eq_true, decide_eq_true_eq]
    have hcnt := wfT_count_le _ _ _ _ _ _ hw
    simp only [BTreeNode.count] at hcnt
    refine ⟨⟨⟨⟨hcnt.2, Or.inl trivial⟩, ?_⟩,
      Or.inr (is_valid_height_of_wfT 1 MAX_VALUES lo hi h _ hw)⟩, ?_⟩
    · cases cs with
      | nil => exact within_sorted_of_chainB lo hi vs hw.2.2.2
      | cons c0 cs2 =>
        cases h with
        | zero => exact hw.2.2.elim
        | succ h2 =>
          exact within_sorted_of_chainB lo hi vs
            (wfSeq_chain_vals lo hi h2 vs cs2 hw.2.2.2)
    · cases cs with
      | nil =>
        cases vs with
        | nil => rw [sep_check]
        | cons w ws => rw [sep_check]
      | cons c0 cs2 =>
        cases h with
        | zero => exact hw.2.2.elim
        | succ h2 =>
          exact sep_check_true lo hi h2 vs c0 cs2 hw.2.2.1 hw.2.2.2

/-- `set_is_proper` (ADTSet.c:747-749) accepts every invariant-satisfying
state. -/
theorem set_is_proper_of_SInv (s : SetState) (hs : SInv s) :
    set_is_proper s = true := by
  rcases s with ⟨sr, ssz⟩
  cases sr with
  | none => rw [set_is_proper, node_is_btree]
  | some t =>
    obtain ⟨h, hw⟩ := hs.1
    exact node_is_btree_true_of_wfT none none h t hw

/- ================== traversal (set_first / set_next / …) ================== -/

/-- `SET_BOF` (part_000:64): the \"before first\" sentinel, `(SetNode)0`.
A `SetNode` position is modelled as `Option Val`; the null sentinel is
`none`. -/
def SET_BOF : Option Val := none

/-- `SET_EOF` (part_000:65): the \"after last\" sentinel, `(SetNode)0`. -/
def SET_EOF : Option Val := none

/-- `set_first` (ADTSet.c:595-597): `node_find_min(set->root)`, `NULL` on an
empty tree (node_find_min's `node == NULL` guard, ADTSet.c:452-454). -/
def set_first (s : SetState) : Option Val :=
  match s.root with
  | none => none
  | some t => some (node_find_min_v t)

/-- `set_last` (ADTSet.c:599-601): `node_find_max(set->root)`. -/
def set_last (s : SetState) : Option Val :=
  match s.root with
  | none => none
  | some t => some (node_find_max_v t)

mutual
/-- `node_find_next` (ADTSet.c:524-552).  The C code locates `v`'s node and
index through the `owner` pointer and, at the end of a leaf, climbs `parent`
pointers to the nearest ancestor holding a value greater than `v`.  Here the
same search runs from the root; `acc` carries the value the ancestor climb
would find (the nearest enclosing separator greater than `v`, `none` when
the climb would reach the root, ADTSet.c:544-545).  At a separator of an
internal node the result is the minimum of the right child
(ADTSet.c:532-533); inside a leaf it is the value one slot to the right
(ADTSet.c:551). -/
def node_next_val (v : Val) (acc : Option Val) (t : BTreeNode) : Option Val :=
  match t with
  | .node vs [] =>
    match find_slot v vs with
    | .inl i => if i + 1 < vs.length then some (vs.getD (i + 1) dummy) else acc
    | .inr _ => none
  | .node vs (c0 :: cs) => nextWalk v acc c0 vs cs
termination_by sizeOf t
decreasing_by
  all_goals first
    | (exact sizeOf_getD_lt _ _ _ (by simp))
    | (simp only [BTreeNode.node.sizeOf_spec, List.cons.sizeOf_spec]
       omega)
    | (have h9 := one_le_sizeOf_list ‹List BTreeNode›
       omega)

/-- The search walk of `node_find_next` along an internal node (`p` is the
child left of the remaining values). -/
def nextWalk (v : Val) (acc : Option Val) (p : BTreeNode) (vals : List Val)
    (children : List BTreeNode) : Option Val :=
  match vals, children with
  | [], _ => node_next_val v acc p
  | w :: ws, c :: cs =>
    let cr := cmpv v w
    if cr = 0 then some (node_find_min_v c)
    else if cr < 0 then node_next_val v (some w) p
    else nextWalk v acc c ws cs
  | _ :: _, [] => none -- misaligned node: unreachable on B-tree states
termination_by sizeOf p + sizeOf children
decreasing_by
  all_goals first
    | (exact sizeOf_getD_lt _ _ _ (by simp))
    | (simp only [BTreeNode.node.sizeOf_spec, List.cons.sizeOf_spec]
       omega)
    | (have h9 := one_le_sizeOf_list ‹List BTreeNode›
       omega)
end

mutual
/-- `node_find_previous` (ADTSet.c:491-519), mirrored like `node_next_val`:
`acc` carries the nearest enclosing separator smaller than `v`.  At a
separator of an internal node the result is the maximum of the left child
(ADTSet.c:501-502); inside a leaf it is the value one slot to the left
(ADTSet.c:518). -/
def node_prev_val (v : Val) (acc : Option Val) (t : BTreeNode) : Option Val :=
  match t with
  | .node vs [] =>
    match find_slot v vs with
    | .inl i => if i = 0 then acc else some (vs.getD (i - 1) dummy)
    | .inr _ => none
  | .node vs (c0 :: cs) => prevWalk v acc c0 vs cs
termination_by sizeOf t
decreasing_by
  all_goals first
    | (exact sizeOf_getD_lt _ _ _ (by simp))
    | (simp only [BTreeNode.node.sizeOf_spec, List.cons.sizeOf_spec]
       omega)
    | (have h9 := one_le_sizeOf_list ‹List BTreeNode›
       omega)

/-- The search walk of `node_find_previous` along an internal node. -/
def prevWalk (v : Val) (acc : Option Val) (p : BTreeNode) (vals : List Val)
    (children : List BTreeNode) : Option Val :=
  match vals, children with
  | [], _ => node_prev_val v acc p
  | w :: ws, c :: cs =>
    let cr := cmpv v w
    if cr = 0 then some (node_find_max_v p)
    else if cr < 0 then node_prev_val v acc p
    else prevWalk v (some w) c ws cs
  | _ :: _, [] => none -- misaligned node: unreachable on B-tree states
termination_by sizeOf p + sizeOf children
decreasing_by
  all_goals first
    | (exact sizeOf_getD_lt _ _ _ (by simp))
    | (simp only [BTreeNode.node.sizeOf_spec, List.cons.sizeOf_spec]
       omega)
    | (have h9 := one_le_sizeOf_list ‹List BTreeNode›
       omega)
end

/-- `set_next` (ADTSet.c:632-634): `node_find_next(node, set->compare)` for a
stored position `v`. -/
def set_next (s : SetState) (v : Val) : Option Val :=
  match s.root with
  | none => none
  | some t => node_next_val v none t

/-- `set_previous` (ADTSet.c:628-630). -/
def set_previous (s : SetState) (v : Val) : Option Val :=
  match s.root with
  | none => none
  | some t => node_prev_val v none t

/-- The traversal loop of the claimized iteration: from a position, follow
`set_next` while fuel lasts and the sentinel has not been reached. -/
def travFrom (s : SetState) : Nat → Option Val → List Val
  | 0, _ => []
  | _ + 1, none => []
  | n + 1, some v => v :: travFrom s n (set_next s v)

/- ---------- locating a stored value in the sorted contents ---------- -/

theorem sorted_decomp_unique (lo hi : Option Int) (l3 : List Val) :
    ∀ (l1 l2 l4 : List Val) (v w : Val), v.key = w.key →
    l1 ++ v :: l2 = l3 ++ w :: l4 →
    chainB lo hi ((l3 ++ w :: l4).map Val.key) →
    l1 = l3 ∧ v = w ∧ l2 = l4 := by
  induction l3 generalizing lo with
  | nil =>
    intro l1 l2 l4 v w hk heq hc
    cases l1 with
    | nil =>
      rw [List.nil_append, List.nil_append] at heq
      exact ⟨rfl, (List.cons.injEq _ _ _ _).mp heq |>.1,
        (List.cons.injEq _ _ _ _).mp heq |>.2⟩
    | cons x l1b =>
      rw [List.nil_append] at heq
      rw [List.cons_append] at heq
      obtain ⟨hx, htl⟩ := (List.cons.injEq _ _ _ _).mp heq
      exfalso
      have hvmem : v ∈ l4 := by
        rw [← htl]
        exact List.mem_append_right _ (List.mem_cons_self _ _)
      rw [List.nil_append, List.map_cons] at hc
      obtain ⟨hlw, hhw, hcr⟩ := (chainB_cons _ _ _ _).mp hc
      have : w.key < v.key :=
        (chainB_mem _ _ _ hcr v.key (List.mem_map_of_mem Val.key hvmem)).1
      omega
  | cons y l3b ih =>
    intro l1 l2 l4 v w hk heq hc
    rw [List.cons_append, List.map_cons] at hc
    obtain ⟨hly, hhy, hcr⟩ := (chainB_cons _ _ _ _).mp hc
    cases l1 with
    | nil =>
      rw [List.nil_append, List.cons_append] at heq
      obtain ⟨hv, htl⟩ := (List.cons.injEq _ _ _ _).mp heq
      exfalso
      have hwmem : w ∈ l3b ++ w :: l4 :=
        List.mem_append_right _ (List.mem_cons_self _ _)
      have : y.key < w.key :=
        (chainB_mem _ _ _ hcr w.key (List.mem_map_of_mem Val.key hwmem)).1
      rw [hv] at hk
      omega
    | cons x l1b =>
      rw [List.cons_append, List.cons_append] at heq
      obtain ⟨hx, htl⟩ := (List.cons.injEq _ _ _ _).mp heq
      obtain ⟨e1, e2, e3⟩ := ih (some y.key) l1b l2 l4 v w hk htl hcr
      exact ⟨by rw [hx, e1], e2, e3⟩

theorem find_slot_at_decomp (lo hi : Option Int) (v : Val) (l1 l2 : List Val)
    (hc : chainB lo hi ((l1 ++ v :: l2).map Val.key)) :
    find_slot v (l1 ++ v :: l2) = .inl l1.length := by
  induction l1 generalizing lo with
  | nil =>
    rw [List.nil_append, find_slot]
    have h0 : cmpv v v = 0 := (cmpv_eq_zero_iff v v).mpr rfl
    rw [if_pos h0]
    rfl
  | cons x l1b ih =>
    rw [List.cons_append, List.map_cons] at hc
    obtain ⟨hlx, hhx, hcr⟩ := (chainB_cons _ _ _ _).mp hc
    have hxv : x.key < v.key := by
      have hm : v ∈ l1b ++ v :: l2 :=
        List.mem_append_right _ (List.mem_cons_self _ _)
      exact (chainB_mem _ _ _ hcr v.key (List.mem_map_of_mem Val.key hm)).1
    rw [List.cons_append, find_slot]
    have hne : ¬ cmpv v x = 0 := by
      rw [cmpv_eq_zero_iff]
      omega
    have hnl : ¬ cmpv v x < 0 := by
      rw [cmpv_neg_iff]
      omega
    rw [if_neg hne, if_neg hnl, ih (some x.key) hcr]
    rfl

theorem getD_append_cons_succ (l1 l2 : List Val) (v : Val) :
    (l1 ++ v :: l2).getD (l1.length + 1) dummy = l2.getD 0 dummy := by
  induction l1 with
  | nil => rfl
  | cons x l1b ih =>
    rw [List.cons_append, List.length_cons]
    exact ih

theorem getD_append_pred (l1 l2 : List Val) (v : Val) (hne : l1 ≠ []) :
    (l1 ++ v :: l2).getD (l1.length - 1) dummy =
      l1.getD (l1.length - 1) dummy := by
  induction l1 with
  | nil => exact absurd rfl hne
  | cons x l1b ih =>
    cases l1b with
    | nil => rfl
    | cons y l1c =>
      rw [List.cons_append, List.length_cons]
      have := ih (by simp)
      simpa using this

theorem window_chain (lo hi : Option Int) (h : Nat) (p : BTreeNode)
    (vs : List Val) (cs : List BTreeNode)
    (hp : wfT MIN_VALUES MAX_VALUES lo (headKey vs hi) h p)
    (hs : wfSeq lo hi h vs cs) :
    chainB lo hi ((inorder p ++ inorderW vs cs).map Val.key) := by
  induction vs generalizing lo p cs with
  | nil =>
    cases cs with
    | cons c cs2 => exact hs.elim
    | nil =>
      rw [inorderW_nil_vals, List.append_nil]
      exact wfT_chain MIN_VALUES MAX_VALUES lo hi h p hp
  | cons w ws ih =>
    cases cs with
    | nil => exact hs.elim
    | cons c cs2 =>
      rw [inorderW_cons_cons]
      have hx := wfT_chain MIN_VALUES MAX_VALUES lo (some w.key) h p hp
      have hy := ih (some w.key) c cs2 hs.2.2.1 hs.2.2.2
      have := chainB_glue_mid lo hi w.key ((inorder p).map Val.key)
        ((inorder c ++ inorderW ws cs2).map Val.key) hx hy hs.1 hs.2.1
      simpa [List.map_append, List.map_cons] using this

/-- The successor selector: the head of the part right of the position, or
the ancestor fallback. -/
def nextOf (acc : Option Val) : List Val → Option Val
  | [] => acc
  | u :: _ => some u

/-- The predecessor selector: the last element of the part left of the
position, or the ancestor fallback. -/
def prevOf (acc : Option Val) (l : List Val) : Option Val :=
  match l.getLast? with
  | none => acc
  | some u => some u

@[simp] theorem nextOf_nil (acc : Option Val) : nextOf acc [] = acc := rfl

@[simp] theorem nextOf_cons (acc : Option Val) (u : Val) (l : List Val) :
    nextOf acc (u :: l) = some u := rfl

mutual
/-- `node_find_next` (ADTSet.c:524-552) on a well-formed subtree: for the
stored value at position `l1.length` of the ordered contents, the result is
the next stored value, or the ancestor fallback `acc` when the position is
the subtree's last. -/
theorem node_next_val_spec (minv : Nat) (lo hi : Option Int) (h : Nat)
    (v : Val) (acc : Option Val) (t : BTreeNode) (l1 l2 : List Val)
    (hw : wfT minv MAX_VALUES lo hi h t)
    (hd : inorder t = l1 ++ v :: l2) :
    node_next_val v acc t = nextOf acc l2 := by
  cases t with
  | node vs cs =>
    cases cs with
    | nil =>
      obtain ⟨h1, h2, hh1, hch⟩ := hw
      rw [inorder_leaf] at hd
      subst hd
      have heq : node_next_val v acc (.node (l1 ++ v :: l2) []) =
          if l1.length + 1 < (l1 ++ v :: l2).length then
            some ((l1 ++ v :: l2).getD (l1.length + 1) dummy)
          else acc := by
        rw [node_next_val, find_slot_at_decomp lo hi v l1 l2 hch]
      rw [heq]
      cases l2 with
      | nil =>
        rw [if_neg (by simp), nextOf_nil]
      | cons u l2b =>
        rw [if_pos (by simp), getD_append_cons_succ, nextOf_cons,
          List.getD_cons_zero]
    | cons c0 cs2 =>
      obtain ⟨h1, h2, h3⟩ := hw
      cases h with
      | zero => exact h3.elim
      | succ h2n =>
        rw [inorder_internal] at hd
        rw [node_next_val]
        exact nextWalk_spec lo hi h2n v acc c0 vs cs2 l1 l2 h3.1 h3.2 hd
termination_by (sizeOf t, 0)

/-- The search walk of `node_find_next` along an internal node: same
contract as `node_next_val_spec`, phrased on the remaining window. -/
theorem nextWalk_spec (lo hi : Option Int) (h : Nat) (v : Val)
    (acc : Option Val) (p : BTreeNode) (vs : List Val) (cs : List BTreeNode)
    (l1 l2 : List Val)
    (hp : wfT MIN_VALUES MAX_VALUES lo (headKey vs hi) h p)
    (hs : wfSeq lo hi h vs cs)
    (hd : inorder p ++ inorderW vs cs = l1 ++ v :: l2) :
    nextWalk v acc p vs cs = nextOf acc l2 := by
  cases vs with
  | nil =>
    cases cs with
    | cons c9 cs9 => exact hs.elim
    | nil =>
      rw [inorderW_nil_vals, List.append_nil] at hd
      rw [nextWalk]
      exact node_next_val_spec MIN_VALUES lo hi h v acc p l1 l2 hp hd
  | cons w ws =>
    cases cs with
    | nil => exact hs.elim
    | cons c cs2 =>
      obtain ⟨hlow, hhiw, hc, hseq2⟩ := hs
      rw [inorderW_cons_cons] at hd
      have hwin : chainB lo hi ((inorder p ++
          w :: (inorder c ++ inorderW ws cs2)).map Val.key) := by
        have := window_chain lo hi h p (w :: ws) (c :: cs2) hp
          ⟨hlow, hhiw, hc, hseq2⟩
        rw [inorderW_cons_cons] at this
        exact this
      by_cases hcr0 : cmpv v w = 0
      · have hkey : v.key = w.key := (cmpv_eq_zero_iff v w).mp hcr0
        obtain ⟨e1, e2, e3⟩ := sorted_decomp_unique lo hi (inorder p) l1 l2
          (inorder c ++ inorderW ws cs2) v w hkey hd.symm hwin
        have heq : nextWalk v acc p (w :: ws) (c :: cs2) =
            some (node_find_min_v c) := by
          simp only [nextWalk]
          rw [if_pos hcr0]
        rw [heq]
        obtain ⟨lc, hlc⟩ := node_find_min_spec MIN_VALUES MAX_VALUES
          (some w.key) (headKey ws hi) h c hc (by decide)
        rw [e3, hlc]
        rfl
      · by_cases hcrneg : cmpv v w < 0
        · have hkeylt : v.key < w.key := (cmpv_neg_iff v w).mp hcrneg
          have hvp : v ∈ inorder p := by
            have hvmem : v ∈ inorder p ++ w :: (inorder c ++ inorderW ws
                cs2) := by
              rw [hd]
              exact List.mem_append_right _ (List.mem_cons_self _ _)
            rcases List.mem_append.mp hvmem with hx | hx
            · exact hx
            · exfalso
              rcases List.mem_cons.mp hx with hx2 | hx2
              · rw [hx2] at hkeylt
                omega
              · rcases List.mem_append.mp hx2 with hx3 | hx3
                · have := inorder_keys_gt MIN_VALUES MAX_VALUES w.key
                    (headKey ws hi) h c hc v hx3
                  omega
                · have := inorderW_keys_gt w.key hi h ws cs2 hseq2 v hx3
                  omega
          obtain ⟨a, b, hab⟩ := List.append_of_mem hvp
          have hW2 : inorder p ++ w :: (inorder c ++ inorderW ws cs2) =
              a ++ v :: (b ++ w :: (inorder c ++ inorderW ws cs2)) := by
            rw [hab]
            simp [List.append_assoc]
          obtain ⟨e1, e2, e3⟩ := sorted_decomp_unique lo hi a l1 l2
            (b ++ w :: (inorder c ++ inorderW ws cs2)) v v rfl
            (hd.symm.trans hW2) (by rw [← hW2]; exact hwin)
          have heq : nextWalk v acc p (w :: ws) (c :: cs2) =
              node_next_val v (some w) p := by
            simp only [nextWalk]
            rw [if_neg hcr0, if_pos hcrneg]
          rw [heq, node_next_val_spec MIN_VALUES lo (some w.key) h v
            (some w) p a b hp hab, e3]
          cases b with
          | nil => rfl
          | cons u b2 => rfl
        · have hpos : 0 < cmpv v w := by omega
          have hkeygt : w.key < v.key := (cmpv_pos_iff v w).mp hpos
          have hvr : v ∈ inorder c ++ inorderW ws cs2 := by
            have hvmem : v ∈ inorder p ++ w :: (inorder c ++ inorderW ws
                cs2) := by
              rw [hd]
              exact List.mem_append_right _ (List.mem_cons_self _ _)
            rcases List.mem_append.mp hvmem with hx | hx
            · exfalso
              have := inorder_keys_lt MIN_VALUES MAX_VALUES lo w.key h p hp
                v hx
              omega
            · rcases List.mem_cons.mp hx with hx2 | hx2
              · exfalso
                rw [hx2] at hkeygt
                omega
              · exact hx2
          obtain ⟨a, b, hab⟩ := List.append_of_mem hvr
          have hW2 : inorder p ++ w :: (inorder c ++ inorderW ws cs2) =
              (inorder p ++ w :: a) ++ v :: b := by
            rw [hab]
            simp [List.append_assoc]
          obtain ⟨e1, e2, e3⟩ := sorted_decomp_unique lo hi
            (inorder p ++ w :: a) l1 l2 b v v rfl (hd.symm.trans hW2)
            (by rw [← hW2]; exact hwin)
          have heq : nextWalk v acc p (w :: ws) (c :: cs2) =
              nextWalk v acc c ws cs2 := by
            simp only [nextWalk]
            rw [if_neg hcr0, if_neg hcrneg]
          rw [heq, nextWalk_spec (some w.key) hi h v acc c ws cs2 a b hc
            hseq2 hab, e3]
termination_by (sizeOf p + sizeOf cs, vs.length + 1)
end

theorem prevOf_nil (acc : Option Val) : prevOf acc [] = acc := rfl

theorem prevOf_getLast (acc : Option Val) (l : List Val) (hne : l ≠ []) :
    prevOf acc l = some (l.getD (l.length - 1) dummy) := by
  obtain ⟨l0, hl0⟩ := getD_last_val l hne
  rw [prevOf]
  rw [show l.getLast? = some (l.getD (l.length - 1) dummy) from by
    rw [hl0, List.getLast?_concat, ← hl0]]

theorem prevOf_append_cons (acc : Option Val) (l1 : List Val) (w : Val)
    (a : List Val) : prevOf acc (l1 ++ w :: a) = prevOf (some w) a := by
  rw [prevOf, prevOf, List.getLast?_append_cons]
  cases a with
  | nil => rfl
  | cons a0 a2 =>
    rw [List.getLast?_cons_cons]
    cases hg : (a0 :: a2).getLast? with
    | none =>
      exfalso
      rw [List.getLast?_eq_none_iff] at hg
      cases hg
    | some u => rfl

mutual
/-- `node_find_previous` (ADTSet.c:491-519) on a well-formed subtree: for
the stored value at position `l1.length` of the ordered contents, the result
is the previous stored value, or the ancestor fallback `acc` when the
position is the subtree's first. -/
theorem node_prev_val_spec (minv : Nat) (lo hi : Option Int) (h : Nat)
    (v : Val) (acc : Option Val) (t : BTreeNode) (l1 l2 : List Val)
    (hw : wfT minv MAX_VALUES lo hi h t)
    (hd : inorder t = l1 ++ v :: l2) :
    node_prev_val v acc t = prevOf acc l1 := by
  cases t with
  | node vs cs =>
    cases cs with
    | nil =>
      obtain ⟨h1, h2, hh1, hch⟩ := hw
      rw [inorder_leaf] at hd
      subst hd
      have heq : node_prev_val v acc (.node (l1 ++ v :: l2) []) =
          if l1.length = 0 then acc
          else some ((l1 ++ v :: l2).getD (l1.length - 1) dummy) := by
        rw [node_prev_val, find_slot_at_decomp lo hi v l1 l2 hch]
      rw [heq]
      cases l1 with
      | nil =>
        rw [if_pos (by simp), prevOf_nil]
      | cons x l1b =>
        rw [if_neg (by simp), getD_append_pred _ _ _ (by simp),
          prevOf_getLast acc _ (by simp)]
    | cons c0 cs2 =>
      obtain ⟨h1, h2, h3⟩ := hw
      cases h with
      | zero => exact h3.elim
      | succ h2n =>
        rw [inorder_internal] at hd
        rw [node_prev_val]
        exact prevWalk_spec lo hi h2n v acc c0 vs cs2 l1 l2 h3.1 h3.2 hd
termination_by (sizeOf t, 0)

/-- The search walk of `node_find_previous` along an internal node: same
contract as `node_prev_val_spec`, phrased on the remaining window. -/
theorem prevWalk_spec (lo hi : Option Int) (h : Nat) (v : Val)
    (acc : Option Val) (p : BTreeNode) (vs : List Val) (cs : List BTreeNode)
    (l1 l2 : List Val)
    (hp : wfT MIN_VALUES MAX_VALUES lo (headKey vs hi) h p)
    (hs : wfSeq lo hi h vs cs)
    (hd : inorder p ++ inorderW vs cs = l1 ++ v :: l2) :
    prevWalk v acc p vs cs = prevOf acc l1 := by
  cases vs with
  | nil =>
    cases cs with
    | cons c9 cs9 => exact hs.elim
    | nil =>
      rw [inorderW_nil_vals, List.append_nil] at hd
      rw [prevWalk]
      exact node_prev_val_spec MIN_VALUES lo hi h v acc p l1 l2 hp hd
  | cons w ws =>
    cases cs with
    | nil => exact hs.elim
    | cons c cs2 =>
      obtain ⟨hlow, hhiw, hc, hseq2⟩ := hs
      rw [inorderW_cons_cons] at hd
      have hwin : chainB lo hi ((inorder p ++
          w :: (inorder c ++ inorderW ws cs2)).map Val.key) := by
        have := window_chain lo hi h p (w :: ws) (c :: cs2) hp
          ⟨hlow, hhiw, hc, hseq2⟩
        rw [inorderW_cons_cons] at this
        exact this
      by_cases hcr0 : cmpv v w = 0
      · have hkey : v.key = w.key := (cmpv_eq_zero_iff v w).mp hcr0
        obtain ⟨e1, e2, e3⟩ := sorted_decomp_unique lo hi (inorder p) l1 l2
          (inorder c ++ inorderW ws cs2) v w hkey hd.symm hwin
        have heq : prevWalk v acc p (w :: ws) (c :: cs2) =
            some (node_find_max_v p) := by
          simp only [prevWalk]
          rw [if_pos hcr0]
        rw [heq, e1]
        obtain ⟨lp, hlp⟩ := node_find_max_spec MIN_VALUES MAX_VALUES lo
          (some w.key) h p hp (by decide)
        rw [hlp, prevOf, List.getLast?_concat]
      · by_cases hcrneg : cmpv v w < 0
        · have hkeylt : v.key < w.key := (cmpv_neg_iff v w).mp hcrneg
          have hvp : v ∈ inorder p := by
            have hvmem : v ∈ inorder p ++ w :: (inorder c ++ inorderW ws
                cs2) := by
              rw [hd]
              exact List.mem_append_right _ (List.mem_cons_self _ _)
            rcases List.mem_append.mp hvmem with hx | hx
            · exact hx
            · exfalso
              rcases List.mem_cons.mp hx with hx2 | hx2
              · rw [hx2] at hkeylt
                omega
              · rcases List.mem_append.mp hx2 with hx3 | hx3
                · have := inorder_keys_gt MIN_VALUES MAX_VALUES w.key
                    (headKey ws hi) h c hc v hx3
                  omega
                · have := inorderW_keys_gt w.key hi h ws cs2 hseq2 v hx3
                  omega
          obtain ⟨a, b, hab⟩ := List.append_of_mem hvp
          have hW2 : inorder p ++ w :: (inorder c ++ inorderW ws cs2) =
              a ++ v :: (b ++ w :: (inorder c ++ inorderW ws cs2)) := by
            rw [hab]
            simp [List.append_assoc]
          obtain ⟨e1, e2, e3⟩ := sorted_decomp_unique lo hi a l1 l2
            (b ++ w :: (inorder c ++ inorderW ws cs2)) v v rfl
            (hd.symm.trans hW2) (by rw [← hW2]; exact hwin)
          have heq : prevWalk v acc p (w :: ws) (c :: cs2) =
              node_prev_val v acc p := by
            simp only [prevWalk]
            rw [if_neg hcr0, if_pos hcrneg]
          rw [heq, node_prev_val_spec MIN_VALUES lo (some w.key) h v acc p
            a b hp hab, e1]
        · have hpos : 0 < cmpv v w := by omega
          have hkeygt : w.key < v.key := (cmpv_pos_iff v w).mp hpos
          have hvr : v ∈ inorder c ++ inorderW ws cs2 := by
            have hvmem : v ∈ inorder p ++ w :: (inorder c ++ inorderW ws
                cs2) := by
              rw [hd]
              exact List.mem_append_right _ (List.mem_cons_self _ _)
            rcases List.mem_append.mp hvmem with hx | hx
            · exfalso
              have := inorder_keys_lt MIN_VALUES MAX_VALUES lo w.key h p hp
                v hx
              omega
            · rcases List.mem_cons.mp hx with hx2 | hx2
              · exfalso
                rw [hx2] at hkeygt
                omega
              · exact hx2
          obtain ⟨a, b, hab⟩ := List.append_of_mem hvr
          have hW2 : inorder p ++ w :: (inorder c ++ inorderW ws cs2) =
              (inorder p ++ w :: a) ++ v :: b := by
            rw [hab]
            simp [List.append_assoc]
          obtain ⟨e1, e2, e3⟩ := sorted_decomp_unique lo hi
            (inorder p ++ w :: a) l1 l2 b v v rfl (hd.symm.trans hW2)
            (by rw [← hW2]; exact hwin)
          have heq : prevWalk v acc p (w :: ws) (c :: cs2) =
              prevWalk v (some w) c ws cs2 := by
            simp only [prevWalk]
            rw [if_neg hcr0, if_neg hcrneg]
          rw [heq, prevWalk_spec (some w.key) hi h v (some w) c ws cs2 a b
            hc hseq2 hab, e1, prevOf_append_cons]
termination_by (sizeOf p + sizeOf cs, vs.length + 1)
end

theorem travFrom_zero (s : SetState) (o : Option Val) :
    travFrom s 0 o = [] := rfl

theorem travFrom_succ_none (s : SetState) (n : Nat) :
    travFrom s (n + 1) none = [] := rfl

theorem travFrom_succ_some (s : SetState) (n : Nat) (v : Val) :
    travFrom s (n + 1) (some v) = v :: travFrom s n (set_next s v) := rfl

theorem travFrom_none (s : SetState) (n : Nat) : travFrom s n none = [] := by
  cases n with
  | zero => rfl
  | succ m => rfl

theorem travFrom_suffix (t : BTreeNode) (h : Nat)
    (hw : wfT 1 MAX_VALUES none none h t) (ssz : Int) :
    ∀ (l2 l1 : List Val) (v : Val) (n : Nat), l2.length + 1 ≤ n →
    inorder t = l1 ++ v :: l2 →
    travFrom ⟨some t, ssz⟩ n (some v) = v :: l2 := by
  intro l2
  induction l2 with
  | nil =>
    intro l1 v n hn hd
    obtain ⟨m, rfl⟩ : ∃ m, n = m + 1 := ⟨n - 1, by omega⟩
    rw [travFrom_succ_some]
    have hnx : set_next ⟨some t, ssz⟩ v = none := by
      rw [set_next]
      exact node_next_val_spec 1 none none h v none t l1 [] hw hd
    rw [hnx, travFrom_none]
  | cons u l2b ih =>
    intro l1 v n hn hd
    obtain ⟨m, rfl⟩ : ∃ m, n = m + 1 := ⟨n - 1, by omega⟩
    rw [travFrom_succ_some]
    have hnx : set_next ⟨some t, ssz⟩ v = some u := by
      rw [set_next]
      exact node_next_val_spec 1 none none h v none t l1 (u :: l2b) hw hd
    rw [hnx, ih (l1 ++ [v]) u m (by simp only [List.length_cons] at hn; omega)
      (by rw [hd]; simp)]

/-- In a strictly sorted list two members with the same key coincide. -/
theorem mem_unique_key (lo hi : Option Int) (l : List Val)
    (hc : chainB lo hi (l.map Val.key)) (x y : Val) (hx : x ∈ l) (hy : y ∈ l)
    (hk : x.key = y.key) : x = y := by
  induction l generalizing lo with
  | nil => cases hx
  | cons w ws ih =>
    rw [List.map_cons] at hc
    obtain ⟨hlw, hhw, hcr⟩ := (chainB_cons _ _ _ _).mp hc
    rcases List.mem_cons.mp hx with hex | hex
    · rcases List.mem_cons.mp hy with hey | hey
      · rw [hex, hey]
      · exfalso
        have : w.key < y.key :=
          (chainB_mem _ _ _ hcr y.key (List.mem_map_of_mem Val.key hey)).1
        rw [hex] at hk
        omega
    · rcases List.mem_cons.mp hy with hey | hey
      · exfalso
        have : w.key < x.key :=
          (chainB_mem _ _ _ hcr x.key (List.mem_map_of_mem Val.key hex)).1
        rw [hey] at hk
        omega
      · exact ih (some w.key) hcr hex hey

/-- After a keyed erase from a strictly sorted list no value with that key
remains. -/
theorem eraseKeyd_no_key (lo hi : Option Int) (v : Val) (l : List Val)
    (hc : chainB lo hi (l.map Val.key)) :
    ∀ x ∈ eraseKeyd v l, x.key ≠ v.key := by
  induction l generalizing lo with
  | nil =>
    intro x hx
    cases hx
  | cons w ws ih =>
    rw [List.map_cons] at hc
    obtain ⟨hlw, hhw, hcr⟩ := (chainB_cons _ _ _ _).mp hc
    by_cases hk : w.key = v.key
    · rw [eraseKeyd_cons_match v w ws hk]
      intro x hx
      have : w.key < x.key :=
        (chainB_mem _ _ _ hcr x.key (List.mem_map_of_mem Val.key hx)).1
      omega
    · rw [eraseKeyd_cons_nomatch v w ws hk]
      intro x hx
      rcases List.mem_cons.mp hx with he | he
      · rw [he]
        exact hk
      · exact ih (some w.key) hcr x he

/-- `v` itself is stored after an ordered insert-or-replace. -/
theorem insRep_self_mem (v : Val) (l : List Val) : v ∈ insRep v l := by
  induction l with
  | nil => exact List.mem_cons_self _ _
  | cons w ws ih =>
    rcases lt_trichotomy v.key w.key with hx | hx | hx
    · rw [insRep_cons_lt v w ws hx]
      exact List.mem_cons_self _ _
    · rw [insRep_cons_eq v w ws hx]
      exact List.mem_cons_self _ _
    · rw [insRep_cons_gt v w ws hx]
      exact List.mem_cons_of_mem w ih

/-- Members after an ordered insert-or-replace into a sorted list: the new
value, or an old member whose key differs. -/
theorem insRep_mem_elim (lo hi : Option Int) (v : Val) (l : List Val)
    (hc : chainB lo hi (l.map Val.key)) (y : Val) (hy : y ∈ insRep v l) :
    y = v ∨ (y ∈ l ∧ y.key ≠ v.key) := by
  induction l generalizing lo with
  | nil =>
    rcases List.mem_cons.mp hy with he | he
    · exact Or.inl he
    · cases he
  | cons w ws ih =>
    rw [List.map_cons] at hc
    obtain ⟨hlw, hhw, hcr⟩ := (chainB_cons _ _ _ _).mp hc
    rcases lt_trichotomy v.key w.key with hx | hx | hx
    · rw [insRep_cons_lt v w ws hx] at hy
      rcases List.mem_cons.mp hy with he | he
      · exact Or.inl he
      · refine Or.inr ⟨he, ?_⟩
        rcases List.mem_cons.mp he with he2 | he2
        · rw [he2]
          omega
        · have : w.key < y.key :=
            (chainB_mem _ _ _ hcr y.key (List.mem_map_of_mem Val.key he2)).1
          omega
    · rw [insRep_cons_eq v w ws hx] at hy
      rcases List.mem_cons.mp hy with he | he
      · exact Or.inl he
      · refine Or.inr ⟨List.mem_cons_of_mem w he, ?_⟩
        have : w.key < y.key :=
          (chainB_mem _ _ _ hcr y.key (List.mem_map_of_mem Val.key he)).1
        omega
    · rw [insRep_cons_gt v w ws hx] at hy
      rcases List.mem_cons.mp hy with he | he
      · refine Or.inr ⟨by rw [he]; exact List.mem_cons_self _ _, ?_⟩
        rw [he]
        omega
      · rcases ih (some w.key) hcr he with h2 | h2
        · exact Or.inl h2
        · exact Or.inr ⟨List.mem_cons_of_mem w h2.1, h2.2⟩

/-- `remove_max` takes out exactly the value `node_find_max` locates by the
rightmost descent: both are the last element of the ordered contents. -/
theorem remove_max_eq_find_max (minv : Nat) (lo hi : Option Int) (h : Nat)
    (t : BTreeNode) (hw : wfT minv MAX_VALUES lo hi h t) (hm : 1 ≤ minv) :
    (remove_max t).1 = node_find_max_v t := by
  obtain ⟨hco, _, _, _⟩ := remove_max_spec minv lo hi h t hw hm
  obtain ⟨l, hl⟩ := node_find_max_spec minv MAX_VALUES lo hi h t hw hm
  have h1 : (inorder t).getLast? = some (remove_max t).1 := by
    rw [hco, List.getLast?_concat]
  have h2 : (inorder t).getLast? = some (node_find_max_v t) := by
    rw [hl, List.getLast?_concat]
  rw [h1] at h2
  exact Option.some.injEq _ _ ▸ h2 |>.symm ▸ rfl

/- ---------- size = number of distinct inserted keys ---------- -/

theorem insRep_keys_toFinset (v : Val) (l : List Val) :
    ((insRep v l).map Val.key).toFinset =
      insert v.key ((l.map Val.key).toFinset) := by
  induction l with
  | nil => rfl
  | cons w ws ih =>
    rcases lt_trichotomy v.key w.key with hx | hx | hx
    · rw [insRep_cons_lt v w ws hx]
      simp [List.toFinset_cons]
    · rw [insRep_cons_eq v w ws hx]
      simp only [List.map_cons, List.toFinset_cons, hx,
        Finset.insert_idem]
    · rw [insRep_cons_gt v w ws hx]
      simp only [List.map_cons, List.toFinset_cons, ih]
      rw [Finset.Insert.comm]

theorem visit_keys_nodup (s : SetState) (hs : SInv s) :
    ((set_visit s).map Val.key).Nodup := by
  rcases s with ⟨sr, ssz⟩
  cases sr with
  | none => exact List.nodup_nil
  | some t =>
    obtain ⟨h, hw⟩ := hs.1
    have hch := wfT_chain 1 MAX_VALUES none none h t hw
    have hp := List.chain'_iff_pairwise.mp hch.1
    exact hp.imp fun hlt => ne_of_lt hlt

theorem foldl_ins_keys (vs : List Val) :
    ∀ s : SetState, SInv s →
    ((set_visit (vs.foldl (fun s2 v => (set_insert s2 v).1) s)).map
        Val.key).toFinset =
      ((set_visit s).map Val.key).toFinset ∪ (vs.map Val.key).toFinset := by
  induction vs with
  | nil =>
    intro s hs
    simp
  | cons v vs2 ih =>
    intro s hs
    rw [List.foldl_cons]
    have hvis := (set_insert_spec s v hs).2.1
    have hinv := (set_insert_spec s v hs).1
    rw [ih (set_insert s v).1 hinv, hvis, insRep_keys_toFinset]
    rw [List.map_cons, List.toFinset_cons, Finset.insert_union,
      Finset.union_insert]

/-- The state after an insert-only run from a fresh set. -/
theorem runOps_ins_eq_foldl (vs : List Val) :
    runOps (vs.map Op.ins) =
      vs.foldl (fun s2 v => (set_insert s2 v).1) set_create := by
  rw [runOps, List.foldl_map]
  rfl

theorem visit_chain (s : SetState) (hs : SInv s) :
    chainB none none ((set_visit s).map Val.key) := by
  rcases s with ⟨sr, ssz⟩
  cases sr with
  | none => exact chainB_nil none none
  | some t =>
    obtain ⟨h, hw⟩ := hs.1
    exact wfT_chain 1 MAX_VALUES none none h t hw

/- ================== the claims ================== -/

/-- C1: every state reachable from `set_create` by `set_insert`/`set_remove`
calls satisfies the B-tree shape invariant: the source's own checker
`set_is_proper`/`node_is_btree` (occupancy bounds with the root exemption,
within-node ordering, separator bounds against the flanking subtrees'
extremes, equal leaf depth) accepts the tree, and the semantic invariant
`wfRoot` holds (`wfT` enforces per-node occupancy `MIN_VALUES‥MAX_VALUES`
off the root, `k` values with exactly `k+1` children or a leaf, strict key
bounds between every value and its flanking subtrees, and uniform height).
-/
theorem C1_shape_invariant_after_every_mutation (ops : List Op) :
    set_is_proper (runOps ops) = true ∧ wfRoot (runOps ops).root :=
  ⟨set_is_proper_of_SInv (runOps ops) (SInv_runOps ops),
   (SInv_runOps ops).1⟩

/-- C2: on every reachable set, iterating `set_next` from `set_first` with
one step of fuel beyond the contents' length still visits exactly
`set_visit`'s list — the ordered contents — so the step after the last
element must have returned the sentinel; the visited keys are strictly
ascending and their number is exactly the cached `set_size`. -/
theorem C2_traversal_first_next_matches_visit (ops : List Op) :
    travFrom (runOps ops) ((set_visit (runOps ops)).length + 1)
        (set_first (runOps ops)) = set_visit (runOps ops) ∧
    ((set_visit (runOps ops)).map Val.key).Chain' (· < ·) ∧
    set_size (runOps ops) = ((set_visit (runOps ops)).length : Int) := by
  have hs := SInv_runOps ops
  rcases hR : runOps ops with ⟨sr, ssz⟩
  rw [hR] at hs
  cases sr with
  | none =>
    exact ⟨rfl, List.chain'_nil, hs.2⟩
  | some t =>
    obtain ⟨h, hw⟩ := hs.1
    obtain ⟨l, hl⟩ := node_find_min_spec 1 MAX_VALUES none none h t hw
      le_rfl
    have hfirst : set_first ⟨some t, ssz⟩ = some (node_find_min_v t) := rfl
    have hvis : set_visit ⟨some t, ssz⟩ = inorder t := rfl
    refine ⟨?_, (wfT_chain 1 MAX_VALUES none none h t hw).1, hs.2⟩
    rw [hfirst, hvis, hl, List.length_cons]
    exact travFrom_suffix t h hw ssz l [] (node_find_min_v t)
      (l.length + 1 + 1) (by omega) hl

/-- C3: after any sequence of `set_insert` calls on a fresh set, `set_size`
is the number of distinct keys (comparator equivalence classes) inserted;
re-inserting an equal value never changes the size. -/
theorem C3_size_is_distinct_insert_count (vs : List Val) :
    set_size (runOps (vs.map Op.ins)) =
      (((vs.map Val.key).toFinset.card : Nat) : Int) := by
  have hs := SInv_runOps (vs.map Op.ins)
  have hkeys := foldl_ins_keys vs set_create SInv_create
  rw [← runOps_ins_eq_foldl] at hkeys
  have hnd := visit_keys_nodup (runOps (vs.map Op.ins)) hs
  have hcard : ((set_visit (runOps (vs.map Op.ins))).map
      Val.key).toFinset.card = (vs.map Val.key).toFinset.card := by
    rw [hkeys]
    simp [set_create, set_visit]
  rw [List.toFinset_card_of_nodup hnd] at hcard
  have hlen : (set_visit (runOps (vs.map Op.ins))).length =
      (vs.map Val.key).toFinset.card := by
    have := List.length_map (set_visit (runOps (vs.map Op.ins))) Val.key
    omega
  show (runOps (vs.map Op.ins)).size = _
  rw [hs.2, hlen]

/-- C4: removing a value with a comparator-equal member present returns
true; afterwards `set_find` on that value is the not-found sentinel (NULL)
and the size is exactly one less. -/
theorem C4_remove_present (s : SetState) (v : Val) (hs : SInv s)
    (hp : ∃ x ∈ set_visit s, x.key = v.key) :
    (set_remove s v).2.1 = true ∧
    set_find (set_remove s v).1 v = none ∧
    set_size (set_remove s v).1 = set_size s - 1 := by
  obtain ⟨hinv, hfalse, htrue⟩ := set_remove_spec s v hs
  cases hfl : (set_remove s v).2.1 with
  | false =>
    obtain ⟨x, hx, hk⟩ := hp
    exact absurd hk ((hfalse hfl).2.2 x hx)
  | true =>
    obtain ⟨old, hdes, homem, hokey, hvis, hsz⟩ := htrue hfl
    have hch := visit_chain s hs
    have hnk : ∀ x ∈ set_visit (set_remove s v).1, x.key ≠ v.key := by
      rw [hvis]
      exact eraseKeyd_no_key none none v (set_visit s) hch
    refine ⟨rfl, ?_, hsz⟩
    rcases hR : (set_remove s v).1 with ⟨sr2, ssz2⟩
    rw [hR] at hinv hnk
    cases sr2 with
    | none => rfl
    | some t2 =>
      obtain ⟨h2, hw2⟩ := hinv.1
      obtain ⟨hfn, hfs⟩ := node_find_val_spec 1 none none h2 v t2 hw2
      rw [set_find]
      cases hf : node_find_val v t2 with
      | none => exact hf
      | some u =>
        obtain ⟨hu1, hu2⟩ := hfs u hf
        exact absurd hu2 (hnk u hu1)

/-- C5: removing a value with no comparator-equal member (including from the
empty set) returns false and is a complete no-op: the state (root and size)
is unchanged and nothing is handed to the destructor. -/
theorem C5_remove_absent_no_effect (s : SetState) (v : Val) (hs : SInv s)
    (ha : ∀ x ∈ set_visit s, x.key ≠ v.key) :
    (set_remove s v).2.1 = false ∧ (set_remove s v).1 = s ∧
    (set_remove s v).2.2 = [] := by
  obtain ⟨hinv, hfalse, htrue⟩ := set_remove_spec s v hs
  cases hfl : (set_remove s v).2.1 with
  | true =>
    obtain ⟨old, hdes, homem, hokey, hvis, hsz⟩ := htrue hfl
    exact absurd hokey (ha old homem)
  | false =>
    obtain ⟨h1, h2, h3⟩ := hfalse hfl
    exact ⟨rfl, h1, h2⟩

/-- C10: inserting a value whose key is already present stores the new
pointer `v` in place of the old one, and exactly the displaced stored value
is handed to the destructor — never the new pointer, unless the new pointer
is the very value that was stored, in which case the destructor runs on
that (still stored) pointer; the size is unchanged. -/
theorem C10_insert_equal_replaces_and_destroys_old (s : SetState) (v x : Val)
    (hs : SInv s) (hx : x ∈ set_visit s) (hk : x.key = v.key) :
    (set_insert s v).2 = [x] ∧
    v ∈ set_visit (set_insert s v).1 ∧
    (x ≠ v → x ∉ set_visit (set_insert s v).1) ∧
    set_size (set_insert s v).1 = set_size s := by
  obtain ⟨hinv, hvis, hnew, hrep⟩ := set_insert_spec s v hs
  obtain ⟨old, hdes, homem, hokey, hsz⟩ := hrep ⟨x, hx, hk⟩
  have hch := visit_chain s hs
  have hox : old = x :=
    mem_unique_key none none (set_visit s) hch old x homem hx
      (by rw [hokey, hk])
  subst hox
  refine ⟨hdes, ?_, ?_, hsz⟩
  · rw [hvis]
    exact insRep_self_mem v (set_visit s)
  · intro hne hmem
    rw [hvis] at hmem
    rcases insRep_mem_elim none none v (set_visit s) hch old hmem with
      he | he
    · exact hne he
    · exact he.2 (by rw [← hokey])

/-- C6: splitting a node that overflowed to `MAX_VALUES + 1 = 5` values cuts
at `half = count/2 = 2`: the left node and the freshly created right sibling
each end with exactly `floor(count/2) = 2` values (so both satisfy the
minimum occupancy), the promoted value is exactly the median `vals[2]`, both
halves are well-formed around it and the ordered contents are preserved;
and when the overflowing node was the root (`parent == NULL`,
ADTSet.c:354-361), `node_insert` makes a new root holding just the promoted
median with the two halves as its children. -/
theorem C6_split_mechanics (lo hi : Option Int) (h : Nat) (t : BTreeNode)
    (hw : wfT 1 (MAX_VALUES + 1) lo hi h t) (hc : t.count = MAX_VALUES + 1) :
    (split t).1.count = (MAX_VALUES + 1) / 2 ∧
    (split t).2.2.count = (MAX_VALUES + 1) / 2 ∧
    (split t).2.1 = t.vals.getD ((MAX_VALUES + 1) / 2) dummy ∧
    wfT MIN_VALUES MAX_VALUES lo (some (split t).2.1.key) h (split t).1 ∧
    wfT MIN_VALUES MAX_VALUES (some (split t).2.1.key) hi h (split t).2.2 ∧
    inorder (split t).1 ++ (split t).2.1 :: inorder (split t).2.2 =
      inorder t ∧
    (∀ (v : Val) (t0 : BTreeNode) (h0 : Nat),
      wfT 1 MAX_VALUES none none h0 t0 →
      (node_insert_go v t0).2 = none →
      (node_insert_go v t0).1.count > MAX_VALUES →
      node_insert (some t0) v =
        (.node [(split (node_insert_go v t0).1).2.1]
          [(split (node_insert_go v t0).1).1,
           (split (node_insert_go v t0).1).2.2], true, none)) := by
  obtain ⟨sco, swl, swr, slo, shi, sc1, sc2, smed⟩ := split_spec lo hi h t
    hw hc
  refine ⟨sc1, sc2, smed, swl, swr, sco, ?_⟩
  intro v t0 h0 hw0 hgr hov
  simp [node_insert, hgr, hov]

/-- C7: when the removal target compares equal to a separator `w` of an
internal node (the `node_find`-walk hit, ADTSet.c:251-267), the rebuilt
window replaces `w` in place by the value `remove_max` extracts from `w`'s
left child `p` — nothing is deleted out of the internal node itself; that
extracted value is exactly the one `node_find_max` locates by the rightmost
descent, and it is physically removed from `p`'s contents (the leaf it
occupied), leaving `p`'s ordered contents minus their last element for the
unwind to rebalance. -/
theorem C7_internal_remove_replaces_with_left_max (lo hi : Option Int)
    (h : Nat) (v w : Val) (p c : BTreeNode) (ws : List Val)
    (cs : List BTreeNode)
    (hp : wfT MIN_VALUES MAX_VALUES lo (some w.key) h p)
    (hcr : cmpv v w = 0) :
    remWalk v p (w :: ws) (c :: cs) =
      some ((remove_max p).2, (remove_max p).1 :: ws, c :: cs, w) ∧
    (remove_max p).1 = node_find_max_v p ∧
    inorder p = inorder (remove_max p).2 ++ [(remove_max p).1] := by
  refine ⟨?_, ?_, ?_⟩
  · simp only [remWalk]
    rw [if_pos hcr]
  · exact remove_max_eq_find_max MIN_VALUES lo (some w.key) h p hp
      (by decide)
  · exact (remove_max_spec MIN_VALUES lo (some w.key) h p hp (by decide)).1

/-- C8: `repair_underflow`'s priority on an underflowed non-first child
(window `(p, w, nd, w2 :: ws, c2 :: cs)`: left sibling `p`, separator `w`,
deficient node `nd`, right sibling `c2` behind separator `w2`): a right
sibling with surplus gives `transfer_left` (the separator `w2` moves down
into `nd`, the right sibling's smallest value moves up as the new
separator, and for internal nodes its first child moves across); otherwise
a left sibling with surplus gives `tranfer_right`; otherwise `nd` merges
into the left sibling, pulling the separator `w` down; and at the root,
`node_remove` replaces a root emptied by the repair with its sole remaining
child (ADTSet.c:270-277). -/
theorem C8_underflow_repair_priority (p nd c2 : BTreeNode) (w w2 : Val)
    (ws : List Val) (cs : List BTreeNode)
    (hdef : nd.count < MIN_VALUES) :
    (c2.count > MIN_VALUES →
      repair_mid p w nd (w2 :: ws) (c2 :: cs) =
        (p, w :: (transfer_left nd w2 c2).2.1 :: ws,
         (transfer_left nd w2 c2).1 :: (transfer_left nd w2 c2).2.2 ::
           cs) ∧
      (transfer_left nd w2 c2).1.vals = nd.vals ++ [w2] ∧
      (transfer_left nd w2 c2).2.1 = c2.vals.getD 0 dummy ∧
      (transfer_left nd w2 c2).2.2.vals = c2.vals.drop 1) ∧
    (¬ c2.count > MIN_VALUES → p.count > MIN_VALUES →
      repair_mid p w nd (w2 :: ws) (c2 :: cs) =
        ((tranfer_right p w nd).1,
         (tranfer_right p w nd).2.1 :: w2 :: ws,
         (tranfer_right p w nd).2.2 :: c2 :: cs)) ∧
    (¬ c2.count > MIN_VALUES → ¬ p.count > MIN_VALUES →
      repair_mid p w nd (w2 :: ws) (c2 :: cs) =
        (merge p w nd, w2 :: ws, c2 :: cs)) ∧
    (∀ (v : Val) (t : BTreeNode) (r : BTreeNode × Val),
      node_remove_go v t = some r → r.1.count = 0 →
      node_remove (some t) v = (r.1.children.head?, true, some r.2)) := by
  have hng : ¬ MIN_VALUES ≤ nd.count := by omega
  refine ⟨?_, ?_, ?_, ?_⟩
  · intro hsur
    refine ⟨?_, rfl, rfl, rfl⟩
    rw [repair_mid, if_neg hng, if_pos hsur]
  · intro hnos hpsur
    rw [repair_mid, if_neg hng, if_neg hnos, if_pos hpsur]
  · intro hnos hnop
    rw [repair_mid, if_neg hng, if_neg hnos, if_neg hnop]
  · intro v t r hgo hz
    simp [node_remove, hgo, hz]

/-- C9: `SET_BOF` and `SET_EOF` are the same null sentinel; `set_first` and
`set_last` on the empty set return it; on any reachable non-empty set,
`set_next` at the global maximum (`set_last`) yields `SET_EOF` and
`set_previous` at the global minimum (`set_first`) yields `SET_BOF` — the
before-first and after-last positions are indistinguishable. -/
theorem C9_sentinel_identity_and_boundaries (ops : List Op) :
    SET_BOF = SET_EOF ∧
    set_first set_create = SET_EOF ∧
    set_last set_create = SET_BOF ∧
    (∀ v : Val, set_last (runOps ops) = some v →
      set_next (runOps ops) v = SET_EOF) ∧
    (∀ v : Val, set_first (runOps ops) = some v →
      set_previous (runOps ops) v = SET_BOF) := by
  have hs := SInv_runOps ops
  refine ⟨rfl, rfl, rfl, ?_, ?_⟩
  · intro v hv
    cases hroot : (runOps ops).root with
    | none =>
      rw [set_last, hroot] at hv
      cases hv
    | some t =>
      rw [set_last, hroot] at hv
      have hr := hs.1
      rw [hroot] at hr
      obtain ⟨h, hw⟩ := hr
      have hveq : v = node_find_max_v t := by
        cases hv
        rfl
      subst hveq
      obtain ⟨l, hl⟩ := node_find_max_spec 1 MAX_VALUES none none h t hw
        le_rfl
      rw [set_next, hroot]
      exact node_next_val_spec 1 none none h (node_find_max_v t) none t l
        [] hw hl
  · intro v hv
    cases hroot : (runOps ops).root with
    | none =>
      rw [set_first, hroot] at hv
      cases hv
    | some t =>
      rw [set_first, hroot] at hv
      have hr := hs.1
      rw [hroot] at hr
      obtain ⟨h, hw⟩ := hr
      have hveq : v = node_find_min_v t := by
        cases hv
        rfl
      subst hveq
      obtain ⟨l, hl⟩ := node_find_min_spec 1 MAX_VALUES none none h t hw
        le_rfl
      rw [set_previous, hroot]
      exact node_prev_val_spec 1 none none h (node_find_min_v t) none t []
        l hw hl

theorem C4_remove_present_witness :
    (∃ x ∈ set_visit (runOps [Op.ins ⟨5, 0⟩]), x.key = (⟨5, 1⟩ : Val).key) ∧
    (set_remove (runOps [Op.ins ⟨5, 0⟩]) ⟨5, 1⟩).2.1 = true :=
  ⟨by decide, (C4_remove_present (runOps [Op.ins ⟨5, 0⟩]) ⟨5, 1⟩
    (SInv_runOps [Op.ins ⟨5, 0⟩]) (by decide)).1⟩

theorem C5_remove_absent_no_effect_witness :
    (∀ x ∈ set_visit (runOps ([] : List Op)), x.key ≠ (⟨3, 0⟩ : Val).key) ∧
    (set_remove (runOps ([] : List Op)) ⟨3, 0⟩).2.1 = false :=
  ⟨by decide, (C5_remove_absent_no_effect (runOps []) ⟨3, 0⟩
    (SInv_runOps []) (by decide)).1⟩

theorem C6_split_mechanics_witness :
    wfT 1 (MAX_VALUES + 1) none none 1
      (.node [⟨1, 0⟩, ⟨2, 0⟩, ⟨3, 0⟩, ⟨4, 0⟩, ⟨5, 0⟩] []) ∧
    (BTreeNode.node [⟨1, 0⟩, ⟨2, 0⟩, ⟨3, 0⟩, ⟨4, 0⟩, ⟨5, 0⟩] []).count =
      MAX_VALUES + 1 ∧
    (split (.node [⟨1, 0⟩, ⟨2, 0⟩, ⟨3, 0⟩, ⟨4, 0⟩, ⟨5, 0⟩] [])).1.count =
      (MAX_VALUES + 1) / 2 := by
  have hwT : wfT 1 (MAX_VALUES + 1) none none 1
      (.node [⟨1, 0⟩, ⟨2, 0⟩, ⟨3, 0⟩, ⟨4, 0⟩, ⟨5, 0⟩] []) :=
    ⟨by decide, by decide, rfl, by norm_num [List.chain'_cons], by decide⟩
  exact ⟨hwT, by decide, (C6_split_mechanics none none 1 _ hwT
    (by decide)).1⟩

theorem C7_internal_remove_replaces_with_left_max_witness :
    wfT MIN_VALUES MAX_VALUES none (some (3 : Int))
      1 (.node [⟨1, 0⟩, ⟨2, 0⟩] []) ∧
    cmpv ⟨3, 9⟩ ⟨3, 0⟩ = 0 ∧
    (remove_max (.node [⟨1, 0⟩, ⟨2, 0⟩] [])).1 =
      node_find_max_v (.node [⟨1, 0⟩, ⟨2, 0⟩] []) := by
  have hwT : wfT MIN_VALUES MAX_VALUES none (some (3 : Int)) 1
      (.node [⟨1, 0⟩, ⟨2, 0⟩] []) :=
    ⟨by decide, by decide, rfl, by norm_num [List.chain'_cons], by decide⟩
  exact ⟨hwT, by decide, (C7_internal_remove_replaces_with_left_max none
    none 1 ⟨3, 9⟩ ⟨3, 0⟩ (.node [⟨1, 0⟩, ⟨2, 0⟩] [])
    (.node [⟨4, 0⟩, ⟨5, 0⟩] []) [] [] hwT (by decide)).2.1⟩

theorem C8_underflow_repair_priority_witness :
    (BTreeNode.node [⟨5, 0⟩] []).count < MIN_VALUES ∧
    (BTreeNode.node [⟨8, 0⟩, ⟨9, 0⟩, ⟨10, 0⟩] []).count > MIN_VALUES ∧
    (transfer_left (.node [⟨5, 0⟩] []) ⟨7, 0⟩
      (.node [⟨8, 0⟩, ⟨9, 0⟩, ⟨10, 0⟩] [])).1.vals =
      (BTreeNode.node [⟨5, 0⟩] []).vals ++ [⟨7, 0⟩] :=
  ⟨by decide, by decide,
   ((C8_underflow_repair_priority (.node [⟨1, 0⟩, ⟨2, 0⟩] [])
      (.node [⟨5, 0⟩] []) (.node [⟨8, 0⟩, ⟨9, 0⟩, ⟨10, 0⟩] [])
      ⟨3, 0⟩ ⟨7, 0⟩ [] [] (by decide)).1 (by decide)).2.1⟩

theorem C9_sentinel_identity_and_boundaries_witness :
    set_last (runOps [Op.ins ⟨1, 0⟩]) = some ⟨1, 0⟩ ∧
    set_next (runOps [Op.ins ⟨1, 0⟩]) ⟨1, 0⟩ = SET_EOF := by
  have hlast : set_last (runOps [Op.ins ⟨1, 0⟩]) = some ⟨1, 0⟩ := by
    show some (node_find_max_v (.node [⟨1, 0⟩] [])) = some ⟨1, 0⟩
    rw [node_find_max_v]
    decide
  exact ⟨hlast, (C9_sentinel_identity_and_boundaries
    [Op.ins ⟨1, 0⟩]).2.2.2.1 ⟨1, 0⟩ hlast⟩

theorem C10_insert_equal_replaces_and_destroys_old_witness :
    (⟨7, 0⟩ : Val) ∈ set_visit (runOps [Op.ins ⟨7, 0⟩]) ∧
    (⟨7, 0⟩ : Val).key = (⟨7, 1⟩ : Val).key ∧
    (set_insert (runOps [Op.ins ⟨7, 0⟩]) ⟨7, 1⟩).2 = [⟨7, 0⟩] :=
  ⟨by decide, rfl, (C10_insert_equal_replaces_and_destroys_old
    (runOps [Op.ins ⟨7, 0⟩]) ⟨7, 1⟩ ⟨7, 0⟩ (SInv_runOps [Op.ins ⟨7, 0⟩])
    (by decide) rfl).1⟩

end ADTSet
